import Mathlib

/-!
Verification development for the `mermaid-reactflow-editor` graph core
(`src/graph/mermaid-parser.ts`, `src/graph/graph.model.ts`,
`src/graph/auto-layout.ts`, `src/graph/reactflow-adapter.ts`).

The TypeScript source is shallowly embedded: JS `Record` objects are
association lists in insertion order (assignment to an existing key keeps
its position and replaces the value), JS strings are Lean `String`s, and
the regular expressions of the parser are replaced by equivalent
deterministic scanners over `List Char`.  Geometry is over `ℚ` (the source
computes with JS numbers; every quantity the theorems below touch is
produced by integer-valued arithmetic, additions and halvings, where the
rational semantics coincides with the float semantics).  The external
Dagre layout library is not part of the repository; following the spec
(§4.4: any deterministic layered layout is acceptable) it is abstracted as
an oracle that assigns a center position to every node added to a layout
graph.
-/

/-! ## Association lists with JS `Record` semantics -/

/-- `Record` lookup: first entry with the key. -/
def mlookup {α : Type} (m : List (String × α)) (k : String) : Option α :=
  match m with
  | [] => none
  | (k', v) :: rest => if k' = k then some v else mlookup rest k

/-- `Record` assignment: replace in place if the key is present, else append. -/
def minsert {α : Type} (m : List (String × α)) (k : String) (v : α) :
    List (String × α) :=
  match m with
  | [] => [(k, v)]
  | (k', v') :: rest =>
      if k' = k then (k, v) :: rest else (k', v') :: minsert rest k v

/-- `Object.keys`: keys in insertion order. -/
def mkeys {α : Type} (m : List (String × α)) : List String :=
  m.map (·.1)

/-- `Object.values`: values in insertion order. -/
def mvals {α : Type} (m : List (String × α)) : List α :=
  m.map (·.2)

/-! ## Semantic graph model (`graph.model.ts`) -/

/-- `NodeKind` union of `graph.model.ts`. -/
inductive NodeKind where
  | rect | round | stadium | circle | diamond
  deriving DecidableEq, Repr

/-- `EdgeKind` union of `graph.model.ts`. -/
inductive EdgeKind where
  | directed | bidirectional
  deriving DecidableEq, Repr

/-- Flowchart `Node` of `graph.model.ts`. -/
structure GNode where
  id : String
  label : String
  kind : NodeKind
  parent : Option String
  deriving DecidableEq, Repr

/-- Flowchart `Edge` of `graph.model.ts`. -/
structure GEdge where
  id : String
  source : String
  target : String
  label : Option String
  kind : EdgeKind
  deriving DecidableEq, Repr

/-- `Subgraph` of `graph.model.ts`. -/
structure GSubgraph where
  id : String
  label : String
  parent : Option String
  children : List String
  direction : Option String
  deriving DecidableEq, Repr

/-- `GraphMeta` of `graph.model.ts` (flowchart dialect: only the direction). -/
structure GraphMeta where
  direction : String
  deriving DecidableEq, Repr

/-- `Graph` of `graph.model.ts`. -/
structure Graph where
  meta : GraphMeta
  nodes : List (String × GNode)
  edges : List (String × GEdge)
  subgraphs : List (String × GSubgraph)
  deriving DecidableEq, Repr

/-! ## Character and scanning utilities

The parser's regular expressions are deterministic on the patterns the
source uses; they are implemented below as explicit scanners over
`List Char`. -/

def isWs (c : Char) : Bool := c.isWhitespace

/-- JS `[A-Za-z0-9_]`. -/
def isIdChar (c : Char) : Bool := c.isAlphanum || c = '_'

/-- JS `[\[\(\{]`. -/
def isOpener (c : Char) : Bool := c = '[' || c = '(' || c = '\x7b'

/-- JS `[\]\)\}]`. -/
def isCloser (c : Char) : Bool := c = ']' || c = ')' || c = '\x7d'

/-- Matching close delimiter, as in the source's ternary chains. -/
def closeOf (c : Char) : Char :=
  if c = '[' then ']' else if c = '(' then ')' else '\x7d'

def charAt (cs : List Char) (i : Nat) : Option Char := cs.get? i

/-- `slice(i, j)` on a char list. -/
def subChars (cs : List Char) (i j : Nat) : List Char :=
  (cs.drop i).take (j - i)

/-- Length of the run of characters satisfying `p` starting at `i`. -/
def runLen (p : Char → Bool) (cs : List Char) (i : Nat) : Nat :=
  ((cs.drop i).takeWhile p).length

/-- First index `≥ pos` where `pat` occurs (JS `indexOf(pat, pos)`). -/
def idxOfFrom (cs pat : List Char) : Nat → Nat → Option Nat
  | 0, _ => none
  | fuel + 1, pos =>
      if pat.isPrefixOf (cs.drop pos) then some pos
      else if cs.length ≤ pos then none
      else idxOfFrom cs pat fuel (pos + 1)

def strIndexOfFrom (cs pat : List Char) (pos : Nat) : Option Nat :=
  idxOfFrom cs pat (cs.length + 1) pos

/-- JS `String.prototype.includes`. -/
def strContains (s pat : String) : Bool :=
  (strIndexOfFrom s.data pat.data 0).isSome

/-- Case-insensitive prefix match at an index. -/
def matchCI (cs : List Char) (pat : List Char) (i : Nat) : Bool :=
  ((subChars cs i (i + pat.length)).map Char.toLower) = pat.map Char.toLower

/-! ## `getNodeKind` and `cleanLabel` (`mermaid-parser.ts`) -/

/-- `getNodeKind`: shape detection by delimiter containment. -/
def getNodeKind (nodeDefinition : String) : NodeKind :=
  if strContains nodeDefinition "\x7b" && strContains nodeDefinition "\x7d" then
    .diamond
  else if strContains nodeDefinition "((" && strContains nodeDefinition "))" then
    .circle
  else if strContains nodeDefinition "([" && strContains nodeDefinition "])" then
    .stadium
  else if strContains nodeDefinition "[" && strContains nodeDefinition "]" then
    .rect
  else if strContains nodeDefinition "(" && strContains nodeDefinition ")" then
    .round
  else .rect

/-- Length consumed by `/<br\s*\/?>/i` when it matches at the head. -/
def brLen (cs : List Char) : Option Nat :=
  match cs with
  | '<' :: b :: r :: rest =>
      if b.toLower = 'b' ∧ r.toLower = 'r' then
        let w := (rest.takeWhile isWs).length
        match charAt rest w with
        | some '>' => some (4 + w)
        | some '/' =>
            match charAt rest (w + 1) with
            | some '>' => some (5 + w)
            | _ => none
        | _ => none
      else none
  | _ => none

/-- `replace(/<br\s*\/?>/gi, "\n")`. -/
def replBrGo : Nat → List Char → List Char
  | 0, cs => cs
  | _ + 1, [] => []
  | fuel + 1, c :: rest =>
      match brLen (c :: rest) with
      | some n => '\n' :: replBrGo fuel ((c :: rest).drop n)
      | none => c :: replBrGo fuel rest

/-- `replace(/<[^>]*>/g, "")`: an unclosed `<` stays. -/
def replTagsGo : Nat → List Char → List Char
  | 0, cs => cs
  | _ + 1, [] => []
  | fuel + 1, c :: rest =>
      if c = '<' then
        match strIndexOfFrom (c :: rest) ['>'] 1 with
        | some j => replTagsGo fuel ((c :: rest).drop (j + 1))
        | none => c :: replTagsGo fuel rest
      else c :: replTagsGo fuel rest

def isHexDigit (c : Char) : Bool :=
  c.isDigit || ('a' ≤ c ∧ c ≤ 'f') || ('A' ≤ c ∧ c ≤ 'F')

def hexVal (c : Char) : Nat :=
  if c.isDigit then c.toNat - 48
  else if 'a' ≤ c ∧ c ≤ 'f' then c.toNat - 87
  else c.toNat - 55

/-- `replace(/\\u([0-9a-fA-F]{4})/g, fromCharCode)`; the code point is a
16-bit value, which is always a valid `Char.ofNat` argument outside the
surrogate range (labels in this development never use surrogates). -/
def replUnicodeGo : Nat → List Char → List Char
  | 0, cs => cs
  | _ + 1, [] => []
  | fuel + 1, c :: rest =>
      match c, rest with
      | '\\', 'u' :: a :: b :: d :: e :: rest' =>
          if isHexDigit a ∧ isHexDigit b ∧ isHexDigit d ∧ isHexDigit e then
            Char.ofNat
                (hexVal a * 4096 + hexVal b * 256 + hexVal d * 16 + hexVal e) ::
              replUnicodeGo fuel rest'
          else c :: replUnicodeGo fuel rest
      | _, _ => c :: replUnicodeGo fuel rest

/-- `replace(/\\n/g, "\n")`. -/
def replBackslashN : Nat → List Char → List Char
  | 0, cs => cs
  | _ + 1, [] => []
  | fuel + 1, c :: rest =>
      match c, rest with
      | '\\', 'n' :: rest' => '\n' :: replBackslashN fuel rest'
      | _, _ => c :: replBackslashN fuel rest

/-- `replace(/\s*\n\s*/g, "\n")`: every maximal whitespace run containing a
newline collapses to a single newline. -/
def collapseNlGo : Nat → List Char → List Char
  | 0, cs => cs
  | _ + 1, [] => []
  | fuel + 1, c :: rest =>
      if isWs c then
        let run := (c :: rest).takeWhile isWs
        let rest' := (c :: rest).drop run.length
        if run.contains '\n' then '\n' :: collapseNlGo fuel rest'
        else run ++ collapseNlGo fuel rest'
      else c :: collapseNlGo fuel rest

def trimChars (cs : List Char) : List Char :=
  ((cs.dropWhile isWs).reverse.dropWhile isWs).reverse

/-! Structural replacements for the core `String` operations the source
uses (`trim`, `split("\n")`, `startsWith`, `toLowerCase`, `slice`,
`join("\n")`); the library versions do not reduce definitionally. -/

/-- JS `trim()`. -/
def jsTrim (s : String) : String := String.mk (trimChars s.data)

/-- JS `split("\n")` (keeps empty segments; `"" → [""]`). -/
def splitNlChars : List Char → List (List Char)
  | [] => [[]]
  | c :: rest =>
      let r := splitNlChars rest
      if c = '\n' then [] :: r
      else
        match r with
        | h :: t => (c :: h) :: t
        | [] => [[c]]

def jsSplitLines (s : String) : List String := (splitNlChars s.data).map String.mk

/-- JS `startsWith`. -/
def jsStartsWith (s pat : String) : Bool := pat.data.isPrefixOf s.data

/-- JS `toLowerCase` (ASCII). -/
def jsToLower (s : String) : String := String.mk (s.data.map Char.toLower)

/-- JS `slice(n)`. -/
def jsDrop (s : String) (n : Nat) : String := String.mk (s.data.drop n)

/-- JS `join("\n")`. -/
def joinNl : List String → String
  | [] => ""
  | [s] => s
  | s :: rest => s ++ "\n" ++ joinNl rest

/-- `cleanLabel`: the label sanitation pipeline of `mermaid-parser.ts`. -/
def cleanLabel (label : String) : String :=
  let s1 := replBrGo label.data.length label.data
  let s2 := replTagsGo s1.length s1
  let s3 := replUnicodeGo s2.length s2
  let s4 := replBackslashN s3.length s3
  let s5 := collapseNlGo s4.length s4
  String.mk (trimChars s5)

/-! ## `scanNodeDefinitions` (`mermaid-parser.ts`) -/

/-- Entry of the `nodeDefinitions` map. -/
structure NodeDef where
  label : String
  kind : NodeKind
  fullDef : String
  deriving DecidableEq, Repr

/-- One attempt of `/(^|[\s\-\>]|\|[^|]*\|)([A-Za-z0-9_]+)([\[\(\{])/` at
start index `s`: returns `(prefixLength, id, openChar)`. -/
def tryDefAt (cs : List Char) (s : Nat) : Option (Nat × String × Char) :=
  let afterPrefix : Nat → Option (Nat × String × Char) := fun plen =>
    let idLen := runLen isIdChar cs (s + plen)
    if idLen = 0 then none
    else
      match charAt cs (s + plen + idLen) with
      | some c =>
          if isOpener c then
            some (plen, String.mk (subChars cs (s + plen) (s + plen + idLen)), c)
          else none
      | none => none
  let alt1 := if s = 0 then afterPrefix 0 else none
  match alt1 with
  | some r => some r
  | none =>
      match charAt cs s with
      | some c =>
          if isWs c || c = '-' || c = '>' then afterPrefix 1
          else if c = '|' then
            match strIndexOfFrom cs ['|'] (s + 1) with
            | some t => afterPrefix (t - s + 1)
            | none => none
          else none
      | none => none

/-- Leftmost match of the node-definition pattern at start index `≥ pos`. -/
def findDefFrom (cs : List Char) : Nat → Nat → Option (Nat × Nat × String × Char)
  | 0, _ => none
  | fuel + 1, pos =>
      match tryDefAt cs pos with
      | some (plen, id, oc) => some (pos, plen, id, oc)
      | none =>
          if cs.length ≤ pos then none
          else findDefFrom cs fuel (pos + 1)

/-- Depth-matched closing delimiter search of `scanNodeDefinitions`
(counts only `openChar`/`closeChar`, starting at `openIndex`). -/
def findDepthClose (cs : List Char) (openChar closeChar : Char) :
    Nat → Nat → Int → Option Nat
  | 0, _, _ => none
  | fuel + 1, i, depth =>
      match charAt cs i with
      | none => none
      | some c =>
          if c = openChar then findDepthClose cs openChar closeChar fuel (i + 1) (depth + 1)
          else if c = closeChar then
            if depth - 1 = 0 then some i
            else findDepthClose cs openChar closeChar fuel (i + 1) (depth - 1)
          else findDepthClose cs openChar closeChar fuel (i + 1) depth

/-- One attempt of the fallback `/([A-Za-z0-9_]+)([\[\(\{][^\]\)\}]*[\]\)\}])/`
at index `p` of `rem`; returns `(id, shapeEndExclusive)`. -/
def tryFallbackAt (rem : List Char) (p : Nat) : Option (String × Nat × Nat) :=
  let idLen := runLen isIdChar rem p
  if idLen = 0 then none
  else
    match charAt rem (p + idLen) with
    | some c =>
        if isOpener c then
          let inner := runLen (fun d => ¬ isCloser d) rem (p + idLen + 1)
          match charAt rem (p + idLen + 1 + inner) with
          | some d =>
              if isCloser d then
                some (String.mk (subChars rem p (p + idLen)), p + idLen,
                  p + idLen + 1 + inner + 1)
              else none
          | none => none
        else none
    | none => none

def findFallback (rem : List Char) : Nat → Nat → Option (String × Nat × Nat)
  | 0, _ => none
  | fuel + 1, p =>
      match tryFallbackAt rem p with
      | some r => some r
      | none =>
          if rem.length ≤ p then none
          else findFallback rem fuel (p + 1)

/-- `/^"(.*)"$/` then `/^'(.*)'$/`, each applied once. -/
def stripQuotesOnce (cs : List Char) (q : Char) : List Char :=
  match cs with
  | [] => []
  | c :: rest =>
      if c = q ∧ rest ≠ [] ∧ rest.getLast? = some q then rest.dropLast
      else c :: rest

/-- Label extraction from a shape definition:
`/^[\[\(\{](.*)[\]\)\}]$/s` with quote stripping, then `cleanLabel`. -/
def labelOfShape (nodeId : String) (shapeDef : List Char) : String :=
  let raw :=
    match shapeDef with
    | c :: rest =>
        if isOpener c && !rest.isEmpty &&
            (match rest.getLast? with
             | some d => isCloser d
             | none => false) then
          stripQuotesOnce (stripQuotesOnce rest.dropLast '\"') '\''
        else nodeId.data
    | [] => nodeId.data
  cleanLabel (String.mk raw)

/-- Body of the `while ((match = nodeDefPattern.exec(line)) !== null)` loop. -/
def scanDefsGo (cs : List Char) :
    Nat → Nat → List Nat → List (String × NodeDef) → List (String × NodeDef)
  | 0, _, _, defs => defs
  | fuel + 1, pos, processed, defs =>
      match findDefFrom cs (cs.length + 1) pos with
      | none => defs
      | some (s, plen, id, openChar) =>
          let matchStart := s + plen
          let nextPos := matchStart + id.length + 1
          if processed.contains matchStart ∨ (mlookup defs id).isSome then
            scanDefsGo cs fuel nextPos processed defs
          else
            let processed' := matchStart :: processed
            let openIndex := matchStart + id.length
            let closeChar := closeOf openChar
            let fullShape :
                Option (List Char × List Char) :=
              match findDepthClose cs openChar closeChar (cs.length + 1) openIndex 0 with
              | some closeIndex =>
                  some (subChars cs matchStart (closeIndex + 1),
                    subChars cs openIndex (closeIndex + 1))
              | none =>
                  let rem := cs.drop matchStart
                  match findFallback rem (rem.length + 1) 0 with
                  | some (fid, shapeStart, shapeEnd) =>
                      if fid = id then
                        some (subChars rem 0 shapeEnd, subChars rem shapeStart shapeEnd)
                      else none
                  | none => none
            match fullShape with
            | some (fullDef, shapeDef) =>
                if shapeDef ≠ [] then
                  let kind := getNodeKind (String.mk fullDef)
                  let label := labelOfShape id shapeDef
                  scanDefsGo cs fuel nextPos processed'
                    (defs ++ [(id, ⟨label, kind, String.mk fullDef⟩)])
                else scanDefsGo cs fuel nextPos processed' defs
            | none => scanDefsGo cs fuel nextPos processed' defs

/-- `scanNodeDefinitions` over one line (the `definitions` map is threaded
through all lines by the caller). -/
def scanNodeDefinitions (line : String) (defs : List (String × NodeDef)) :
    List (String × NodeDef) :=
  scanDefsGo line.data (line.data.length + 1) 0 [] defs

/-! ## `parseSubgraphLine` (`mermaid-parser.ts`) -/

def isSlugChar (c : Char) : Bool := ('a' ≤ c ∧ c ≤ 'z') || c.isDigit

/-- `replace(/[^a-z0-9]+/g, "-")`. -/
def slugGo : Nat → List Char → List Char
  | 0, cs => cs
  | _ + 1, [] => []
  | fuel + 1, c :: rest =>
      if isSlugChar c then c :: slugGo fuel rest
      else '-' :: slugGo fuel ((c :: rest).dropWhile (fun d => ¬ isSlugChar d))

/-- The subgraph-ID slug: lowercase, non-alphanumeric runs to `-`,
trim `-`, `sg-<lineIndex>` fallback on empty. -/
def slugify (label : String) (lineIndex : Nat) : String :=
  let low := (jsToLower label).data
  let s := slugGo low.length low
  let t := ((s.dropWhile (· = '-')).reverse.dropWhile (· = '-')).reverse
  if t = [] then "sg-" ++ toString lineIndex else String.mk t

/-- `parseSubgraphLine`: returns `(id, cleanedLabel)`. -/
def parseSubgraphLine (line : String) (lineIndex : Nat) :
    Option (String × String) :=
  let rest := jsTrim (jsDrop line 8)
  let cs := rest.data
  let finish : String → Option String → Option (String × String) :=
    fun sid lab =>
      match lab with
      | some l => if l ≠ "" then some (sid, cleanLabel l) else some (sid, sid)
      | none => some (sid, sid)
  let quoted : Option String :=
    match charAt cs 0 with
    | some c =>
        if c = '\"' ∨ c = '\'' then
          match strIndexOfFrom cs [c] 1 with
          | some j => some (String.mk (subChars cs 1 j))
          | none => none
        else none
    | none => none
  match quoted with
  | some lab => finish (slugify lab lineIndex) (some lab)
  | none =>
      let tokLen := runLen (fun c => ¬ (isWs c ∨ c = '[')) cs 0
      let id0 : Option String :=
        if tokLen = 0 then none else some (String.mk (cs.take tokLen))
      let brTitle : Option String :=
        if tokLen = 0 then none
        else
          let w := runLen isWs cs tokLen
          match charAt cs (tokLen + w) with
          | some '[' =>
              let st := tokLen + w + 1
              (match strIndexOfFrom cs [']'] st with
               | some j =>
                   if st < j then some (String.mk (subChars cs st j))
                   else
                     match strIndexOfFrom cs [']'] (st + 1) with
                     | some j' => some (String.mk (subChars cs st j'))
                     | none => none
               | none => none)
          | _ => none
      if brTitle.isNone ∧ cs.contains ' ' then
        finish (slugify rest lineIndex) (some rest)
      else
        let altQuote : Option String :=
          if brTitle.isSome then none
          else
            let t2 := runLen (fun c => ¬ isWs c) cs 0
            if t2 = 0 then none
            else
              let w2 := runLen isWs cs t2
              if w2 = 0 then none
              else
                match charAt cs (t2 + w2) with
                | some q =>
                    if q = '\"' ∨ q = '\'' then
                      match strIndexOfFrom cs [q] (t2 + w2 + 1) with
                      | some j => some (String.mk (subChars cs (t2 + w2 + 1) j))
                      | none => none
                    else none
                | none => none
        match id0 with
        | some sid =>
            (match brTitle with
             | some l => finish sid (some l)
             | none => finish sid altQuote)
        | none => none

/-! ## `extractToken`, `parseEdgeLine`, `parseStandaloneNode` -/

/-- `extractToken`: returns `(id, full, endIndex)`.  Note the source finds
the closing delimiter with a plain `indexOf`, not depth matching. -/
def extractToken (cs : List Char) (startIndex : Nat) :
    Option (String × String × Nat) :=
  let w := runLen isWs cs startIndex
  let idLen := runLen isIdChar cs (startIndex + w)
  if idLen = 0 then none
  else
    let id := String.mk (subChars cs (startIndex + w) (startIndex + w + idLen))
    let idx := startIndex + w + idLen
    let w2 := runLen isWs cs idx
    match charAt cs (idx + w2) with
    | some oc =>
        if isOpener oc then
          let openPos := idx + w2
          match strIndexOfFrom cs [closeOf oc] (openPos + 1) with
          | some closePos =>
              some (id,
                jsTrim (String.mk (subChars cs (startIndex + w) (closePos + 1))),
                closePos + 1)
          | none => some (id, id, idx)
        else some (id, id, idx)
    | none => some (id, id, idx)

structure EdgeParse where
  sourceId : String
  targetId : String
  edgeType : String
  edgeLabel : String
  deriving DecidableEq, Repr

/-- Arrow tokens in the source's priority order. -/
def arrowHeads : List String :=
  ["-.->", "-->", "==>", "->>", "<->", "-<>", "<-", "->"]

/-- The legacy operator list after the source's in-place sort by
descending length (stable). -/
def legacyOps : List String := ["---", "-.-", ":-:", "...", "===", "::", "~"]

/-- Earliest arrow occurrence at index `≥ i`; first in the list wins ties. -/
def findArrow (cs : List Char) (i : Nat) : Option (String × Nat) :=
  arrowHeads.foldl
    (fun best ah =>
      match strIndexOfFrom cs ah.data i with
      | some idx =>
          match best with
          | some (_, bidx) => if idx < bidx then some (ah, idx) else best
          | none => some (ah, idx)
      | none => best)
    none

/-- `/\|(.*?)\|/`: content between the first two pipes. -/
def pipePair (cs : List Char) : Option String :=
  match strIndexOfFrom cs ['|'] 0 with
  | some p =>
      match strIndexOfFrom cs ['|'] (p + 1) with
      | some q => some (String.mk (subChars cs (p + 1) q))
      | none => none
  | none => none

/-- JS class `[\-\.=:\~]`. -/
def isOpClass (c : Char) : Bool :=
  c = '-' || c = '.' || c = '=' || c = ':' || c = '~'

/-- `replace(/^\s*[\-\.=:\~]+\s*/g, "")` (one anchored replacement). -/
def stripLeadingOpRun (cs : List Char) : List Char :=
  let rest := cs.dropWhile isWs
  let run := rest.takeWhile isOpClass
  if run = [] then cs
  else (rest.drop run.length).dropWhile isWs

/-- `replace(/\s*[\-\.=:\~]+\s*$/g, "")`. -/
def stripTrailingOpRun (cs : List Char) : List Char :=
  (stripLeadingOpRun cs.reverse).reverse

/-- `parseEdgeLine`. -/
def parseEdgeLine (line : String) : Option EdgeParse :=
  let cs := line.data
  match extractToken cs 0 with
  | none => none
  | some (srcId, _, srcEnd) =>
      let i0 := srcEnd + runLen isWs cs srcEnd
      match findArrow cs i0 with
      | some (arrow, fi) =>
          let between := subChars cs i0 fi
          let lab0 :=
            match pipePair between with
            | some l => l
            | none =>
                let inline := trimChars (stripTrailingOpRun (stripLeadingOpRun between))
                if inline ≠ [] then String.mk inline else ""
          let i1 := fi + arrow.length
          let i2 := i1 + runLen isWs cs i1
          let next :=
            match charAt cs i2 with
            | some '|' =>
                match strIndexOfFrom cs ['|'] (i2 + 1) with
                | some nxt => (String.mk (subChars cs (i2 + 1) nxt), nxt + 1)
                | none => (lab0, i2)
            | _ => (lab0, i2)
          let i4 := next.2 + runLen isWs cs next.2
          match extractToken cs i4 with
          | some (tgtId, _, _) => some ⟨srcId, tgtId, arrow, cleanLabel next.1⟩
          | none => none
      | none =>
          match legacyOps.find? (fun o => o.data.isPrefixOf (cs.drop i0)) with
          | none => none
          | some op =>
              let i1 := i0 + op.length
              let i2 := i1 + runLen isWs cs i1
              let next :=
                match charAt cs i2 with
                | some '|' =>
                    match strIndexOfFrom cs ['|'] (i2 + 1) with
                    | some nxt => (String.mk (subChars cs (i2 + 1) nxt), nxt + 1)
                    | none => ("", i2)
                | _ => ("", i2)
              let i4 := next.2 + runLen isWs cs next.2
              match extractToken cs i4 with
              | some (tgtId, _, _) => some ⟨srcId, tgtId, op, cleanLabel next.1⟩
              | none => none

/-- `parseStandaloneNode`. -/
def parseStandaloneNode (line : String) (nodes : List (String × GNode))
    (sgs : List (String × GSubgraph)) : Option String :=
  let cs := line.data
  let p1 : Option String :=
    let idLen := runLen isIdChar cs 0
    if idLen = 0 then none
    else
      match charAt cs idLen with
      | some c =>
          if isOpener c then
            let inner := runLen (fun d => ¬ isCloser d) cs (idLen + 1)
            match charAt cs (idLen + 1 + inner) with
            | some d =>
                if isCloser d then some (String.mk (cs.take idLen)) else none
            | none => none
          else none
      | none => none
  let p2 : Option String :=
    if cs ≠ [] ∧ cs.all isIdChar then some (String.mk cs) else none
  let check : Option String → Option String := fun cand =>
    match cand with
    | some id =>
        if (mlookup nodes id).isNone ∧ (mlookup sgs id).isNone then some id
        else none
    | none => none
  match check p1 with
  | some id => some id
  | none => check p2

/-- `createNode`. -/
def createNode (nodeId : String) (parentSubgraph : Option String)
    (defs : List (String × NodeDef)) : GNode :=
  match mlookup defs nodeId with
  | some d => ⟨nodeId, d.label, d.kind, parentSubgraph⟩
  | none => ⟨nodeId, nodeId, .rect, parentSubgraph⟩

/-! ## Preprocessing, header direction, and the two passes -/

def countOpens (s : String) : Nat := s.data.countP isOpener

def countCloses (s : String) : Nat := s.data.countP isCloser

/-- Inner `while (j < rawLines.length && currentOpen > currentClose)` of
`preprocessMultilineDefinitions`. -/
def combineFrom : Nat → Nat → Nat → String → List String → String × List String
  | _, _, _, acc, [] => (acc, [])
  | 0, _, _, acc, rest => (acc, rest)
  | fuel + 1, o, c, acc, next :: rest' =>
      if c < o then
        let nt := jsTrim next
        combineFrom fuel (o + countOpens nt) (c + countCloses nt)
          (acc ++ " " ++ nt) rest'
      else (acc, next :: rest')

def preprocessGo : Nat → List String → List String
  | 0, ls => ls
  | _ + 1, [] => []
  | fuel + 1, l :: rest =>
      let lt := jsTrim l
      let o := countOpens lt
      let c := countCloses lt
      if c < o ∧ rest ≠ [] then
        let cr := combineFrom rest.length o c lt rest
        cr.1 :: preprocessGo fuel cr.2
      else lt :: preprocessGo fuel rest

/-- `preprocessMultilineDefinitions`. -/
def preprocessMultilineDefinitions (code : String) : String :=
  let raw := jsSplitLines code
  joinNl (preprocessGo raw.length raw)

def dirNames : List String := ["TB", "TD", "BT", "RL", "LR"]

/-- `(TB|TD|BT|RL|LR)` case-insensitively at index `i`, in alternation
order. -/
def dirAt (cs : List Char) (i : Nat) : Option String :=
  dirNames.find? (fun d => matchCI cs d.data i)

/-- Search for `/(?:flowchart|graph)\s+(TB|TD|BT|RL|LR)/i`. -/
def findDirectionFrom (cs : List Char) : Nat → Nat → Option String
  | 0, _ => none
  | fuel + 1, p =>
      let tryHdr : List Char → Option String := fun hdr =>
        if matchCI cs hdr p then
          let after := p + hdr.length
          let w := runLen isWs cs after
          if w = 0 then none else dirAt cs (after + w)
        else none
      match tryHdr "flowchart".data with
      | some d => some d
      | none =>
          match tryHdr "graph".data with
          | some d => some d
          | none =>
              if cs.length ≤ p then none else findDirectionFrom cs fuel (p + 1)

/-- Header direction with the `TD → TB` normalization and `TB` default. -/
def parseGlobalDirection (cleanCode : String) : String :=
  match findDirectionFrom cleanCode.data (cleanCode.data.length + 1) 0 with
  | some d => if d = "TD" then "TB" else d
  | none => "TB"

/-- `/^direction\s+(TB|TD|BT|RL|LR)$/i`. -/
def parseDirectionLine (line : String) : Option String :=
  let cs := line.data
  if matchCI cs "direction".data 0 then
    let w := runLen isWs cs 9
    if w = 0 then none
    else
      match dirAt cs (9 + w) with
      | some d => if cs.length = 9 + w + 2 then some d else none
      | none => none
  else none

/-- State of the first pass (subgraph identification). -/
structure Pass1State where
  sgs : List (String × GSubgraph)
  stack : List String
  deriving Repr

/-- One line of the first pass of `parseMermaidToGraph`. -/
def pass1Step (st : Pass1State) (ix : Nat × String) : Pass1State :=
  let line := jsTrim ix.2
  if line = "" then st
  else if jsStartsWith line "subgraph" then
    match parseSubgraphLine line ix.1 with
    | some info =>
        let parentId := st.stack.head?
        { sgs := minsert st.sgs info.1 ⟨info.1, info.2, parentId, [], none⟩,
          stack := info.1 :: st.stack }
    | none => st
  else if jsStartsWith (jsToLower line) "direction " then
    match parseDirectionLine line, st.stack with
    | some d, top :: _ =>
        (match mlookup st.sgs top with
         | some sg =>
             let sg' := { sg with direction := some (if d = "TD" then "TB" else d) }
             { st with sgs := minsert st.sgs top sg' }
         | none => st)
    | _, _ => st
  else if line = "end" ∧ st.stack ≠ [] then { st with stack := st.stack.tail }
  else st

/-- State of the second pass (nodes and edges). -/
structure Pass2State where
  nodes : List (String × GNode)
  edges : List (String × GEdge)
  sgs : List (String × GSubgraph)
  stack : List String
  edgeIndex : Nat
  deriving Repr

/-- Create a node and append it to the current subgraph's `children`
(the shared body of the three creation sites in the second pass). -/
def createAndAttach (nodes : List (String × GNode))
    (sgs : List (String × GSubgraph)) (defs : List (String × NodeDef))
    (nid : String) (cur : Option String) :
    List (String × GNode) × List (String × GSubgraph) :=
  let nodes' := minsert nodes nid (createNode nid cur defs)
  let sgs' :=
    match cur with
    | some c =>
        (match mlookup sgs c with
         | some sg => minsert sgs c { sg with children := sg.children ++ [nid] }
         | none => sgs)
    | none => sgs
  (nodes', sgs')

/-- `if (!isSubgraph && !nodeMap[id]) { nodeMap[id] = createNode(...); ... }`:
the guarded creation applied to each edge endpoint. -/
def maybeCreate (defs : List (String × NodeDef))
    (nodes : List (String × GNode)) (sgs : List (String × GSubgraph))
    (nid : String) (cur : Option String) (isSg : Bool) :
    List (String × GNode) × List (String × GSubgraph) :=
  if ¬ isSg ∧ (mlookup nodes nid).isNone then
    createAndAttach nodes sgs defs nid cur
  else (nodes, sgs)

/-- One line of the second pass of `parseMermaidToGraph`. -/
def pass2Step (defs : List (String × NodeDef)) (st : Pass2State)
    (ix : Nat × String) : Pass2State :=
  let line := jsTrim ix.2
  if line = "" then st
  else if jsStartsWith line "subgraph" then
    match parseSubgraphLine line ix.1 with
    | some info => { st with stack := info.1 :: st.stack }
    | none => st
  else if line = "end" then
    if st.stack ≠ [] then { st with stack := st.stack.tail } else st
  else if jsStartsWith line "direction " ∨ jsStartsWith line "flowchart " ∨
      jsStartsWith line "graph " ∨ jsStartsWith line "%%" then st
  else
    let cur := st.stack.head?
    match parseEdgeLine line with
    | some r =>
        let isSrcSg := (mlookup st.sgs r.sourceId).isSome
        let isTgtSg := (mlookup st.sgs r.targetId).isSome
        let ns1 := maybeCreate defs st.nodes st.sgs r.sourceId cur isSrcSg
        let ns2 := maybeCreate defs ns1.1 ns1.2 r.targetId cur isTgtSg
        let edgeId :=
          "e-" ++ r.sourceId ++ "-" ++ r.targetId ++ "-" ++ toString st.edgeIndex
        let ekind : EdgeKind :=
          if r.edgeType = "<->" then .bidirectional else .directed
        let elabel : Option String :=
          if r.edgeLabel = "" then none else some r.edgeLabel
        { nodes := ns2.1, sgs := ns2.2,
          edges := minsert st.edges edgeId ⟨edgeId, r.sourceId, r.targetId, elabel, ekind⟩,
          stack := st.stack, edgeIndex := st.edgeIndex + 1 }
    | none =>
        match parseStandaloneNode line st.nodes st.sgs with
        | some nid =>
            if (mlookup st.nodes nid).isNone then
              let ns1 := createAndAttach st.nodes st.sgs defs nid cur
              { st with nodes := ns1.1, sgs := ns1.2 }
            else st
        | none => st

/-- `parseMermaidToGraph` (`mermaid-parser.ts`): cleanup, multi-line
preprocessing, header direction, definition pre-scan, and the two passes. -/
def parseMermaidToGraph (mermaidCode : String) : Graph :=
  let cleanCode0 :=
    joinNl
      (((jsSplitLines mermaidCode).map jsTrim).filter
        (fun l => l ≠ "" ∧ ¬ jsStartsWith l "%%"))
  let cleanCode := preprocessMultilineDefinitions cleanCode0
  let direction := parseGlobalDirection cleanCode
  let lines := jsSplitLines cleanCode
  let defs :=
    lines.foldl
      (fun defs line =>
        let t := jsTrim line
        if t = "" ∨ jsStartsWith t "subgraph" ∨ t = "end" ∨ jsStartsWith t "%%" then
          defs
        else scanNodeDefinitions t defs)
      []
  let p1 := lines.enum.foldl pass1Step ⟨[], []⟩
  let p2 := lines.enum.foldl (pass2Step defs) ⟨[], [], p1.sgs, [], 0⟩
  { meta := ⟨direction⟩, nodes := p2.nodes, edges := p2.edges,
    subgraphs := p2.sgs }

/-! ## Visual state model (`visual.model.ts`) -/

structure Pos where
  x : ℚ
  y : ℚ
  deriving DecidableEq, Repr

structure Size where
  width : ℚ
  height : ℚ
  deriving DecidableEq, Repr

/-- `NodeVisual`: optional fields are `Option`s; JS `locked` truthiness is
`locked = some true`. -/
structure NodeVisual where
  position : Pos
  size : Option Size
  locked : Option Bool
  deriving DecidableEq, Repr

structure EdgeVisual where
  bendPoints : Option (List Pos)
  deriving DecidableEq, Repr

structure SubgraphVisual where
  position : Pos
  size : Size
  locked : Option Bool
  deriving DecidableEq, Repr

structure Viewport where
  zoom : ℚ
  pan : Pos
  deriving DecidableEq, Repr

structure VisualState where
  nodes : List (String × NodeVisual)
  edges : List (String × EdgeVisual)
  subgraphs : List (String × SubgraphVisual)
  viewport : Option Viewport
  deriving DecidableEq, Repr

/-- A `Partial<VisualState>` passed as `existingState`; absent maps are
modelled as empty maps (the source only reads them with `?.[]`/`?? {}`,
which cannot distinguish the two). -/
structure PriorState where
  nodes : List (String × NodeVisual)
  edges : List (String × EdgeVisual)
  subgraphs : List (String × SubgraphVisual)
  viewport : Option Viewport
  deriving DecidableEq, Repr

/-- Modelled from the spec: the `LAYOUT_SPACING` configuration record of
`src/constants/layout` is imported by `auto-layout.ts` but its file is not
part of the sources; §6 of the spec lists its thirteen recognized options
and leaves the default values open, so the record is kept as a parameter
everywhere and `defaultSpacing` below supplies one concrete readable
default set for closed evaluations. -/
structure LayoutSpacing where
  SUBGRAPH_HEADER_HEIGHT : ℚ
  SUBGRAPH_PADDING : ℚ
  SUBGRAPH_CONTENT_TOP_MARGIN : ℚ
  NODE_SEPARATION_HORIZONTAL : ℚ
  NODE_SEPARATION_VERTICAL : ℚ
  CONTAINER_SEPARATION_HORIZONTAL : ℚ
  CONTAINER_SEPARATION_VERTICAL : ℚ
  NESTED_SUBGRAPH_SEPARATION_HORIZONTAL : ℚ
  NESTED_SUBGRAPH_SEPARATION_VERTICAL : ℚ
  META_GRAPH_MARGIN : ℚ
  NESTED_CONTENT_MARGIN : ℚ
  MIXED_CONTENT_VERTICAL_SPACING : ℚ
  MIXED_CONTENT_HORIZONTAL_SPACING : ℚ
  deriving DecidableEq, Repr

/-- Modelled from the spec: one concrete default instantiation of
`LAYOUT_SPACING` ("a minimal default set that produces readable output"). -/
def defaultSpacing : LayoutSpacing :=
  ⟨40, 20, 10, 50, 50, 80, 80, 60, 60, 40, 20, 40, 40⟩

/-! ## The Dagre layout oracle

`auto-layout.ts` delegates geometry to the external `dagre` library: a
graph is built with `setGraph(config)`, `setNode(id, {width,height})` and
`setEdge(u, v, {weight})`, `dagre.layout` assigns a center `x`/`y` to every
added node, and `g.node(id)` is `undefined` exactly for ids never added.
Modelled from the spec (§4.4.5: any deterministic layered layout with this
interface is acceptable): the oracle is an arbitrary function from the
built graph to centers; `dagreNode` reproduces the `undefined` behaviour. -/

structure DagreConfig where
  rankdir : String
  nodesep : ℚ
  ranksep : ℚ
  marginx : ℚ
  marginy : ℚ
  ranker : String
  deriving DecidableEq, Repr

def DagreOracle : Type :=
  DagreConfig → List (String × Size) → List (String × String × ℚ) → String → Pos

/-- `g.node(id)` after `dagre.layout(g)`. -/
def dagreNode (o : DagreOracle) (cfg : DagreConfig) (ns : List (String × Size))
    (es : List (String × String × ℚ)) (id : String) : Option Pos :=
  if ns.any (fun n => n.1 = id) then some (o cfg ns es id) else none

/-- `g.setEdge(u, v, {weight})`: keyed by the pair. -/
def setEdgeW (es : List (String × String × ℚ)) (u v : String) (w : ℚ) :
    List (String × String × ℚ) :=
  match es with
  | [] => [(u, v, w)]
  | (a, b, x) :: rest =>
      if a = u ∧ b = v then (u, v, w) :: rest
      else (a, b, x) :: setEdgeW rest u v w

/-- `g.hasEdge(u, v)`. -/
def hasEdgeW (es : List (String × String × ℚ)) (u v : String) : Bool :=
  es.any (fun e => e.1 = u ∧ e.2.1 = v)

/-! ## `calculateNodeSize` (`auto-layout.ts`) -/

/-- `calculateNodeSize`.  All quantities are integers, so the JS float
`Math.ceil(width * 1.05)` agrees with the exact rational ceiling of
`width · 21/20` (the accumulated rounding error of `w · fl(1.05)` is below
half an ulp for every integer width). -/
def calculateNodeSize (node : GNode) : Size :=
  let lines := jsSplitLines node.label
  let maxLineWidth : ℚ := lines.foldr (fun l acc => max ((l.length : ℚ) * 8) acc) 0
  let baseWidth : ℚ := maxLineWidth + 30
  let baseHeight : ℚ := (lines.length : ℚ) * 18 + 20
  let width : ℚ := max 80 (baseWidth + 30)
  let height : ℚ := max 40 (baseHeight + 20)
  if node.kind = .diamond then
    ⟨max 90 ((⌈width * (21 / 20)⌉ : ℤ) : ℚ), max 90 ((⌈height * (21 / 20)⌉ : ℤ) : ℚ)⟩
  else if node.kind = .circle then
    let s := max width height + 10
    ⟨s, s⟩
  else ⟨width, height⟩

/-! ## `getSubgraphsInHierarchicalOrder`

The function appears verbatim both in `auto-layout.ts` and in
`reactflow-adapter.ts`; one embedding serves both call sites.  The JS
`while` loop is driven by the `lastCount !== processed.size` progress
check; since every continuing iteration grows `processed`, `|subgraphs|+1`
rounds of fuel reproduce it exactly (stabilization is proved below). -/

structure HierState where
  result : List String
  processed : List String
  deriving DecidableEq, Repr

/-- First pass: all subgraphs without parents, in key order. -/
def hierRoots (sgs : List (String × GSubgraph)) : HierState :=
  sgs.foldl
    (fun st p =>
      if p.2.parent = none then ⟨st.result ++ [p.1], p.1 :: st.processed⟩ else st)
    ⟨[], []⟩

/-- One `for` sweep of the `while` loop. -/
def hierRound (sgs : List (String × GSubgraph)) (st : HierState) : HierState :=
  sgs.foldl
    (fun st p =>
      if !st.processed.contains p.1 &&
          (match p.2.parent with
           | some q => st.processed.contains q
           | none => false) then
        ⟨st.result ++ [p.1], p.1 :: st.processed⟩
      else st)
    st

def hierLoop (sgs : List (String × GSubgraph)) :
    Nat → Nat → HierState → HierState
  | 0, _, st => st
  | fuel + 1, lastCount, st =>
      if st.processed.length < sgs.length ∧ lastCount ≠ st.processed.length then
        hierLoop sgs fuel st.processed.length (hierRound sgs st)
      else st

/-- `getSubgraphsInHierarchicalOrder`. -/
def getSubgraphsInHierarchicalOrder (g : Graph) : List String :=
  let st0 := hierRoots g.subgraphs
  let st := hierLoop g.subgraphs (g.subgraphs.length + 1) 0 st0
  st.result ++
    (g.subgraphs.filter (fun p => ¬ st.processed.contains p.1)).map (·.1)

/-! ## Phase 1: per-subgraph interior layout (`layoutSubgraphs`) -/

/-- `SubgraphLayout` of `auto-layout.ts`; `nodes` is the
`Map<NodeId, {x, y, width, height}>` in insertion order. -/
structure SubgraphLayout where
  id : String
  nodes : List (String × Pos × Size)
  width : ℚ
  height : ℚ
  parentId : Option String
  deriving DecidableEq, Repr

/-- Loop body of `layoutSubgraphs` for one subgraph id. -/
def layoutOneSubgraph (spacing : LayoutSpacing) (o : DagreOracle) (g : Graph)
    (direction : String) (layouts : List (String × SubgraphLayout))
    (sid : String) : List (String × SubgraphLayout) :=
  match mlookup g.subgraphs sid with
  | none => layouts
  | some sg =>
      let sgNodes := sg.children.filterMap (fun cid => mlookup g.nodes cid)
      let sgEdges := (mvals g.edges).filter (fun e =>
        (match mlookup g.nodes e.source with
         | some n => n.parent == some sid
         | none => false) &&
        (match mlookup g.nodes e.target with
         | some n => n.parent == some sid
         | none => false))
      let cfg : DagreConfig :=
        ⟨sg.direction.getD direction,
         spacing.NODE_SEPARATION_HORIZONTAL, spacing.NODE_SEPARATION_VERTICAL,
         spacing.SUBGRAPH_PADDING,
         spacing.SUBGRAPH_PADDING + spacing.SUBGRAPH_HEADER_HEIGHT +
           spacing.SUBGRAPH_CONTENT_TOP_MARGIN,
         "tight-tree"⟩
      let gnodes := sgNodes.foldl
        (fun acc n => minsert acc n.id (calculateNodeSize n)) []
      let gedges := sgEdges.foldl
        (fun acc e => setEdgeW acc e.source e.target 1) []
      let nodePositions := sgNodes.foldl
        (fun acc n =>
          match dagreNode o cfg gnodes gedges n.id with
          | none => acc
          | some pos => minsert acc n.id (pos, calculateNodeSize n))
        []
      let bounds := sgNodes.foldl
        (fun (b : Option (ℚ × ℚ × ℚ × ℚ)) n =>
          match dagreNode o cfg gnodes gedges n.id with
          | none => b
          | some pos =>
              let size := calculateNodeSize n
              let l := pos.x - size.width / 2
              let r := pos.x + size.width / 2
              let t := pos.y - size.height / 2
              let bo := pos.y + size.height / 2
              match b with
              | none => some (l, r, t, bo)
              | some (mnX, mxX, mnY, mxY) =>
                  some (min mnX l, max mxX r, min mnY t, max mxY bo))
        none
      let b := bounds.getD (0, 200, 0, 100)
      let minX := b.1
      let maxX := b.2.1
      let minY := b.2.2.1
      let maxY := b.2.2.2
      let offsetX := -minX + spacing.SUBGRAPH_PADDING
      let offsetY := -minY + spacing.SUBGRAPH_PADDING +
        spacing.SUBGRAPH_HEADER_HEIGHT + spacing.SUBGRAPH_CONTENT_TOP_MARGIN
      let nodePositions' := nodePositions.map
        (fun p => (p.1, (⟨p.2.1.x + offsetX, p.2.1.y + offsetY⟩ : Pos), p.2.2))
      let baseWidth := maxX - minX + spacing.SUBGRAPH_PADDING * 2
      let baseHeight := maxY - minY + spacing.SUBGRAPH_PADDING * 2 +
        spacing.SUBGRAPH_HEADER_HEIGHT + spacing.SUBGRAPH_CONTENT_TOP_MARGIN
      minsert layouts sid
        ⟨sid, nodePositions', baseWidth + 4, baseHeight + 4, sg.parent⟩

/-- Loop body of `recalculateParentSizes` for one subgraph id
(processed in reverse hierarchical order). -/
def recalcStep (spacing : LayoutSpacing) (g : Graph) (ordered : List String)
    (isHorizontal : Bool) (layouts : List (String × SubgraphLayout))
    (sid : String) : List (String × SubgraphLayout) :=
  match mlookup layouts sid with
  | none => layouts
  | some layout =>
      let childSubgraphs := ordered.filter (fun cid =>
        match mlookup g.subgraphs cid with
        | some c => c.parent = some sid
        | none => false)
      if childSubgraphs = [] then layouts
      else
        let m0 := layout.nodes.foldl
          (fun (m : ℚ × ℚ) p =>
            (max m.1 (p.2.1.x + p.2.2.width / 2),
             max m.2 (p.2.1.y + p.2.2.height / 2)))
          (0, 0)
        let m := childSubgraphs.foldl
          (fun (m : ℚ × ℚ) cid =>
            match mlookup layouts cid with
            | none => m
            | some cl =>
                let ex :=
                  if isHorizontal then
                    max (spacing.SUBGRAPH_PADDING + cl.width / 2)
                      (m.1 + spacing.MIXED_CONTENT_HORIZONTAL_SPACING + cl.width / 2)
                  else spacing.SUBGRAPH_PADDING + cl.width / 2
                let ey :=
                  if isHorizontal then
                    max (spacing.SUBGRAPH_HEADER_HEIGHT +
                        spacing.SUBGRAPH_CONTENT_TOP_MARGIN +
                        spacing.SUBGRAPH_PADDING + cl.height / 2)
                      (cl.height / 2)
                  else
                    max (spacing.SUBGRAPH_HEADER_HEIGHT +
                        spacing.SUBGRAPH_CONTENT_TOP_MARGIN +
                        spacing.SUBGRAPH_PADDING + cl.height / 2)
                      (m.2 + spacing.MIXED_CONTENT_VERTICAL_SPACING + cl.height / 2)
                (max m.1 (ex + cl.width / 2), max m.2 (ey + cl.height / 2)))
          m0
        let minRequiredWidth := m.1 + spacing.SUBGRAPH_PADDING * 3
        let minRequiredHeight := m.2 + spacing.SUBGRAPH_PADDING * 3
        minsert layouts sid
          { layout with
            width := max (max layout.width minRequiredWidth) 300,
            height := max (max layout.height minRequiredHeight) 200 }

/-- `recalculateParentSizes`. -/
def recalculateParentSizes (spacing : LayoutSpacing)
    (layouts : List (String × SubgraphLayout)) (g : Graph)
    (direction : String) : List (String × SubgraphLayout) :=
  let ordered := getSubgraphsInHierarchicalOrder g
  let isH := direction = "LR" ∨ direction = "RL"
  ordered.reverse.foldl (recalcStep spacing g ordered isH) layouts

/-- `layoutSubgraphs`: interior layout in hierarchical order followed by
parent enlargement. -/
def layoutSubgraphs (spacing : LayoutSpacing) (o : DagreOracle) (g : Graph)
    (direction : String) : List (String × SubgraphLayout) :=
  let ordered := getSubgraphsInHierarchicalOrder g
  let layouts := ordered.foldl (layoutOneSubgraph spacing o g direction) []
  recalculateParentSizes spacing layouts g direction

/-! ## Phase 2 and 3: meta-graph and nested placement -/

/-- `calculateConnectionWeights`: aggregation by the immediate parent
container (`node.parent || node.id`). -/
def calculateConnectionWeights (g : Graph) :
    List (String × List (String × ℚ)) :=
  (mvals g.edges).foldl
    (fun w e =>
      match mlookup g.nodes e.source, mlookup g.nodes e.target with
      | some sn, some tn =>
          let sc := sn.parent.getD sn.id
          let tc := tn.parent.getD tn.id
          if sc = tc then w
          else
            let cur := (mlookup w sc).getD []
            let curW := (mlookup cur tc).getD 0
            minsert w sc (minsert cur tc (curW + 1))
      | _, _ => w)
    []

/-- `cg.setNode(childId, ...)` for one child of
`layoutChildrenWithinParent`. -/
def cgnAddStep (layouts : List (String × SubgraphLayout))
    (acc : List (String × Size)) (cid : String) : List (String × Size) :=
  match mlookup layouts cid with
  | some cl => minsert acc cid (⟨cl.width, cl.height⟩ : Size)
  | none => acc

/-- Top-left extraction and bounding-box accumulation for one child of
`layoutChildrenWithinParent`. -/
def tlsStep (o : DagreOracle) (cfg : DagreConfig)
    (cgnodes : List (String × Size)) (cgedges : List (String × String × ℚ))
    (layouts : List (String × SubgraphLayout))
    (acc : List (String × Pos) × Option (ℚ × ℚ × ℚ × ℚ)) (cid : String) :
    List (String × Pos) × Option (ℚ × ℚ × ℚ × ℚ) :=
  match dagreNode o cfg cgnodes cgedges cid, mlookup layouts cid with
  | some n, some cl =>
      let left := n.x - cl.width / 2
      let top := n.y - cl.height / 2
      let r := n.x + cl.width / 2
      let bo := n.y + cl.height / 2
      let bb :=
        match acc.2 with
        | none => some (left, top, r, bo)
        | some (mL, mT, mR, mB) =>
            some (min mL left, min mT top, max mR r, max mB bo)
      (minsert acc.1 cid ⟨left, top⟩, bb)
  | _, _ => acc

/-- The final `positions.set(childId, ...)` of
`layoutChildrenWithinParent`. -/
def childPosStep (tls1 : List (String × Pos))
    (cox coy centerOffsetX minLeft minTop : ℚ)
    (pos : List (String × Pos)) (cid : String) : List (String × Pos) :=
  match mlookup tls1 cid with
  | some tl =>
      minsert pos cid
        ⟨cox + centerOffsetX + (tl.x - minLeft), coy + (tl.y - minTop)⟩
  | none => pos

/-- `layoutChildrenWithinParent`: positions the direct child subgraphs of a
positioned parent; `none` models the `false` return (no progress). -/
def layoutChildrenWithinParent (spacing : LayoutSpacing) (o : DagreOracle)
    (parentId : String) (g : Graph) (layouts : List (String × SubgraphLayout))
    (positions : List (String × Pos))
    (weights : List (String × List (String × ℚ))) (direction : String) :
    Option (List (String × Pos)) :=
  match mlookup positions parentId, mlookup layouts parentId with
  | some parentPos, some parentLayout =>
      let childIds := (mkeys layouts).filter (fun cid =>
        match mlookup g.subgraphs cid with
        | some c => c.parent = some parentId
        | none => false)
      if childIds = [] then none
      else
        let maxNodeBottom := parentLayout.nodes.foldl
          (fun acc p => max acc (p.2.1.y + p.2.2.height / 2)) 0
        let cfg : DagreConfig :=
          ⟨direction,
           spacing.NESTED_SUBGRAPH_SEPARATION_HORIZONTAL,
           spacing.NESTED_SUBGRAPH_SEPARATION_VERTICAL,
           spacing.NESTED_CONTENT_MARGIN, spacing.NESTED_CONTENT_MARGIN,
           "tight-tree"⟩
        let cgnodes := childIds.foldl (cgnAddStep layouts) []
        let cgedges0 := childIds.foldl
          (fun acc sid =>
            match mlookup weights sid with
            | none => acc
            | some targets =>
                targets.foldl
                  (fun acc tw =>
                    if childIds.contains tw.1 ∧ ¬ hasEdgeW acc sid tw.1 then
                      setEdgeW acc sid tw.1 tw.2
                    else acc)
                  acc)
          []
        let cgedges :=
          if cgedges0 = [] ∧ 1 < childIds.length then
            (childIds.zip childIds.tail).foldl
              (fun acc p => setEdgeW acc p.1 p.2 1) []
          else cgedges0
        let tls := childIds.foldl (tlsStep o cfg cgnodes cgedges layouts)
          ([], none)
        let bb := tls.2.getD (0, 0, 0, 0)
        let minLeft := bb.1
        let minTop := bb.2.1
        let maxRight := bb.2.2.1
        let isHorizontal := direction = "LR" ∨ direction = "RL"
        let cox0 := parentPos.x + spacing.SUBGRAPH_PADDING
        let coy0 := parentPos.y + spacing.SUBGRAPH_HEADER_HEIGHT +
          spacing.SUBGRAPH_CONTENT_TOP_MARGIN + spacing.SUBGRAPH_PADDING
        let parentNodesMaxRight := parentLayout.nodes.foldl
          (fun acc p => max acc (p.2.1.x + p.2.2.width / 2)) 0
        let cox :=
          if isHorizontal ∧ 0 < parentNodesMaxRight then
            max cox0 (parentPos.x + parentNodesMaxRight +
              spacing.MIXED_CONTENT_HORIZONTAL_SPACING)
          else cox0
        let coy :=
          if ¬ isHorizontal ∧ 0 < maxNodeBottom then
            max coy0 (parentPos.y + maxNodeBottom +
              spacing.MIXED_CONTENT_VERTICAL_SPACING)
          else coy0
        let availableWidth := parentLayout.width - spacing.SUBGRAPH_PADDING * 2
        let contentWidth := maxRight - minLeft
        let centerOffsetX :=
          if isHorizontal then max 0 ((availableWidth - contentWidth) / 2) else 0
        some (childIds.foldl
          (childPosStep tls.1 cox coy centerOffsetX minLeft minTop)
          positions)
  | _, _ => none

/-- One subgraph of a `positionNestedSubgraphs` sweep: process it when it
is positioned and not yet processed. -/
def pnsStep (spacing : LayoutSpacing) (o : DagreOracle) (g : Graph)
    (layouts : List (String × SubgraphLayout))
    (weights : List (String × List (String × ℚ))) (direction : String)
    (acc : (List (String × Pos) × List String) × Bool)
    (p : String × SubgraphLayout) :
    (List (String × Pos) × List String) × Bool :=
  let sid := p.1
  if (mlookup acc.1.1 sid).isSome ∧ ¬ acc.1.2.contains sid then
    match layoutChildrenWithinParent spacing o sid g layouts acc.1.1
        weights direction with
    | some newPos => ((newPos, sid :: acc.1.2), true)
    | none => acc
  else acc

/-- One `for (const [subgraphId] of layouts)` sweep of
`positionNestedSubgraphs`; the `Bool` is `madeProgress`. -/
def pnsSweep (spacing : LayoutSpacing) (o : DagreOracle) (g : Graph)
    (layouts : List (String × SubgraphLayout))
    (weights : List (String × List (String × ℚ))) (direction : String)
    (st : List (String × Pos) × List String) :
    (List (String × Pos) × List String) × Bool :=
  layouts.foldl (pnsStep spacing o g layouts weights direction) (st, false)

def pnsLoop (spacing : LayoutSpacing) (o : DagreOracle) (g : Graph)
    (layouts : List (String × SubgraphLayout))
    (weights : List (String × List (String × ℚ))) (direction : String) :
    Nat → List (String × Pos) × List String → List (String × Pos)
  | 0, st => st.1
  | fuel + 1, st =>
      let sw := pnsSweep spacing o g layouts weights direction st
      if sw.2 then pnsLoop spacing o g layouts weights direction fuel sw.1
      else sw.1.1

/-- `positionNestedSubgraphs`: the bounded (100-iteration) fixed point. -/
def positionNestedSubgraphs (spacing : LayoutSpacing) (o : DagreOracle)
    (g : Graph) (layouts : List (String × SubgraphLayout))
    (positions : List (String × Pos))
    (weights : List (String × List (String × ℚ))) (direction : String) :
    List (String × Pos) :=
  pnsLoop spacing o g layouts weights direction 100 (positions, [])

structure MetaResult where
  subgraphPositions : List (String × Pos)
  standalonePositions : List (String × Pos)
  deriving DecidableEq, Repr

/-- `g.setNode(subgraphId, ...)` for one top-level container of the
meta-graph. -/
def metaTopSizeStep (acc : List (String × Size))
    (p : String × SubgraphLayout) : List (String × Size) :=
  if p.2.parentId = none then
    minsert acc p.1 (⟨p.2.width, p.2.height⟩ : Size)
  else acc

/-- `g.setNode(node.id, ...)` for one standalone node of the meta-graph. -/
def metaNodeSizeStep (acc : List (String × Size)) (n : GNode) :
    List (String × Size) :=
  minsert acc n.id (calculateNodeSize n)

/-- `subgraphPositions.set(subgraphId, ...)` for one top-level container
after the meta-graph layout. -/
def metaTopPosStep (o : DagreOracle) (cfg : DagreConfig)
    (gnodes : List (String × Size)) (gedges : List (String × String × ℚ))
    (acc : List (String × Pos)) (p : String × SubgraphLayout) :
    List (String × Pos) :=
  if p.2.parentId = none then
    match dagreNode o cfg gnodes gedges p.1 with
    | some c =>
        minsert acc p.1 ⟨c.x - p.2.width / 2, c.y - p.2.height / 2⟩
    | none => acc
  else acc

/-- `layoutMetaGraph`. -/
def layoutMetaGraph (spacing : LayoutSpacing) (o : DagreOracle) (g : Graph)
    (subgraphLayouts : List (String × SubgraphLayout)) (direction : String) :
    MetaResult :=
  let cfg : DagreConfig :=
    ⟨direction, spacing.CONTAINER_SEPARATION_HORIZONTAL,
     spacing.CONTAINER_SEPARATION_VERTICAL, spacing.META_GRAPH_MARGIN,
     spacing.META_GRAPH_MARGIN, "tight-tree"⟩
  let gnodes0 := subgraphLayouts.foldl metaTopSizeStep []
  let standaloneNodes := (mvals g.nodes).filter (fun n => n.parent = none)
  let gnodes := standaloneNodes.foldl metaNodeSizeStep gnodes0
  let weights := calculateConnectionWeights g
  let gedges := weights.foldl
    (fun acc sw =>
      sw.2.foldl
        (fun acc tw =>
          let sourceId := sw.1
          let targetId := tw.1
          let sL := mlookup subgraphLayouts sourceId
          let tL := mlookup subgraphLayouts targetId
          let skip :=
            (match sL with
             | some l => l.parentId == some targetId
             | none => false) ||
            (match tL with
             | some l => l.parentId == some sourceId
             | none => false)
          if skip then acc
          else
            let sTop :=
              match sL with
              | some l => l.parentId == none
              | none => true
            let tTop :=
              match tL with
              | some l => l.parentId == none
              | none => true
            if sTop && tTop && gnodes.any (·.1 = sourceId) &&
                gnodes.any (·.1 = targetId) then
              if hasEdgeW acc sourceId targetId then acc
              else setEdgeW acc sourceId targetId tw.2
            else acc)
        acc)
    []
  let sgPos0 := subgraphLayouts.foldl (metaTopPosStep o cfg gnodes gedges) []
  let sgPos := positionNestedSubgraphs spacing o g subgraphLayouts sgPos0
    weights direction
  let standalonePos := standaloneNodes.foldl
    (fun acc n =>
      match dagreNode o cfg gnodes gedges n.id with
      | some c =>
          let s := calculateNodeSize n
          minsert acc n.id ⟨c.x - s.width / 2, c.y - s.height / 2⟩
      | none => acc)
    []
  ⟨sgPos, standalonePos⟩

/-! ## `autoLayout` (`auto-layout.ts`) -/

/-- The computed (non-locked) subgraph visual: absolute position converted
to parent-relative when the parent has a position.  An id absent from
`graph.subgraphs` cannot occur (layout keys come from the subgraph map);
the `none` arm keeps the absolute position. -/
def computedSubgraphVisual (g : Graph) (meta : MetaResult) (sid : String)
    (layout : SubgraphLayout) (position : Pos) : SubgraphVisual :=
  let finalPosition :=
    match mlookup g.subgraphs sid with
    | some sg =>
        (match sg.parent with
         | some par =>
             (match mlookup meta.subgraphPositions par with
              | some pp => (⟨position.x - pp.x, position.y - pp.y⟩ : Pos)
              | none => position)
         | none => position)
    | none => position
  ⟨finalPosition, ⟨layout.width, layout.height⟩, some false⟩

/-- The computed (non-locked) node visual; lookups use the map key
`nodeId`, as in the source (`subgraphLayout?.nodes.get(nodeId)`). -/
def computedNodeVisual (meta : MetaResult)
    (subgraphLayouts : List (String × SubgraphLayout)) (nid : String)
    (node : GNode) : NodeVisual :=
  match node.parent with
  | some par =>
      (match (mlookup subgraphLayouts par).bind
          (fun sl => mlookup sl.nodes nid) with
       | some ps =>
           ⟨⟨ps.1.x - ps.2.width / 2, ps.1.y - ps.2.height / 2⟩,
            some ps.2, some false⟩
       | none => ⟨⟨0, 0⟩, none, some false⟩)
  | none =>
      ⟨(mlookup meta.standalonePositions nid).getD ⟨0, 0⟩,
       some (calculateNodeSize node), some false⟩

/-- One subgraph of the Phase-4 assembly loop: skip if unpositioned,
copy a locked prior entry verbatim, else write the computed visual. -/
def subgraphVisualStep (g : Graph) (meta : MetaResult)
    (existingState : Option PriorState)
    (acc : List (String × SubgraphVisual)) (p : String × SubgraphLayout) :
    List (String × SubgraphVisual) :=
  match mlookup meta.subgraphPositions p.1 with
  | none => acc
  | some position =>
      match existingState.bind (fun s => mlookup s.subgraphs p.1) with
      | some ev =>
          if ev.locked = some true then minsert acc p.1 ev
          else minsert acc p.1 (computedSubgraphVisual g meta p.1 p.2 position)
      | none => minsert acc p.1 (computedSubgraphVisual g meta p.1 p.2 position)

/-- One node of the Phase-4 assembly loop: copy a locked prior entry
verbatim, else write the computed visual. -/
def nodeVisualStep (g : Graph) (meta : MetaResult)
    (subgraphLayouts : List (String × SubgraphLayout))
    (existingState : Option PriorState) (acc : List (String × NodeVisual))
    (nid : String) : List (String × NodeVisual) :=
  match mlookup g.nodes nid with
  | none => acc
  | some node =>
      match existingState.bind (fun s => mlookup s.nodes nid) with
      | some ev =>
          if ev.locked = some true then minsert acc nid ev
          else minsert acc nid (computedNodeVisual meta subgraphLayouts nid node)
      | none => minsert acc nid (computedNodeVisual meta subgraphLayouts nid node)

/-- `autoLayout`: phases 1-3 then assembly, preserving locked entries and
passing `edges`/`viewport` of the prior state through. -/
def autoLayout (spacing : LayoutSpacing) (o : DagreOracle) (graph : Graph)
    (existingState : Option PriorState) : VisualState :=
  let direction := graph.meta.direction
  let subgraphLayouts := layoutSubgraphs spacing o graph direction
  let meta := layoutMetaGraph spacing o graph subgraphLayouts direction
  let subgraphVisuals := subgraphLayouts.foldl
    (subgraphVisualStep graph meta existingState) []
  let nodeVisuals := (mkeys graph.nodes).foldl
    (nodeVisualStep graph meta subgraphLayouts existingState) []
  { nodes := nodeVisuals,
    edges := match existingState with
             | some s => s.edges
             | none => [],
    subgraphs := subgraphVisuals,
    viewport := existingState.bind (·.viewport) }

/-! ## `toReactFlow` (`reactflow-adapter.ts`)

The flowchart path of the adapter.  The graphs this development parses
carry no C4 dialect tag (`meta.diagramType` is never set by
`parseMermaidToGraph`), so `isC4Diagram` is `false` and the C4 branches
are dead; each branch emits exactly one record either way.  Constant
palette/border styling strings are not part of the record model. -/

structure RFNode where
  id : String
  type : String
  label : String
  position : Pos
  width : ℚ
  height : ℚ
  parentNode : Option String
  draggable : Bool
  zIndex : Int
  deriving DecidableEq, Repr

structure RFEdge where
  id : String
  source : String
  target : String
  label : Option String
  animated : Bool
  hasStartMarker : Bool
  sourceHandle : String
  targetHandle : String
  bendPoints : Option (List Pos)
  deriving DecidableEq, Repr

structure ReactFlowData where
  nodes : List RFNode
  edges : List RFEdge
  deriving DecidableEq, Repr

/-- `createReactFlowNode`. -/
def createReactFlowNode (node : GNode) (visual : NodeVisual)
    (_direction : String) : RFNode :=
  let width := (visual.size.map (·.width)).getD 150
  let height := (visual.size.map (·.height)).getD 60
  let nodeType := if node.kind = .diamond then "diamond" else "custom"
  ⟨node.id, nodeType, node.label, visual.position, width, height,
   node.parent.map (fun p => "subgraph-" ++ p),
   ¬ (visual.locked = some true), 1⟩

/-- `createReactFlowEdge`: endpoints are rewritten to `subgraph-` ids when
they name subgraphs. -/
def createReactFlowEdge (edgeId : String) (fromId toId : String)
    (label : Option String) (kind : EdgeKind) (_index : Nat)
    (isHorizontal : Bool) (g : Graph) (bendPoints : Option (List Pos)) :
    RFEdge :=
  let isSourceSubgraph := (mlookup g.subgraphs fromId).isSome
  let isTargetSubgraph := (mlookup g.subgraphs toId).isSome
  ⟨edgeId,
   (if isSourceSubgraph then "subgraph-" ++ fromId else fromId),
   (if isTargetSubgraph then "subgraph-" ++ toId else toId),
   label, true, kind = .bidirectional,
   (if isHorizontal then "right-source" else "bottom-source"),
   (if isHorizontal then "left-target" else "top-target"),
   bendPoints⟩

/-- One subgraph container record of `toReactFlow` (skipped when the
visual state has no entry). -/
def sgRecordStep (g : Graph) (vs : VisualState) (acc : List RFNode)
    (sid : String) : List RFNode :=
  match mlookup vs.subgraphs sid with
  | none => acc
  | some visual =>
      match mlookup g.subgraphs sid with
      | some sg =>
          acc ++ [(⟨"subgraph-" ++ sid, "group",
            (if sg.label = "" then sid else sg.label), visual.position,
            visual.size.width, visual.size.height,
            sg.parent.map (fun p => "subgraph-" ++ p),
            ¬ (visual.locked = some true),
            (match sg.parent with | some _ => 1 | none => 0)⟩ : RFNode)]
      | none => acc

/-- One node record of `toReactFlow` (skipped when the visual state has no
entry). -/
def nodeRecordStep (g : Graph) (vs : VisualState) (direction : String)
    (acc : List RFNode) (nid : String) : List RFNode :=
  match mlookup g.nodes nid, mlookup vs.nodes nid with
  | some node, some visual =>
      acc ++ [createReactFlowNode node visual direction]
  | _, _ => acc

/-- One edge record of `toReactFlow` (emitted unconditionally for every
edge key; the `Nat` is the running `edgeIndex`). -/
def edgeRecordStep (g : Graph) (vs : VisualState) (isHorizontal : Bool)
    (acc : List RFEdge × Nat) (eid : String) : List RFEdge × Nat :=
  match mlookup g.edges eid with
  | some e =>
      let ev := mlookup vs.edges eid
      (acc.1 ++ [createReactFlowEdge eid e.source e.target e.label e.kind
        acc.2 isHorizontal g (ev.bind (·.bendPoints))], acc.2 + 1)
  | none => acc

/-- `toReactFlow`. -/
def toReactFlow (g : Graph) (vs : VisualState) : ReactFlowData :=
  let direction := g.meta.direction
  let isHorizontal := direction = "LR" ∨ direction = "RL"
  let ordered := getSubgraphsInHierarchicalOrder g
  let sgRecords := ordered.foldl (sgRecordStep g vs) []
  let nodeRecords := (mkeys g.nodes).foldl
    (nodeRecordStep g vs direction) []
  let edgeRecords := (mkeys g.edges).foldl
    (edgeRecordStep g vs isHorizontal) ([], 0)
  ⟨sgRecords ++ nodeRecords, edgeRecords.1⟩

/-! ## The spec's invariants I1-I5 -/

/-- I1's "references an existing node or subgraph". -/
def refsNodeOrSubgraph (g : Graph) (id : String) : Prop :=
  id ∈ mkeys g.nodes ∨ id ∈ mkeys g.subgraphs

/-- I1: every edge endpoint references an existing node or subgraph. -/
def InvI1 (g : Graph) : Prop :=
  ∀ p ∈ g.edges, refsNodeOrSubgraph g p.2.source ∧ refsNodeOrSubgraph g p.2.target

/-- I2: every `parent` field (of nodes and of subgraphs) references an
existing subgraph. -/
def InvI2 (g : Graph) : Prop :=
  (∀ p ∈ g.nodes, ∀ q, p.2.parent = some q → q ∈ mkeys g.subgraphs) ∧
  (∀ p ∈ g.subgraphs, ∀ q, p.2.parent = some q → q ∈ mkeys g.subgraphs)

/-- One step of the subgraph `parent` relation. -/
def parentOf (g : Graph) (id : String) : Option String :=
  (mlookup g.subgraphs id).bind (·.parent)

/-- `k`-fold iteration of `parentOf`; `none` once the chain has ended. -/
def parentIter (g : Graph) : Nat → String → Option String
  | 0, id => some id
  | k + 1, id =>
      match parentOf g id with
      | some p => parentIter g k p
      | none => none

/-- I3: the `parent` relation over subgraphs is acyclic (every ancestor
chain terminates). -/
def InvI3 (g : Graph) : Prop :=
  ∀ id ∈ mkeys g.subgraphs, ∃ k, parentIter g k id = none

/-- I4: every `children` entry of a subgraph is a node whose `parent` is
that subgraph. -/
def InvI4 (g : Graph) : Prop :=
  ∀ p ∈ g.subgraphs, ∀ c ∈ p.2.children,
    ∃ n, mlookup g.nodes c = some n ∧ n.parent = some p.1

/-- I5: at most one parent: no node is claimed as a child by two different
subgraphs, nor twice by one. -/
def InvI5 (g : Graph) : Prop :=
  (∀ p ∈ g.subgraphs, p.2.children.Nodup) ∧
  (∀ p q : String × GSubgraph, p ∈ g.subgraphs → q ∈ g.subgraphs →
    ∀ c, c ∈ p.2.children → c ∈ q.2.children → p.1 = q.1)

/-- `rootedIn sgs k s`: following at most `k` parent links through existing
subgraphs from `s` reaches a subgraph with no parent. -/
def rootedIn (sgs : List (String × GSubgraph)) : Nat → String → Bool
  | 0, _ => false
  | k + 1, s =>
      match mlookup sgs s with
      | none => false
      | some sg =>
          match sg.parent with
          | none => true
          | some q => rootedIn sgs k q

/-- A subgraph id reachable from a parentless root along `parent` links. -/
def Rooted (g : Graph) (s : String) : Prop :=
  ∃ k, rootedIn g.subgraphs k s = true

/-- `res` lists parents before children: wherever an element with a parent
occurs, that parent occurs strictly earlier. -/
def ParentsBefore (sgs : List (String × GSubgraph)) (res : List String) :
    Prop :=
  ∀ l₁ s l₂, res = l₁ ++ s :: l₂ →
    ∀ sg q, mlookup sgs s = some sg → sg.parent = some q → q ∈ l₁

/-- Invariant of the first pass: registered subgraphs have no children
yet, their parents are registered, the stack is registered, keys are
unique. -/
structure P1Inv (st : Pass1State) : Prop where
  keysNodup : (mkeys st.sgs).Nodup
  stackOK : ∀ s ∈ st.stack, s ∈ mkeys st.sgs
  parentOK : ∀ p ∈ st.sgs, ∀ q, p.2.parent = some q → q ∈ mkeys st.sgs
  childrenNil : ∀ p ∈ st.sgs, p.2.children = []

/-! ## Parser invariant proofs: pass 2 -/

/-- Node/subgraph-map invariant threaded through the second pass
(`SGK` is the fixed key set of the subgraph map produced by pass 1). -/
structure NSInv (SGK : List String) (nodes : List (String × GNode))
    (sgs : List (String × GSubgraph)) : Prop where
  sgKeys : mkeys sgs = SGK
  nodesNodup : (mkeys nodes).Nodup
  nodeParent : ∀ p ∈ nodes, ∀ q, p.2.parent = some q → q ∈ SGK
  sgParent : ∀ p ∈ sgs, ∀ q, p.2.parent = some q → q ∈ SGK
  childrenOK : ∀ p ∈ sgs, ∀ c ∈ p.2.children,
      ∃ n, mlookup nodes c = some n ∧ n.parent = some p.1
  childrenNodup : ∀ p ∈ sgs, p.2.children.Nodup

/-- Full invariant of the second pass. -/
structure P2Inv (SGK : List String) (st : Pass2State) : Prop where
  ns : NSInv SGK st.nodes st.sgs
  stackOK : ∀ s ∈ st.stack, s ∈ SGK
  edgesOK : ∀ p ∈ st.edges,
      (p.2.source ∈ mkeys st.nodes ∨ p.2.source ∈ SGK) ∧
      (p.2.target ∈ mkeys st.nodes ∨ p.2.target ∈ SGK)

/-- The property of a line that the pass-2 step needs: any subgraph id it
parses is already a key of the (fixed) subgraph map. -/
def SubgraphLineOK (SGK : List String) (ix : Nat × String) : Prop :=
  ∀ info : String × String, jsTrim ix.2 ≠ "" →
    jsStartsWith (jsTrim ix.2) "subgraph" = true →
    parseSubgraphLine (jsTrim ix.2) ix.1 = some info → info.1 ∈ SGK

/-! ## Claim theorems -/

/-- The graph parsed from a subgraph redeclared inside itself
(`subgraph A` nested in `subgraph A`): the inner redeclaration overwrites
the map entry with `parent = A`, a self-loop of the parent relation. -/
def selfNestedCode : String := "graph TB\nsubgraph A\nsubgraph A\nend\nend"

def selfNestedGraph : Graph :=
  ⟨⟨"TB"⟩, [], [], [("A", ⟨"A", "A", some "A", [], none⟩)]⟩

/-- A concrete oracle for closed evaluations (everything at the origin). -/
def zeroOracle : DagreOracle := fun _ _ _ _ => ⟨0, 0⟩

/-- Concrete graph for the C9 witness: one node whose `parent` names a
subgraph that does not exist, so no interior layout carries it. -/
def danglingParentGraph : Graph :=
  ⟨⟨"TB"⟩, [("N", ⟨"N", "N", .rect, some "ghost"⟩)], [], []⟩

/-- Graph and prior state for the C4 counterexample: the graph has no
nodes and a single self-parented subgraph (as produced by the parser on a
self-nested redeclaration); the prior locks a node `X` and the subgraph
`A`. -/
def lockedCxGraph : Graph :=
  ⟨⟨"TB"⟩, [], [], [("A", ⟨"A", "A", some "A", [], none⟩)]⟩

def lockedCxPrior : PriorState :=
  ⟨[("X", ⟨⟨1, 2⟩, none, some true⟩)], [],
   [("A", ⟨⟨3, 4⟩, ⟨5, 6⟩, some true⟩)], none⟩

/-- Graph and prior state for the C4 witness. -/
def lockedWGraph : Graph :=
  ⟨⟨"TB"⟩, [("N", ⟨"N", "N", .rect, none⟩)], [],
   [("S", ⟨"S", "S", none, [], none⟩)]⟩

def lockedWPrior : PriorState :=
  ⟨[("N", ⟨⟨7, 8⟩, none, some true⟩)], [("e", ⟨some [⟨1, 1⟩]⟩)],
   [("S", ⟨⟨9, 9⟩, ⟨10, 10⟩, some true⟩)], some ⟨2, ⟨0, 0⟩⟩⟩

/-- A single childless subgraph for the C7 counterexample. -/
def leafSubgraphGraph : Graph := ⟨⟨"TB"⟩, [], [], [("S", ⟨"S", "S", none, [], none⟩)]⟩

/-- Parent-with-child graph for the C7 witness. -/
def parentChildGraph : Graph :=
  ⟨⟨"TB"⟩, [], [],
   [("P", ⟨"P", "P", none, [], none⟩), ("C", ⟨"C", "C", some "P", [], none⟩)]⟩

/-! ## Hierarchical-order correctness -/

/-- The state of `getSubgraphsInHierarchicalOrder` after the `while` loop. -/
def hierFinal (g : Graph) : HierState :=
  hierLoop g.subgraphs (g.subgraphs.length + 1) 0 (hierRoots g.subgraphs)

/-- The body of the first (`roots`) pass, as a named step. -/
def hrStep (st : HierState) (p : String × GSubgraph) : HierState :=
  if p.2.parent = none then ⟨st.result ++ [p.1], p.1 :: st.processed⟩ else st

/-- The body of one `while`-loop sweep, as a named step. -/
def hqStep (st : HierState) (p : String × GSubgraph) : HierState :=
  if !st.processed.contains p.1 &&
      (match p.2.parent with
       | some q => st.processed.contains q
       | none => false) then
    ⟨st.result ++ [p.1], p.1 :: st.processed⟩
  else st

/-- The joint invariant of the order-building state: no duplicates, the
`result` and `processed` collections hold the same ids, all of them are
subgraph keys, parents are listed before children, and everything
processed is rooted. -/
def HInv (sgs : List (String × GSubgraph)) (st : HierState) : Prop :=
  st.result.Nodup ∧ st.processed.Nodup ∧
  (∀ x, x ∈ st.result ↔ x ∈ st.processed) ∧
  (∀ x ∈ st.processed, x ∈ mkeys sgs) ∧
  ParentsBefore sgs st.result ∧
  (∀ s ∈ st.processed, ∃ k, rootedIn sgs k s = true)

/-- A graph with a rooted chain (`R` ← `A`), a two-cycle (`C1` ↔ `C2`)
and a dangling parent reference (`D` → missing `X`). -/
def cyclicSubgraphGraph : Graph :=
  ⟨⟨"TB"⟩, [], [],
   [("R", ⟨"R", "R", none, [], none⟩),
    ("A", ⟨"A", "A", some "R", [], none⟩),
    ("C1", ⟨"C1", "C1", some "C2", [], none⟩),
    ("C2", ⟨"C2", "C2", some "C1", [], none⟩),
    ("D", ⟨"D", "D", some "X", [], none⟩)]⟩

/-! ## Record-count correctness of the render adapter -/

/-- All subgraphs reachable from a parentless root (the JS data produced
by the parser always satisfies this in the absence of self-referential
redeclarations). -/
def AllRooted (g : Graph) : Prop :=
  ∀ s ∈ mkeys g.subgraphs, Rooted g s

/-- Every layout entry corresponds to an existing subgraph and carries
its `parent` as `parentId`. -/
def LayoutsParentOK (g : Graph)
    (layouts : List (String × SubgraphLayout)) : Prop :=
  ∀ s l, mlookup layouts s = some l →
    ∃ sg, mlookup g.subgraphs s = some sg ∧ l.parentId = sg.parent

/-- A single subgraph declared as its own parent (obtainable by parsing a
self-nested redeclaration). -/
def selfParentGraph : Graph :=
  ⟨⟨"TB"⟩, [], [], [("A", ⟨"A", "A", some "A", [], none⟩)]⟩

/-- A rooted two-level subgraph hierarchy with two standalone nodes and an
edge between them. -/
def c5Graph : Graph :=
  ⟨⟨"TB"⟩,
   [("n1", ⟨"n1", "N1", .rect, none⟩), ("n2", ⟨"n2", "N2", .rect, none⟩)],
   [("e-n1-n2-0", ⟨"e-n1-n2-0", "n1", "n2", none, .directed⟩)],
   [("P", ⟨"P", "P", none, [], none⟩),
    ("C", ⟨"C", "C", some "P", [], none⟩)]⟩

theorem mlookup_minsert_self {α : Type} (m : List (String × α)) (k : String)
    (v : α) : mlookup (minsert m k v) k = some v := by
  induction m with
  | nil => simp [minsert, mlookup]
  | cons p rest ih =>
      by_cases h : p.1 = k
      · simp [minsert, mlookup, h]
      · simp [minsert, mlookup, h, ih]

theorem mlookup_minsert_ne {α : Type} (m : List (String × α)) (k k' : String)
    (v : α) (h : k ≠ k') : mlookup (minsert m k v) k' = mlookup m k' := by
  induction m with
  | nil => simp [minsert, mlookup, h]
  | cons p rest ih =>
      by_cases hp : p.1 = k
      · simp [minsert, mlookup, hp, h]
      · simp [minsert, mlookup, hp, ih]

theorem mkeys_minsert_of_mem {α : Type} (m : List (String × α)) (k : String)
    (v : α) (h : k ∈ mkeys m) : mkeys (minsert m k v) = mkeys m := by
  induction m with
  | nil => simp [mkeys] at h
  | cons p rest ih =>
      by_cases hp : p.1 = k
      · simp [minsert, mkeys, hp]
      · rw [mkeys, List.map_cons, List.mem_cons] at h
        rcases h with h | h
        · exact absurd h.symm hp
        · simp [minsert, mkeys, hp]
          simpa [mkeys] using ih h

theorem mkeys_minsert_of_not_mem {α : Type} (m : List (String × α))
    (k : String) (v : α) (h : ¬ k ∈ mkeys m) :
    mkeys (minsert m k v) = mkeys m ++ [k] := by
  induction m with
  | nil => simp [minsert, mkeys]
  | cons p rest ih =>
      simp [mkeys] at h ih
      have hp : p.1 ≠ k := fun hh => h.1 hh.symm
      simp [minsert, mkeys, hp, ih h.2]

theorem mem_mkeys_minsert {α : Type} (m : List (String × α)) (k k' : String)
    (v : α) : k' ∈ mkeys (minsert m k v) ↔ k' ∈ mkeys m ∨ k' = k := by
  by_cases h : k ∈ mkeys m
  · rw [mkeys_minsert_of_mem m k v h]
    constructor
    · exact fun hh => Or.inl hh
    · rintro (hh | rfl) <;> [exact hh; exact h]
  · rw [mkeys_minsert_of_not_mem m k v h]
    simp

theorem mlookup_isSome_iff_mem_mkeys {α : Type} (m : List (String × α))
    (k : String) : (mlookup m k).isSome ↔ k ∈ mkeys m := by
  induction m with
  | nil => simp [mlookup, mkeys]
  | cons p rest ih =>
      by_cases h : p.1 = k
      · simp [mlookup, mkeys, h]
      · simp [mlookup, mkeys, h, ih]
        intro hh
        exact absurd hh.symm h

theorem mlookup_eq_none_iff_not_mem {α : Type} (m : List (String × α))
    (k : String) : mlookup m k = none ↔ ¬ k ∈ mkeys m := by
  rw [← mlookup_isSome_iff_mem_mkeys]
  cases mlookup m k <;> simp

theorem mem_of_mlookup_eq_some {α : Type} {m : List (String × α)}
    {k : String} {v : α} (h : mlookup m k = some v) : (k, v) ∈ m := by
  induction m with
  | nil => simp [mlookup] at h
  | cons p rest ih =>
      by_cases hp : p.1 = k
      · rw [mlookup, if_pos hp] at h
        cases h
        cases p
        cases hp
        exact List.mem_cons_self _ _
      · rw [mlookup, if_neg hp] at h
        exact List.mem_cons_of_mem _ (ih h)

theorem mkeys_nodup_minsert {α : Type} (m : List (String × α)) (k : String)
    (v : α) (h : (mkeys m).Nodup) : (mkeys (minsert m k v)).Nodup := by
  by_cases hk : k ∈ mkeys m
  · rwa [mkeys_minsert_of_mem m k v hk]
  · rw [mkeys_minsert_of_not_mem m k v hk]
    simpa [List.nodup_append] using ⟨h, hk⟩

/-! ## Further association-list lemmas -/

theorem mem_minsert {α : Type} {m : List (String × α)} {k : String} {v : α}
    {p : String × α} (h : p ∈ minsert m k v) : p = (k, v) ∨ p ∈ m := by
  induction m with
  | nil => simpa [minsert] using h
  | cons q rest ih =>
      by_cases hq : q.1 = k
      · rw [minsert, if_pos hq] at h
        rcases List.mem_cons.mp h with h | h
        · exact Or.inl h
        · exact Or.inr (List.mem_cons_of_mem _ h)
      · rw [minsert, if_neg hq] at h
        rcases List.mem_cons.mp h with h | h
        · exact Or.inr (h ▸ List.mem_cons_self _ _)
        · rcases ih h with h | h
          · exact Or.inl h
          · exact Or.inr (List.mem_cons_of_mem _ h)

theorem mkeys_subset_minsert {α : Type} (m : List (String × α)) (k : String)
    (v : α) : mkeys m ⊆ mkeys (minsert m k v) := by
  intro x hx
  exact (mem_mkeys_minsert m k x v).mpr (Or.inl hx)

theorem mlookup_of_mem_nodup {α : Type} {m : List (String × α)}
    {k : String} {v : α} (hn : (mkeys m).Nodup) (h : (k, v) ∈ m) :
    mlookup m k = some v := by
  induction m with
  | nil => simp at h
  | cons p rest ih =>
      rw [mkeys, List.map_cons, List.nodup_cons] at hn
      rcases List.mem_cons.mp h with h | h
      · cases h
        simp [mlookup]
      · have hk : p.1 ≠ k := by
          intro hh
          have : k ∈ mkeys rest := by simpa [mkeys] using ⟨v, h⟩
          exact hn.1 (hh ▸ this)
        rw [mlookup, if_neg hk]
        exact ih hn.2 h

theorem mem_mkeys_of_mem {α : Type} {m : List (String × α)}
    {p : String × α} (h : p ∈ m) : p.1 ∈ mkeys m := by
  simpa [mkeys] using ⟨p.2, by simpa using h⟩

/-! ## Parser invariant proofs: pass 1 -/

theorem createNode_parent (nodeId : String) (cur : Option String)
    (defs : List (String × NodeDef)) :
    (createNode nodeId cur defs).parent = cur := by
  unfold createNode
  cases mlookup defs nodeId <;> rfl

theorem pass1Step_keys_mono (st : Pass1State) (ix : Nat × String) :
    mkeys st.sgs ⊆ mkeys (pass1Step st ix).sgs := by
  simp only [pass1Step]
  split
  · exact fun _ h => h
  · split
    · split
      · exact mkeys_subset_minsert _ _ _
      · exact fun _ h => h
    · split
      · split
        · split
          · exact mkeys_subset_minsert _ _ _
          · exact fun _ h => h
        · exact fun _ h => h
      · split
        · exact fun _ h => h
        · exact fun _ h => h

theorem pass1Step_inv {st : Pass1State} (h : P1Inv st) (ix : Nat × String) :
    P1Inv (pass1Step st ix) := by
  simp only [pass1Step]
  split
  · exact h
  · split
    · -- subgraph line
      split
      · rename_i info _
        refine ⟨mkeys_nodup_minsert _ _ _ h.keysNodup, ?_, ?_, ?_⟩
        · intro s hs
          rcases List.mem_cons.mp hs with hs | hs
          · exact hs ▸ (mem_mkeys_minsert _ _ _ _).mpr (Or.inr rfl)
          · exact mkeys_subset_minsert _ _ _ (h.stackOK s hs)
        · intro p hp q hq
          rcases mem_minsert hp with hp | hp
          · subst hp
            simp only at hq
            have : st.stack.head? = some q := hq
            have hmem : q ∈ st.stack := by
              cases hst : st.stack with
              | nil => simp [hst] at this
              | cons a l =>
                  rw [hst] at this
                  cases this
                  simp [hst]
            exact mkeys_subset_minsert _ _ _ (h.stackOK q hmem)
          · exact mkeys_subset_minsert _ _ _ (h.parentOK p hp q hq)
        · intro p hp
          rcases mem_minsert hp with hp | hp
          · subst hp; rfl
          · exact h.childrenNil p hp
      · exact h
    · split
      · -- direction line
        split
        · split
          · rename_i sg _
            rename_i hlook
            have hmem : (_, sg) ∈ st.sgs := mem_of_mlookup_eq_some hlook
            have hkey : _ ∈ mkeys st.sgs := mem_mkeys_of_mem hmem
            refine ⟨?_, ?_, ?_, ?_⟩
            · simpa [mkeys_minsert_of_mem _ _ _ hkey] using h.keysNodup
            · intro s hs
              rw [mkeys_minsert_of_mem _ _ _ hkey]
              exact h.stackOK s hs
            · intro p hp q hq
              rw [mkeys_minsert_of_mem _ _ _ hkey]
              rcases mem_minsert hp with hp | hp
              · subst hp
                exact h.parentOK _ hmem q hq
              · exact h.parentOK p hp q hq
            · intro p hp
              rcases mem_minsert hp with hp | hp
              · subst hp
                show GSubgraph.children _ = []
                have := h.childrenNil _ hmem
                simpa using this
              · exact h.childrenNil p hp
          · exact h
        · exact h
      · split
        · -- end line
          refine ⟨h.keysNodup, ?_, h.parentOK, h.childrenNil⟩
          intro s hs
          exact h.stackOK s (List.mem_of_mem_tail hs)
        · exact h

theorem pass1_fold_inv {st : Pass1State} (L : List (Nat × String))
    (h : P1Inv st) : P1Inv (L.foldl pass1Step st) := by
  induction L generalizing st with
  | nil => exact h
  | cons ix rest ih => exact ih (pass1Step_inv h ix)

theorem pass1_fold_keys_mono (L : List (Nat × String)) (st : Pass1State) :
    mkeys st.sgs ⊆ mkeys (L.foldl pass1Step st).sgs := by
  induction L generalizing st with
  | nil => exact fun _ h => h
  | cons ix rest ih =>
      exact fun x hx => ih _ (pass1Step_keys_mono st ix hx)

/-- Pass-1 completeness: any subgraph line of the processed list has its
parsed id registered in the final map. -/
theorem pass1_complete (L : List (Nat × String)) (st : Pass1State)
    {ix : Nat × String} (hmem : ix ∈ L) (hne : jsTrim ix.2 ≠ "")
    (hsw : jsStartsWith (jsTrim ix.2) "subgraph" = true)
    {info : String × String}
    (hp : parseSubgraphLine (jsTrim ix.2) ix.1 = some info) :
    info.1 ∈ mkeys (L.foldl pass1Step st).sgs := by
  induction L generalizing st with
  | nil => simp at hmem
  | cons hd rest ih =>
      rcases List.mem_cons.mp hmem with hmem | hmem
      · subst hmem
        apply pass1_fold_keys_mono rest
        show info.1 ∈ mkeys (pass1Step st ix).sgs
        unfold pass1Step
        rw [if_neg hne, if_pos hsw, hp]
        exact (mem_mkeys_minsert _ _ _ _).mpr (Or.inr rfl)
      · exact ih (pass1Step st hd) hmem

theorem createAndAttach_inv {SGK : List String}
    {nodes : List (String × GNode)} {sgs : List (String × GSubgraph)}
    (defs : List (String × NodeDef)) {nid : String} {cur : Option String}
    (h : NSInv SGK nodes sgs) (hfresh : mlookup nodes nid = none)
    (hcur : ∀ c, cur = some c → c ∈ SGK) :
    NSInv SGK (createAndAttach nodes sgs defs nid cur).1
      (createAndAttach nodes sgs defs nid cur).2 ∧
    mkeys (createAndAttach nodes sgs defs nid cur).1 = mkeys nodes ++ [nid] := by
  have hnotmem : ¬ nid ∈ mkeys nodes :=
    (mlookup_eq_none_iff_not_mem _ _).mp hfresh
  have hkeys : mkeys (minsert nodes nid (createNode nid cur defs)) =
      mkeys nodes ++ [nid] := mkeys_minsert_of_not_mem _ _ _ hnotmem
  have hnodesNodup : (mkeys (minsert nodes nid (createNode nid cur defs))).Nodup := by
    rw [hkeys]
    simpa [List.nodup_append] using ⟨h.nodesNodup, hnotmem⟩
  have hnodeParent : ∀ p ∈ minsert nodes nid (createNode nid cur defs),
      ∀ q, p.2.parent = some q → q ∈ SGK := by
    intro p hp q hq
    rcases mem_minsert hp with hp | hp
    · subst hp
      rw [createNode_parent] at hq
      exact hcur q hq
    · exact h.nodeParent p hp q hq
  have hlift : ∀ c n, mlookup nodes c = some n →
      mlookup (minsert nodes nid (createNode nid cur defs)) c = some n := by
    intro c n hc
    have hne : nid ≠ c := by
      intro hh
      rw [hh] at hfresh
      rw [hfresh] at hc
      cases hc
    rw [mlookup_minsert_ne _ _ _ _ hne]
    exact hc
  unfold createAndAttach
  cases cur with
  | none =>
      refine ⟨⟨h.sgKeys, hnodesNodup, hnodeParent, h.sgParent, ?_, h.childrenNodup⟩, hkeys⟩
      intro p hp c hc
      obtain ⟨n, hn, hnp⟩ := h.childrenOK p hp c hc
      exact ⟨n, hlift c n hn, hnp⟩
  | some cc =>
      cases hlook : mlookup sgs cc with
      | none =>
          simp only [hlook]
          refine ⟨⟨h.sgKeys, hnodesNodup, hnodeParent, h.sgParent, ?_, h.childrenNodup⟩, hkeys⟩
          intro p hp c hc
          obtain ⟨n, hn, hnp⟩ := h.childrenOK p hp c hc
          exact ⟨n, hlift c n hn, hnp⟩
      | some sg =>
          simp only [hlook]
          have hsgmem : (cc, sg) ∈ sgs := mem_of_mlookup_eq_some hlook
          have hcckey : cc ∈ mkeys sgs := mem_mkeys_of_mem hsgmem
          have hchildfresh : ¬ nid ∈ sg.children := by
            intro hh
            obtain ⟨n, hn, _⟩ := h.childrenOK _ hsgmem nid hh
            rw [hfresh] at hn
            cases hn
          refine ⟨⟨?_, hnodesNodup, hnodeParent, ?_, ?_, ?_⟩, hkeys⟩
          · rw [mkeys_minsert_of_mem _ _ _ hcckey]
            exact h.sgKeys
          · intro p hp q hq
            rcases mem_minsert hp with hp | hp
            · subst hp
              exact h.sgParent _ hsgmem q hq
            · exact h.sgParent p hp q hq
          · intro p hp c hc
            rcases mem_minsert hp with hp | hp
            · subst hp
              simp only at hc
              rcases List.mem_append.mp hc with hc | hc
              · obtain ⟨n, hn, hnp⟩ := h.childrenOK _ hsgmem c hc
                exact ⟨n, hlift c n hn, hnp⟩
              · have : c = nid := by simpa using hc
                subst this
                refine ⟨createNode c (some cc) defs, mlookup_minsert_self _ _ _, ?_⟩
                rw [createNode_parent]
            · obtain ⟨n, hn, hnp⟩ := h.childrenOK p hp c hc
              exact ⟨n, hlift c n hn, hnp⟩
          · intro p hp
            rcases mem_minsert hp with hp | hp
            · subst hp
              show (sg.children ++ [nid]).Nodup
              simpa [List.nodup_append] using ⟨h.childrenNodup _ hsgmem, hchildfresh⟩
            · exact h.childrenNodup p hp

theorem createAndAttach_keys_mono {nodes : List (String × GNode)}
    {sgs : List (String × GSubgraph)} (defs : List (String × NodeDef))
    (nid : String) (cur : Option String) :
    mkeys nodes ⊆ mkeys (createAndAttach nodes sgs defs nid cur).1 := by
  unfold createAndAttach
  exact mkeys_subset_minsert _ _ _

theorem maybeCreate_inv {SGK : List String} {nodes : List (String × GNode)}
    {sgs : List (String × GSubgraph)} (defs : List (String × NodeDef))
    (nid : String) {cur : Option String} (isSg : Bool)
    (h : NSInv SGK nodes sgs) (hcur : ∀ c, cur = some c → c ∈ SGK) :
    NSInv SGK (maybeCreate defs nodes sgs nid cur isSg).1
        (maybeCreate defs nodes sgs nid cur isSg).2 ∧
    mkeys nodes ⊆ mkeys (maybeCreate defs nodes sgs nid cur isSg).1 ∧
    (isSg = false → nid ∈ mkeys (maybeCreate defs nodes sgs nid cur isSg).1) := by
  unfold maybeCreate
  by_cases hc : ¬ isSg = true ∧ (mlookup nodes nid).isNone = true
  · rw [if_pos hc]
    have hfresh : mlookup nodes nid = none := by
      cases hl : mlookup nodes nid with
      | none => rfl
      | some v => rw [hl] at hc; simp at hc
    obtain ⟨hinv, hkeys⟩ := createAndAttach_inv defs h hfresh hcur
    refine ⟨hinv, ?_, ?_⟩
    · exact createAndAttach_keys_mono defs nid cur
    · intro _
      rw [hkeys]
      simp
  · rw [if_neg hc]
    refine ⟨h, fun _ hx => hx, ?_⟩
    intro hsg
    rw [hsg] at hc
    have hsome : (mlookup nodes nid).isSome = true := by
      cases hl : mlookup nodes nid with
      | none => exact absurd ⟨by simp, by simp [hl]⟩ hc
      | some v => rfl
    exact (mlookup_isSome_iff_mem_mkeys _ _).mp hsome

theorem pass2Step_inv {SGK : List String} {defs : List (String × NodeDef)}
    {st : Pass2State} (h : P2Inv SGK st) {ix : Nat × String}
    (hok : SubgraphLineOK SGK ix) : P2Inv SGK (pass2Step defs st ix) := by
  have hcur : ∀ c, st.stack.head? = some c → c ∈ SGK := by
    intro c hc
    cases hst : st.stack with
    | nil => rw [hst] at hc; cases hc
    | cons a l =>
        rw [hst] at hc
        cases hc
        exact h.stackOK c (by rw [hst]; exact List.mem_cons_self _ _)
  simp only [pass2Step]
  split
  · exact h
  · split
    · -- subgraph line
      split
      · rename_i hne hsw ob info hp
        refine ⟨h.ns, ?_, h.edgesOK⟩
        intro s hs
        rcases List.mem_cons.mp hs with hs | hs
        · exact hs ▸ hok info hne hsw hp
        · exact h.stackOK s hs
      · exact h
    · split
      · -- end line
        split
        · refine ⟨h.ns, ?_, h.edgesOK⟩
          intro s hs
          exact h.stackOK s (List.mem_of_mem_tail hs)
        · exact h
      · split
        · exact h
        · -- edge or standalone
          split
          · -- edge line
            rename_i r _
            obtain ⟨hinv1, hmono1, hin1⟩ :=
              maybeCreate_inv defs r.sourceId ((mlookup st.sgs r.sourceId).isSome)
                h.ns hcur
            obtain ⟨hinv2, hmono2, hin2⟩ :=
              maybeCreate_inv defs r.targetId ((mlookup st.sgs r.targetId).isSome)
                hinv1 hcur
            have hsrc :
                r.sourceId ∈
                  mkeys (maybeCreate defs
                    (maybeCreate defs st.nodes st.sgs r.sourceId st.stack.head?
                      (mlookup st.sgs r.sourceId).isSome).1
                    (maybeCreate defs st.nodes st.sgs r.sourceId st.stack.head?
                      (mlookup st.sgs r.sourceId).isSome).2
                    r.targetId st.stack.head?
                    (mlookup st.sgs r.targetId).isSome).1 ∨
                  r.sourceId ∈ SGK := by
              rcases Bool.eq_false_or_eq_true
                  ((mlookup st.sgs r.sourceId).isSome) with hsg | hsg
              · refine Or.inr ?_
                rw [← h.ns.sgKeys]
                exact (mlookup_isSome_iff_mem_mkeys _ _).mp hsg
              · exact Or.inl (hmono2 (hin1 hsg))
            have htgt :
                r.targetId ∈
                  mkeys (maybeCreate defs
                    (maybeCreate defs st.nodes st.sgs r.sourceId st.stack.head?
                      (mlookup st.sgs r.sourceId).isSome).1
                    (maybeCreate defs st.nodes st.sgs r.sourceId st.stack.head?
                      (mlookup st.sgs r.sourceId).isSome).2
                    r.targetId st.stack.head?
                    (mlookup st.sgs r.targetId).isSome).1 ∨
                  r.targetId ∈ SGK := by
              rcases Bool.eq_false_or_eq_true
                  ((mlookup st.sgs r.targetId).isSome) with hsg | hsg
              · refine Or.inr ?_
                rw [← h.ns.sgKeys]
                exact (mlookup_isSome_iff_mem_mkeys _ _).mp hsg
              · exact Or.inl (hin2 hsg)
            refine ⟨hinv2, h.stackOK, ?_⟩
            intro p hp
            rcases mem_minsert hp with hp | hp
            · subst hp
              exact ⟨hsrc, htgt⟩
            · obtain ⟨h1, h2⟩ := h.edgesOK p hp
              constructor
              · rcases h1 with h1 | h1
                · exact Or.inl (hmono2 (hmono1 h1))
                · exact Or.inr h1
              · rcases h2 with h2 | h2
                · exact Or.inl (hmono2 (hmono1 h2))
                · exact Or.inr h2
          · -- standalone
            split
            · rename_i nid _
              split
              · rename_i hfresh
                have hfresh' : mlookup st.nodes nid = none := by
                  cases hl : mlookup st.nodes nid with
                  | none => rfl
                  | some v => rw [hl] at hfresh; simp at hfresh
                obtain ⟨hinv, _⟩ := createAndAttach_inv defs h.ns hfresh' hcur
                refine ⟨hinv, h.stackOK, ?_⟩
                intro p hp
                obtain ⟨h1, h2⟩ := h.edgesOK p hp
                have hmono := @createAndAttach_keys_mono st.nodes st.sgs
                  defs nid st.stack.head?
                constructor
                · rcases h1 with h1 | h1
                  · exact Or.inl (hmono h1)
                  · exact Or.inr h1
                · rcases h2 with h2 | h2
                  · exact Or.inl (hmono h2)
                  · exact Or.inr h2
              · exact h
            · exact h

theorem pass2_fold_inv {SGK : List String} {defs : List (String × NodeDef)}
    (L : List (Nat × String)) {st : Pass2State} (h : P2Inv SGK st)
    (hok : ∀ ix ∈ L, SubgraphLineOK SGK ix) :
    P2Inv SGK (L.foldl (pass2Step defs) st) := by
  induction L generalizing st with
  | nil => exact h
  | cons hd rest ih =>
      exact ih (pass2Step_inv h (hok hd (List.mem_cons_self _ _)))
        (fun ix hx => hok ix (List.mem_cons_of_mem _ hx))

/-- The invariants I1, I2, I4, I5 hold of the graph assembled from the two
passes, for any preprocessed line list. -/
theorem invariants_of_passes (defs : List (String × NodeDef))
    (L : List (Nat × String)) (direction : String) :
    InvI1 ⟨⟨direction⟩,
      (L.foldl (pass2Step defs) ⟨[], [], (L.foldl pass1Step ⟨[], []⟩).sgs, [], 0⟩).nodes,
      (L.foldl (pass2Step defs) ⟨[], [], (L.foldl pass1Step ⟨[], []⟩).sgs, [], 0⟩).edges,
      (L.foldl (pass2Step defs) ⟨[], [], (L.foldl pass1Step ⟨[], []⟩).sgs, [], 0⟩).sgs⟩ ∧
    InvI2 ⟨⟨direction⟩,
      (L.foldl (pass2Step defs) ⟨[], [], (L.foldl pass1Step ⟨[], []⟩).sgs, [], 0⟩).nodes,
      (L.foldl (pass2Step defs) ⟨[], [], (L.foldl pass1Step ⟨[], []⟩).sgs, [], 0⟩).edges,
      (L.foldl (pass2Step defs) ⟨[], [], (L.foldl pass1Step ⟨[], []⟩).sgs, [], 0⟩).sgs⟩ ∧
    InvI4 ⟨⟨direction⟩,
      (L.foldl (pass2Step defs) ⟨[], [], (L.foldl pass1Step ⟨[], []⟩).sgs, [], 0⟩).nodes,
      (L.foldl (pass2Step defs) ⟨[], [], (L.foldl pass1Step ⟨[], []⟩).sgs, [], 0⟩).edges,
      (L.foldl (pass2Step defs) ⟨[], [], (L.foldl pass1Step ⟨[], []⟩).sgs, [], 0⟩).sgs⟩ ∧
    InvI5 ⟨⟨direction⟩,
      (L.foldl (pass2Step defs) ⟨[], [], (L.foldl pass1Step ⟨[], []⟩).sgs, [], 0⟩).nodes,
      (L.foldl (pass2Step defs) ⟨[], [], (L.foldl pass1Step ⟨[], []⟩).sgs, [], 0⟩).edges,
      (L.foldl (pass2Step defs) ⟨[], [], (L.foldl pass1Step ⟨[], []⟩).sgs, [], 0⟩).sgs⟩ := by
  have hp1 : P1Inv (L.foldl pass1Step ⟨[], []⟩) := by
    apply pass1_fold_inv
    exact ⟨by simp [mkeys], by simp, by simp, by simp⟩
  have hok : ∀ ix ∈ L,
      SubgraphLineOK (mkeys (L.foldl pass1Step ⟨[], []⟩).sgs) ix := by
    intro ix hmem info hne hsw hp
    exact pass1_complete L ⟨[], []⟩ hmem hne hsw hp
  have h0 : P2Inv (mkeys (L.foldl pass1Step ⟨[], []⟩).sgs)
      ⟨[], [], (L.foldl pass1Step ⟨[], []⟩).sgs, [], 0⟩ := by
    refine ⟨⟨rfl, by simp [mkeys], by simp, ?_, ?_, ?_⟩, by simp, by simp⟩
    · exact hp1.parentOK
    · intro p hp c hc
      rw [hp1.childrenNil p hp] at hc
      cases hc
    · intro p hp
      rw [hp1.childrenNil p hp]
      exact List.nodup_nil
  have h2 := @pass2_fold_inv _ defs L _ h0 hok
  have hsgk := h2.ns.sgKeys
  refine ⟨?_, ⟨?_, ?_⟩, ?_, ⟨?_, ?_⟩⟩
  · intro p hp
    obtain ⟨h1, ht⟩ := h2.edgesOK p hp
    constructor
    · rcases h1 with h1 | h1
      · exact Or.inl h1
      · exact Or.inr (hsgk ▸ h1)
    · rcases ht with ht | ht
      · exact Or.inl ht
      · exact Or.inr (hsgk ▸ ht)
  · intro p hp q hq
    exact hsgk ▸ h2.ns.nodeParent p hp q hq
  · intro p hp q hq
    exact hsgk ▸ h2.ns.sgParent p hp q hq
  · exact h2.ns.childrenOK
  · exact h2.ns.childrenNodup
  · intro p q hp hq c hcp hcq
    obtain ⟨n1, hl1, hn1⟩ := h2.ns.childrenOK p hp c hcp
    obtain ⟨n2, hl2, hn2⟩ := h2.ns.childrenOK q hq c hcq
    rw [hl1] at hl2
    cases hl2
    rw [hn1] at hn2
    exact (Option.some_injective _ hn2)

theorem parse_selfNested : parseMermaidToGraph selfNestedCode = selfNestedGraph := by
  decide

theorem parentIter_selfNested (k : Nat) :
    parentIter selfNestedGraph k "A" = some "A" := by
  induction k with
  | zero => rfl
  | succ k ih =>
      show (match parentOf selfNestedGraph "A" with
            | some p => parentIter selfNestedGraph k p
            | none => none) = some "A"
      have hp : parentOf selfNestedGraph "A" = some "A" := by decide
      rw [hp]
      exact ih

/-- C1, counterexample: the claim asserts I1-I5 for every parsed graph,
but parsing `"graph TB\nsubgraph A\nsubgraph A\nend\nend"` yields a
subgraph `A` with `parent = A`, so the parent relation has a cycle and I3
fails. -/
theorem C1_counterexample : ¬ InvI3 (parseMermaidToGraph selfNestedCode) := by
  rw [parse_selfNested]
  intro h
  have hmem : "A" ∈ mkeys selfNestedGraph.subgraphs := by decide
  obtain ⟨k, hk⟩ := h "A" hmem
  rw [parentIter_selfNested k] at hk
  cases hk

/-- C1 (amended): for every source string, the parsed graph satisfies
invariants I1, I2, I4 and I5: edge endpoints reference existing nodes or
subgraphs, every `parent` field references an existing subgraph, every
`children` entry is a node of that subgraph, and no node is claimed as a
child twice or by two subgraphs.  Invariant I3 (acyclicity of the subgraph
parent relation) can fail - see the counterexample - when a subgraph id is
redeclared nested inside itself. -/
theorem C1_parse_invariants (code : String) :
    InvI1 (parseMermaidToGraph code) ∧ InvI2 (parseMermaidToGraph code) ∧
    InvI4 (parseMermaidToGraph code) ∧ InvI5 (parseMermaidToGraph code) := by
  simp only [parseMermaidToGraph]
  exact invariants_of_passes _ _ _

/-- C2, counterexample: the claim asserts `parse` fails with
`ParseError{line, reason}` when the source is empty (among other cases);
the source defines no error channel at all and the empty source yields the
empty graph with the default direction `TB`. -/
theorem C2_counterexample : parseMermaidToGraph "" = ⟨⟨"TB"⟩, [], [], []⟩ := by
  decide

/-- C2 (amended): parsing never fails: `parseMermaidToGraph` is a total
function with no error channel (the source contains no `throw` and no
`ParseError`), the empty source produces the empty graph with direction
`TB`, and a line that is not blank, not structural (`subgraph`, `end`,
`direction`, header, comment), not parseable as an edge and not parseable
as a standalone node leaves the parser state unchanged: it is skipped
silently and parsing continues. -/
theorem C2_parse_total_and_skips :
    parseMermaidToGraph "" = ⟨⟨"TB"⟩, [], [], []⟩ ∧
    ∀ (defs : List (String × NodeDef)) (st : Pass2State) (ix : Nat × String),
      jsTrim ix.2 ≠ "" →
      jsStartsWith (jsTrim ix.2) "subgraph" = false →
      jsTrim ix.2 ≠ "end" →
      jsStartsWith (jsTrim ix.2) "direction " = false →
      jsStartsWith (jsTrim ix.2) "flowchart " = false →
      jsStartsWith (jsTrim ix.2) "graph " = false →
      jsStartsWith (jsTrim ix.2) "%%" = false →
      parseEdgeLine (jsTrim ix.2) = none →
      parseStandaloneNode (jsTrim ix.2) st.nodes st.sgs = none →
      pass2Step defs st ix = st := by
  constructor
  · decide
  · intro defs st ix hne hsw hend hdir hflow hgr hcom hedge hstand
    simp only [pass2Step]
    rw [if_neg hne, hsw, if_neg (by simp : ¬ (false = true)), if_neg hend,
      hdir, hflow, hgr, hcom,
      if_neg (by simp :
        ¬ (false = true ∨ false = true ∨ false = true ∨ false = true)),
      hedge, hstand]

/-- C2, witness for the amended theorem at a concrete unparseable line. -/
theorem C2_witness :
    pass2Step [] ⟨[], [], [], [], 0⟩ (0, "???") = ⟨[], [], [], [], 0⟩ :=
  C2_parse_total_and_skips.2 [] ⟨[], [], [], [], 0⟩ (0, "???")
    (by decide) (by decide) (by decide) (by decide) (by decide) (by decide)
    (by decide) (by decide) (by decide)

/-- C3, counterexample: the claim (spec scenario S1) expects three nodes
`A`, `B`, `C` and two edges from
`"graph TD\nA[Start] --> B[Middle] --> C[End]"`; the parser consumes only
the first arrow of a line (`parseEdgeLine` returns a single
source/target pair and the rest of the line is discarded), so the parsed
graph has node keys `[A, B]` and the single edge `e-A-B-0`. -/
theorem C3_counterexample :
    mkeys (parseMermaidToGraph "graph TD\nA[Start] --> B[Middle] --> C[End]").nodes
        = ["A", "B"] ∧
    mkeys (parseMermaidToGraph "graph TD\nA[Start] --> B[Middle] --> C[End]").edges
        = ["e-A-B-0"] := by
  decide

/-- C3 (amended): parsing `"graph TD\nA[Start] --> B[Middle] --> C[End]"`
yields `meta.direction = "TB"`, exactly two nodes `A` (label `Start`) and
`B` (label `Middle`), both of kind `rect`, one directed edge `e-A-B-0`
from `A` to `B`, and no subgraphs; the second chained arrow `--> C[End]`
is dropped because only the first arrow of a line is parsed. -/
theorem C3_linear_flowchart :
    parseMermaidToGraph "graph TD\nA[Start] --> B[Middle] --> C[End]" =
      ⟨⟨"TB"⟩,
       [("A", ⟨"A", "Start", .rect, none⟩), ("B", ⟨"B", "Middle", .rect, none⟩)],
       [("e-A-B-0", ⟨"e-A-B-0", "A", "B", none, .directed⟩)],
       []⟩ := by
  decide

/-- C6 (confirmed): for every node, the layout size is
`width = max(80, maxLineLength·8 + 60)`, `height = max(40, lineCount·18 + 40)`
over the newline-split label; a diamond is inflated by 5% per axis (exact
ceiling) and floored at 90×90; a circle becomes a square of side
`max(width, height) + 10`. -/
theorem C6_calculateNodeSize (node : GNode) :
    calculateNodeSize node =
      (let lines := jsSplitLines node.label
       let maxLineWidth : ℚ :=
         lines.foldr (fun l acc => max ((l.length : ℚ) * 8) acc) 0
       let width : ℚ := max 80 (maxLineWidth + 60)
       let height : ℚ := max 40 ((lines.length : ℚ) * 18 + 40)
       if node.kind = .diamond then
         ⟨max 90 ((⌈width * (21 / 20)⌉ : ℤ) : ℚ),
          max 90 ((⌈height * (21 / 20)⌉ : ℤ) : ℚ)⟩
       else if node.kind = .circle then
         ⟨max width height + 10, max width height + 10⟩
       else ⟨width, height⟩) := by
  simp only [calculateNodeSize]
  have h1 : ∀ x : ℚ, x + 30 + 30 = x + 60 := by intro x; ring
  have h2 : ∀ x : ℚ, x + 20 + 20 = x + 40 := by intro x; ring
  rw [h1, h2]

/-- Any successful `parseEdgeLine` takes its `sourceId` from the first
token of the line (`extractToken` at index 0). -/
theorem parseEdgeLine_source {line : String} {r : EdgeParse}
    (h : parseEdgeLine line = some r) :
    ∃ tok : String × String × Nat,
      extractToken line.data 0 = some tok ∧ r.sourceId = tok.1 := by
  cases htok : extractToken line.data 0 with
  | none =>
      simp only [parseEdgeLine, htok] at h
      cases h
  | some tok =>
      obtain ⟨srcId, full, srcEnd⟩ := tok
      simp only [parseEdgeLine, htok] at h
      refine ⟨(srcId, full, srcEnd), rfl, ?_⟩
      repeat' split at h
      all_goals cases h
      all_goals rfl

/-- C8 (confirmed): for every line the second pass parses as an edge, the
edge written into the edge map is bidirectional exactly when the operator
token is `"<->"`; every other recognized operator - `"<-"` included -
yields a directed edge whose `from` is the id of the first token of the
line and whose `to` is the parsed target token. -/
theorem C8_operator_semantics (defs : List (String × NodeDef))
    (st : Pass2State) (ix : Nat × String) (r : EdgeParse)
    (hne : jsTrim ix.2 ≠ "")
    (hsw : jsStartsWith (jsTrim ix.2) "subgraph" = false)
    (hend : jsTrim ix.2 ≠ "end")
    (hdir : jsStartsWith (jsTrim ix.2) "direction " = false)
    (hflow : jsStartsWith (jsTrim ix.2) "flowchart " = false)
    (hgr : jsStartsWith (jsTrim ix.2) "graph " = false)
    (hcom : jsStartsWith (jsTrim ix.2) "%%" = false)
    (h : parseEdgeLine (jsTrim ix.2) = some r) :
    ∃ e : GEdge,
      (pass2Step defs st ix).edges = minsert st.edges e.id e ∧
      e.source = r.sourceId ∧ e.target = r.targetId ∧
      (e.kind = .bidirectional ↔ r.edgeType = "<->") ∧
      ∃ tok : String × String × Nat,
        extractToken (jsTrim ix.2).data 0 = some tok ∧ r.sourceId = tok.1 := by
  simp only [pass2Step]
  rw [if_neg hne, hsw, if_neg (by simp : ¬ (false = true)), if_neg hend,
    hdir, hflow, hgr, hcom,
    if_neg (by simp :
      ¬ (false = true ∨ false = true ∨ false = true ∨ false = true)),
    h]
  refine ⟨⟨"e-" ++ r.sourceId ++ "-" ++ r.targetId ++ "-" ++ toString st.edgeIndex,
    r.sourceId, r.targetId,
    (if r.edgeLabel = "" then none else some r.edgeLabel),
    (if r.edgeType = "<->" then .bidirectional else .directed)⟩,
    rfl, rfl, rfl, ?_, parseEdgeLine_source h⟩
  by_cases hb : r.edgeType = "<->"
  · simp [hb]
  · simp [hb]

/-- A step of the node-assembly loop at a present key always writes that
key (with some value). -/
theorem nodeVisualStep_eq {g : Graph} (meta : MetaResult)
    (layouts : List (String × SubgraphLayout)) (pr : Option PriorState)
    (acc : List (String × NodeVisual)) {nid : String}
    (h : (mlookup g.nodes nid).isSome = true) :
    ∃ v, nodeVisualStep g meta layouts pr acc nid = minsert acc nid v := by
  unfold nodeVisualStep
  cases hl : mlookup g.nodes nid with
  | none => rw [hl] at h; cases h
  | some node =>
      dsimp only
      cases pr.bind (fun s => mlookup s.nodes nid) with
      | none => exact ⟨_, rfl⟩
      | some ev =>
          dsimp only
          by_cases hb : ev.locked = some true
          · rw [if_pos hb]
            exact ⟨ev, rfl⟩
          · rw [if_neg hb]
            exact ⟨_, rfl⟩

/-- A step of the node-assembly loop at another key leaves a lookup
unchanged. -/
theorem nodeVisualStep_lookup_ne {g : Graph} (meta : MetaResult)
    (layouts : List (String × SubgraphLayout)) (pr : Option PriorState)
    (acc : List (String × NodeVisual)) {nid k : String} (h : k ≠ nid) :
    mlookup (nodeVisualStep g meta layouts pr acc k) nid = mlookup acc nid := by
  unfold nodeVisualStep
  cases mlookup g.nodes k with
  | none => rfl
  | some node =>
      dsimp only
      cases pr.bind (fun s => mlookup s.nodes k) with
      | none => exact mlookup_minsert_ne _ _ _ _ h
      | some ev =>
          dsimp only
          by_cases hb : ev.locked = some true
          · rw [if_pos hb]
            exact mlookup_minsert_ne _ _ _ _ h
          · rw [if_neg hb]
            exact mlookup_minsert_ne _ _ _ _ h

theorem node_fold_lookup_preserve {g : Graph} (meta : MetaResult)
    (layouts : List (String × SubgraphLayout)) (pr : Option PriorState)
    (ks : List String) {nid : String} (h : ¬ nid ∈ ks)
    (acc : List (String × NodeVisual)) :
    mlookup (ks.foldl (nodeVisualStep g meta layouts pr) acc) nid =
      mlookup acc nid := by
  induction ks generalizing acc with
  | nil => rfl
  | cons k rest ih =>
      have hk : k ≠ nid := fun hh => h (hh ▸ List.mem_cons_self _ _)
      rw [List.foldl_cons, ih (fun hh => h (List.mem_cons_of_mem _ hh))]
      exact nodeVisualStep_lookup_ne meta layouts pr acc hk

/-- Key list of the node-assembly fold. -/
theorem node_fold_keys {g : Graph} (meta : MetaResult)
    (layouts : List (String × SubgraphLayout)) (pr : Option PriorState)
    (ks : List String) (acc : List (String × NodeVisual))
    (hin : ∀ k ∈ ks, (mlookup g.nodes k).isSome = true) (hnd : ks.Nodup)
    (hacc : ∀ k ∈ ks, ¬ k ∈ mkeys acc) :
    mkeys (ks.foldl (nodeVisualStep g meta layouts pr) acc) =
      mkeys acc ++ ks := by
  induction ks generalizing acc with
  | nil => simp
  | cons k rest ih =>
      obtain ⟨v, hv⟩ := nodeVisualStep_eq meta layouts pr acc
        (hin k (List.mem_cons_self _ _))
      rw [List.foldl_cons, hv]
      have hknotin : ¬ k ∈ mkeys acc := hacc k (List.mem_cons_self _ _)
      have hkeys : mkeys (minsert acc k v) = mkeys acc ++ [k] :=
        mkeys_minsert_of_not_mem _ _ _ hknotin
      rw [ih _ (fun x hx => hin x (List.mem_cons_of_mem _ hx))
        (List.Nodup.of_cons hnd), hkeys, List.append_assoc]
      · rfl
      · intro x hx
        rw [hkeys]
        intro hmem
        rcases List.mem_append.mp hmem with hmem | hmem
        · exact hacc x (List.mem_cons_of_mem _ hx) hmem
        · have : x = k := by simpa using hmem
          exact (List.nodup_cons.mp hnd).1 (this ▸ hx)

/-- With no prior state, the node-assembly fold assigns each present key
its computed visual. -/
theorem node_fold_lookup_computed {g : Graph} (meta : MetaResult)
    (layouts : List (String × SubgraphLayout)) (ks : List String)
    (acc : List (String × NodeVisual)) {nid : String} {node : GNode}
    (hnd : ks.Nodup) (hmem : nid ∈ ks) (hl : mlookup g.nodes nid = some node) :
    mlookup (ks.foldl (nodeVisualStep g meta layouts none) acc) nid =
      some (computedNodeVisual meta layouts nid node) := by
  induction ks generalizing acc with
  | nil => simp at hmem
  | cons k rest ih =>
      rcases List.mem_cons.mp hmem with hmem | hmem
      · subst hmem
        rw [List.foldl_cons,
          node_fold_lookup_preserve meta layouts none rest
            (List.nodup_cons.mp hnd).1 _]
        unfold nodeVisualStep
        rw [hl]
        exact mlookup_minsert_self _ _ _
      · rw [List.foldl_cons]
        exact ih _ (List.Nodup.of_cons hnd) hmem

/-- With a prior state, a locked prior node entry is copied verbatim. -/
theorem node_fold_lookup_locked {g : Graph} (meta : MetaResult)
    (layouts : List (String × SubgraphLayout)) {pr : PriorState}
    (ks : List String) (acc : List (String × NodeVisual)) {nid : String}
    {ev : NodeVisual} (hnd : ks.Nodup) (hmem : nid ∈ ks)
    (hin : (mlookup g.nodes nid).isSome = true)
    (hev : mlookup pr.nodes nid = some ev) (hlock : ev.locked = some true) :
    mlookup (ks.foldl (nodeVisualStep g meta layouts (some pr)) acc) nid =
      some ev := by
  induction ks generalizing acc with
  | nil => simp at hmem
  | cons k rest ih =>
      rcases List.mem_cons.mp hmem with hmem | hmem
      · subst hmem
        rw [List.foldl_cons,
          node_fold_lookup_preserve meta layouts (some pr) rest
            (List.nodup_cons.mp hnd).1 _]
        unfold nodeVisualStep
        cases hl : mlookup g.nodes nid with
        | none => rw [hl] at hin; cases hin
        | some node =>
            show mlookup (match (some pr).bind (fun s => mlookup s.nodes nid) with
              | some ev =>
                  if ev.locked = some true then minsert acc nid ev
                  else minsert acc nid (computedNodeVisual meta layouts nid node)
              | none => minsert acc nid (computedNodeVisual meta layouts nid node)) nid = some ev
            have : (some pr).bind (fun s => mlookup s.nodes nid) = some ev := by
              simpa using hev
            rw [this]
            simp only [if_pos hlock]
            exact mlookup_minsert_self _ _ _
      · rw [List.foldl_cons]
        exact ih _ (List.Nodup.of_cons hnd) hmem

/-- A locked prior subgraph entry is never overwritten by the assembly
fold: whatever the fold records under that key is the prior entry. -/
theorem sg_fold_locked_inv {g : Graph} (meta : MetaResult) {pr : PriorState}
    {sid : String} {ev : SubgraphVisual}
    (hev : mlookup pr.subgraphs sid = some ev) (hlock : ev.locked = some true)
    (ls : List (String × SubgraphLayout))
    (acc : List (String × SubgraphVisual))
    (hacc : ∀ w, mlookup acc sid = some w → w = ev) :
    ∀ w, mlookup (ls.foldl (subgraphVisualStep g meta (some pr)) acc) sid =
        some w → w = ev := by
  induction ls generalizing acc with
  | nil => exact hacc
  | cons p rest ih =>
      rw [List.foldl_cons]
      apply ih
      intro w hw
      unfold subgraphVisualStep at hw
      by_cases hp : p.1 = sid
      · rw [hp] at hw
        cases hpos : mlookup meta.subgraphPositions sid with
        | none =>
            rw [hpos] at hw
            exact hacc w hw
        | some position =>
            rw [hpos] at hw
            dsimp only at hw
            have hbind : (some pr).bind (fun s => mlookup s.subgraphs sid) =
                some ev := by simpa using hev
            rw [hbind] at hw
            dsimp only at hw
            simp only [if_pos hlock] at hw
            rw [mlookup_minsert_self] at hw
            cases hw
            rfl
      · cases hpos : mlookup meta.subgraphPositions p.1 with
        | none =>
            rw [hpos] at hw
            exact hacc w hw
        | some position =>
            rw [hpos] at hw
            dsimp only at hw
            cases hb : (some pr).bind (fun s => mlookup s.subgraphs p.1) with
            | none =>
                rw [hb] at hw
                dsimp only at hw
                rw [mlookup_minsert_ne _ _ _ _ hp] at hw
                exact hacc w hw
            | some ev' =>
                rw [hb] at hw
                dsimp only at hw
                by_cases hl : ev'.locked = some true
                · rw [if_pos hl, mlookup_minsert_ne _ _ _ _ hp] at hw
                  exact hacc w hw
                · rw [if_neg hl, mlookup_minsert_ne _ _ _ _ hp] at hw
                  exact hacc w hw

/-- C9 (confirmed): `autoLayout` is total and never drops a node: with no
prior state its node map has exactly the key set of `graph.nodes` (in
order), and a node whose parent subgraph's interior layout has no entry
for it is assigned position `(0, 0)` with no size instead of failing or
being omitted.  This holds for every graph, even when `parent` fields
dangle, and for every layout oracle and spacing configuration. -/
theorem C9_autoLayout_total (spacing : LayoutSpacing) (o : DagreOracle)
    (G : Graph) :
    ((mkeys G.nodes).Nodup →
      mkeys (autoLayout spacing o G none).nodes = mkeys G.nodes) ∧
    (∀ nid node p, (mkeys G.nodes).Nodup →
      mlookup G.nodes nid = some node → node.parent = some p →
      (mlookup (layoutSubgraphs spacing o G G.meta.direction) p).bind
          (fun sl => mlookup sl.nodes nid) = none →
      mlookup (autoLayout spacing o G none).nodes nid =
        some ⟨⟨0, 0⟩, none, some false⟩) := by
  constructor
  · intro hnd
    simp only [autoLayout]
    rw [node_fold_keys _ _ none (mkeys G.nodes) []
      (fun k hk => (mlookup_isSome_iff_mem_mkeys _ _).mpr hk) hnd
      (fun k _ hk => by simp [mkeys] at hk)]
    rfl
  · intro nid node p hnd hl hparent hbind
    simp only [autoLayout]
    rw [node_fold_lookup_computed _ _ (mkeys G.nodes) [] hnd
      ((mlookup_isSome_iff_mem_mkeys _ _).mp (by rw [hl]; rfl)) hl]
    unfold computedNodeVisual
    rw [hparent]
    dsimp only
    rw [hbind]

/-- C9, witness: the dangling-parent node is laid out at `(0, 0)` with no
size. -/
theorem C9_witness :
    mlookup (autoLayout defaultSpacing zeroOracle danglingParentGraph
      none).nodes "N" = some ⟨⟨0, 0⟩, none, some false⟩ :=
  (C9_autoLayout_total defaultSpacing zeroOracle danglingParentGraph).2
    "N" ⟨"N", "N", .rect, some "ghost"⟩ "ghost"
    (by decide) (by decide) (by decide) (by decide)

/-- C4 (amended): locked prior node entries of nodes present in the graph
are returned verbatim by `autoLayout`; a locked prior subgraph entry is
never overwritten (any entry the result records under that key is the
prior one verbatim); and the prior state's `edges` map and `viewport` are
passed through unchanged.  (As stated, the claim fails for locked entries
whose id is not in the graph and for locked subgraphs that receive no
position - see the counterexample.) -/
theorem C4_locked_preservation (spacing : LayoutSpacing) (o : DagreOracle)
    (G : Graph) (pr : PriorState) :
    (∀ nid ev, (mkeys G.nodes).Nodup → nid ∈ mkeys G.nodes →
      mlookup pr.nodes nid = some ev → ev.locked = some true →
      mlookup (autoLayout spacing o G (some pr)).nodes nid = some ev) ∧
    (∀ sid ev w, mlookup pr.subgraphs sid = some ev → ev.locked = some true →
      mlookup (autoLayout spacing o G (some pr)).subgraphs sid = some w →
      w = ev) ∧
    (autoLayout spacing o G (some pr)).edges = pr.edges ∧
    (autoLayout spacing o G (some pr)).viewport = pr.viewport := by
  refine ⟨?_, ?_, rfl, rfl⟩
  · intro nid ev hnd hmem hev hlock
    simp only [autoLayout]
    exact node_fold_lookup_locked _ _ (mkeys G.nodes) [] hnd hmem
      ((mlookup_isSome_iff_mem_mkeys _ _).mpr hmem) hev hlock
  · intro sid ev w hev hlock hw
    simp only [autoLayout] at hw
    exact sg_fold_locked_inv _ hev hlock _ [] (fun w hw => by cases hw) w hw

/-- C4, counterexample: the claim asserts every locked prior entry is
returned verbatim, but a locked node absent from `graph.nodes` is dropped
(the assembly iterates over the graph's nodes only), and a locked
subgraph that receives no position - here because its parent relation is
cyclic, so it is neither top-level nor a child of a positioned parent -
is dropped before the locked check. -/
theorem C4_counterexample :
    mlookup (autoLayout defaultSpacing zeroOracle lockedCxGraph
      (some lockedCxPrior)).nodes "X" = none ∧
    mlookup (autoLayout defaultSpacing zeroOracle lockedCxGraph
      (some lockedCxPrior)).subgraphs "A" = none := by
  decide

/-- C4, witness: the amended theorem applied at a concrete graph with a
locked node, a locked positioned subgraph, prior edges and a viewport. -/
theorem C4_witness :
    mlookup (autoLayout defaultSpacing zeroOracle lockedWGraph
      (some lockedWPrior)).nodes "N" = some ⟨⟨7, 8⟩, none, some true⟩ ∧
    ((⟨⟨9, 9⟩, ⟨10, 10⟩, some true⟩ : SubgraphVisual) =
      ⟨⟨9, 9⟩, ⟨10, 10⟩, some true⟩) ∧
    (autoLayout defaultSpacing zeroOracle lockedWGraph
      (some lockedWPrior)).edges = lockedWPrior.edges ∧
    (autoLayout defaultSpacing zeroOracle lockedWGraph
      (some lockedWPrior)).viewport = lockedWPrior.viewport :=
  ⟨(C4_locked_preservation defaultSpacing zeroOracle lockedWGraph
      lockedWPrior).1 "N" ⟨⟨7, 8⟩, none, some true⟩
      (by decide) (by decide) (by decide) (by decide),
   (C4_locked_preservation defaultSpacing zeroOracle lockedWGraph
      lockedWPrior).2.1 "S" ⟨⟨9, 9⟩, ⟨10, 10⟩, some true⟩
      ⟨⟨9, 9⟩, ⟨10, 10⟩, some true⟩ (by decide) (by decide) (by decide),
   (C4_locked_preservation defaultSpacing zeroOracle lockedWGraph
      lockedWPrior).2.2.1,
   (C4_locked_preservation defaultSpacing zeroOracle lockedWGraph
      lockedWPrior).2.2.2⟩

/-- C8, witness: the listed-but-reverse-unsupported operator `"<-"` at a
concrete line produces a directed edge from the first token `A` to the
second token `B`. -/
theorem C8_witness :
    ∃ e : GEdge,
      (pass2Step [] ⟨[], [], [], [], 0⟩ (0, "A <- B")).edges =
        minsert ([] : List (String × GEdge)) e.id e ∧
      e.source = (⟨"A", "B", "<-", ""⟩ : EdgeParse).sourceId ∧
      e.target = (⟨"A", "B", "<-", ""⟩ : EdgeParse).targetId ∧
      (e.kind = .bidirectional ↔
        (⟨"A", "B", "<-", ""⟩ : EdgeParse).edgeType = "<->") ∧
      ∃ tok : String × String × Nat,
        extractToken (jsTrim "A <- B").data 0 = some tok ∧
        (⟨"A", "B", "<-", ""⟩ : EdgeParse).sourceId = tok.1 :=
  C8_operator_semantics [] ⟨[], [], [], [], 0⟩ (0, "A <- B")
    ⟨"A", "B", "<-", ""⟩ (by decide) (by decide) (by decide) (by decide)
    (by decide) (by decide) (by decide) (by decide)

/-! ## C7: the 300×200 floor of `recalculateParentSizes` -/

theorem hierRoots_processed_sub (sgs : List (String × GSubgraph)) :
    ∀ x ∈ (hierRoots sgs).processed, x ∈ (hierRoots sgs).result := by
  unfold hierRoots
  suffices h : ∀ (st : HierState),
      (∀ x ∈ st.processed, x ∈ st.result) →
      ∀ x ∈ (sgs.foldl (fun st p =>
        if p.2.parent = none then ⟨st.result ++ [p.1], p.1 :: st.processed⟩
        else st) st).processed,
      x ∈ (sgs.foldl (fun st p =>
        if p.2.parent = none then ⟨st.result ++ [p.1], p.1 :: st.processed⟩
        else st) st).result by
    exact h ⟨[], []⟩ (by simp)
  induction sgs with
  | nil => exact fun st h => h
  | cons p rest ih =>
      intro st h
      rw [List.foldl_cons]
      apply ih
      by_cases hp : p.2.parent = none
      · rw [if_pos hp]
        intro x hx
        rcases List.mem_cons.mp hx with hx | hx
        · simp [hx]
        · exact List.mem_append.mpr (Or.inl (h x hx))
      · rw [if_neg hp]
        exact h

theorem hierRound_processed_sub (sgs : List (String × GSubgraph))
    (st : HierState) (h : ∀ x ∈ st.processed, x ∈ st.result) :
    ∀ x ∈ (hierRound sgs st).processed, x ∈ (hierRound sgs st).result := by
  unfold hierRound
  induction sgs generalizing st with
  | nil => exact h
  | cons p rest ih =>
      rw [List.foldl_cons]
      apply ih
      split
      · intro x hx
        rcases List.mem_cons.mp hx with hx | hx
        · simp [hx]
        · exact List.mem_append.mpr (Or.inl (h x hx))
      · exact h

theorem hierLoop_processed_sub (sgs : List (String × GSubgraph)) :
    ∀ fuel lastCount st, (∀ x ∈ st.processed, x ∈ st.result) →
    ∀ x ∈ (hierLoop sgs fuel lastCount st).processed,
      x ∈ (hierLoop sgs fuel lastCount st).result := by
  intro fuel
  induction fuel with
  | zero => exact fun _ st h => h
  | succ fuel ih =>
      intro lastCount st h
      unfold hierLoop
      split
      · exact ih _ _ (hierRound_processed_sub sgs st h)
      · exact h

/-- Every subgraph key occurs in the hierarchical order. -/
theorem hier_complete (g : Graph) :
    ∀ k ∈ mkeys g.subgraphs, k ∈ getSubgraphsInHierarchicalOrder g := by
  intro k hk
  unfold getSubgraphsInHierarchicalOrder
  by_cases hp : (hierLoop g.subgraphs (g.subgraphs.length + 1) 0
      (hierRoots g.subgraphs)).processed.contains k
  · refine List.mem_append.mpr (Or.inl ?_)
    apply hierLoop_processed_sub g.subgraphs _ _ _
      (hierRoots_processed_sub g.subgraphs)
    simpa using hp
  · refine List.mem_append.mpr (Or.inr ?_)
    rw [mkeys] at hk
    obtain ⟨p, hpmem, hpk⟩ := List.mem_map.mp hk
    refine List.mem_map.mpr ⟨p, ?_, hpk⟩
    refine List.mem_filter.mpr ⟨hpmem, ?_⟩
    rw [hpk]
    simpa using hp

theorem layoutOneSubgraph_keys_nodup (spacing : LayoutSpacing)
    (o : DagreOracle) (g : Graph) (direction : String)
    (layouts : List (String × SubgraphLayout)) (sid : String)
    (h : (mkeys layouts).Nodup) :
    (mkeys (layoutOneSubgraph spacing o g direction layouts sid)).Nodup := by
  unfold layoutOneSubgraph
  cases mlookup g.subgraphs sid with
  | none => exact h
  | some sg => exact mkeys_nodup_minsert _ _ _ h

theorem recalcStep_keys_nodup (spacing : LayoutSpacing) (g : Graph)
    (ordered : List String) (isH : Bool)
    (layouts : List (String × SubgraphLayout)) (sid : String)
    (h : (mkeys layouts).Nodup) :
    (mkeys (recalcStep spacing g ordered isH layouts sid)).Nodup := by
  unfold recalcStep
  cases mlookup layouts sid with
  | none => exact h
  | some layout =>
      dsimp only
      split
      · exact h
      · exact mkeys_nodup_minsert _ _ _ h

theorem layoutSubgraphs_keys_nodup (spacing : LayoutSpacing)
    (o : DagreOracle) (g : Graph) (direction : String) :
    (mkeys (layoutSubgraphs spacing o g direction)).Nodup := by
  unfold layoutSubgraphs recalculateParentSizes
  have h1 : ∀ (L : List String) (acc : List (String × SubgraphLayout)),
      (mkeys acc).Nodup →
      (mkeys (L.foldl (layoutOneSubgraph spacing o g direction) acc)).Nodup := by
    intro L
    induction L with
    | nil => exact fun acc h => h
    | cons k rest ih =>
        intro acc h
        rw [List.foldl_cons]
        exact ih _ (layoutOneSubgraph_keys_nodup _ _ _ _ _ _ h)
  have h2 : ∀ (L : List String) (ordered : List String) (isH : Bool)
      (acc : List (String × SubgraphLayout)), (mkeys acc).Nodup →
      (mkeys (L.foldl (recalcStep spacing g ordered isH) acc)).Nodup := by
    intro L ordered isH
    induction L with
    | nil => exact fun acc h => h
    | cons k rest ih =>
        intro acc h
        rw [List.foldl_cons]
        exact ih _ (recalcStep_keys_nodup _ _ _ _ _ _ h)
  exact h2 _ _ _ _ (h1 _ _ (by simp [mkeys]))

/-- `recalcStep` at its own key leaves the key's entry (if any) at or
above the 300×200 floor, provided the key has a child subgraph in the
hierarchical order. -/
theorem recalcStep_floor (spacing : LayoutSpacing) (g : Graph)
    (ordered : List String) (isH : Bool) {sid : String}
    (hchild : ¬ (ordered.filter (fun cid =>
      match mlookup g.subgraphs cid with
      | some c => c.parent = some sid
      | none => false)) = [])
    (layouts : List (String × SubgraphLayout)) :
    ∀ v, mlookup (recalcStep spacing g ordered isH layouts sid) sid = some v →
      300 ≤ v.width ∧ 200 ≤ v.height := by
  intro v hv
  unfold recalcStep at hv
  cases hl : mlookup layouts sid with
  | none =>
      rw [hl] at hv
      dsimp only at hv
      rw [hl] at hv
      cases hv
  | some layout =>
      rw [hl] at hv
      dsimp only at hv
      rw [if_neg hchild] at hv
      rw [mlookup_minsert_self] at hv
      cases hv
      constructor
      · exact le_max_right _ _
      · exact le_max_right _ _

/-- `recalcStep` at another key does not change this key's entry. -/
theorem recalcStep_lookup_ne (spacing : LayoutSpacing) (g : Graph)
    (ordered : List String) (isH : Bool)
    (layouts : List (String × SubgraphLayout)) {sid k : String}
    (h : k ≠ sid) :
    mlookup (recalcStep spacing g ordered isH layouts k) sid =
      mlookup layouts sid := by
  unfold recalcStep
  cases mlookup layouts k with
  | none => rfl
  | some layout =>
      dsimp only
      split
      · rfl
      · exact mlookup_minsert_ne _ _ _ _ h

/-- After the reverse-order fold of `recalculateParentSizes`, any entry of
a subgraph with a child subgraph is floored at 300×200. -/
theorem recalc_fold_floor (spacing : LayoutSpacing) (g : Graph)
    (ordered : List String) (isH : Bool) {sid : String}
    (hchild : ¬ (ordered.filter (fun cid =>
      match mlookup g.subgraphs cid with
      | some c => c.parent = some sid
      | none => false)) = []) :
    ∀ (L : List String), sid ∈ L →
    ∀ (layouts : List (String × SubgraphLayout)) v,
      mlookup (L.foldl (recalcStep spacing g ordered isH) layouts) sid =
        some v → 300 ≤ v.width ∧ 200 ≤ v.height := by
  have hpres : ∀ (L : List String) (layouts : List (String × SubgraphLayout)),
      (∀ v, mlookup layouts sid = some v → 300 ≤ v.width ∧ 200 ≤ v.height) →
      ∀ v, mlookup (L.foldl (recalcStep spacing g ordered isH) layouts) sid =
        some v → 300 ≤ v.width ∧ 200 ≤ v.height := by
    intro L
    induction L with
    | nil => exact fun layouts h => h
    | cons k rest ih =>
        intro layouts h
        rw [List.foldl_cons]
        apply ih
        by_cases hk : k = sid
        · subst hk
          exact recalcStep_floor spacing g ordered isH hchild layouts
        · intro v hv
          rw [recalcStep_lookup_ne spacing g ordered isH layouts hk] at hv
          exact h v hv
  intro L hmem
  induction L with
  | nil => simp at hmem
  | cons k rest ih =>
      intro layouts v hv
      rcases List.mem_cons.mp hmem with hk | hk
      · subst hk
        rw [List.foldl_cons] at hv
        exact hpres rest _ (recalcStep_floor spacing g ordered isH hchild layouts)
          v hv
      · rw [List.foldl_cons] at hv
        exact ih hk _ v hv

/-- With no prior state, any subgraph visual the assembly records takes
its size verbatim from the layouts entry of that key. -/
theorem sg_fold_size {g : Graph} (meta : MetaResult)
    (LS : List (String × SubgraphLayout)) (hnd : (mkeys LS).Nodup)
    (sid : String) :
    ∀ (ls : List (String × SubgraphLayout)), (∀ p ∈ ls, p ∈ LS) →
    ∀ (acc : List (String × SubgraphVisual)),
      (∀ v : SubgraphVisual, mlookup acc sid = some v →
        ∃ l, mlookup LS sid = some l ∧ v.size = ⟨l.width, l.height⟩) →
    ∀ v, mlookup (ls.foldl (subgraphVisualStep g meta none) acc) sid = some v →
      ∃ l, mlookup LS sid = some l ∧ v.size = ⟨l.width, l.height⟩ := by
  intro ls
  induction ls with
  | nil => exact fun _ acc hacc => hacc
  | cons p rest ih =>
      intro hsub acc hacc
      rw [List.foldl_cons]
      apply ih (fun q hq => hsub q (List.mem_cons_of_mem _ hq))
      intro v hv
      unfold subgraphVisualStep at hv
      cases hpos : mlookup meta.subgraphPositions p.1 with
      | none =>
          rw [hpos] at hv
          exact hacc v hv
      | some position =>
          rw [hpos] at hv
          dsimp only [Option.none_bind] at hv
          by_cases hp : p.1 = sid
          · rw [hp, mlookup_minsert_self] at hv
            cases hv
            refine ⟨p.2, ?_, rfl⟩
            have : (sid, p.2) ∈ LS := by
              rw [← hp]
              exact hsub p (List.mem_cons_self _ _)
            exact mlookup_of_mem_nodup hnd this
          · rw [mlookup_minsert_ne _ _ _ _ hp] at hv
            exact hacc v hv

/-- C7 (amended): after auto-layout, every subgraph that has at least one
child subgraph has recorded size `width ≥ 300` and `height ≥ 200` (the
`Math.max(..., 300/200)` floor of `recalculateParentSizes`), for every
oracle and spacing configuration.  Childless subgraphs keep their Phase-1
size, which can be below the floor - see the counterexample. -/
theorem C7_subgraph_floor (spacing : LayoutSpacing) (o : DagreOracle)
    (G : Graph) (sid c : String) (csg : GSubgraph) (v : SubgraphVisual)
    (hsid : sid ∈ mkeys G.subgraphs)
    (hc : mlookup G.subgraphs c = some csg) (hparent : csg.parent = some sid)
    (hv : mlookup (autoLayout spacing o G none).subgraphs sid = some v) :
    300 ≤ v.size.width ∧ 200 ≤ v.size.height := by
  simp only [autoLayout] at hv
  have hnd := layoutSubgraphs_keys_nodup spacing o G G.meta.direction
  obtain ⟨l, hl, hsize⟩ := sg_fold_size _ _ hnd sid _ (fun p hp => hp) []
    (fun v hv => by cases hv) v hv
  have hcmem : c ∈ getSubgraphsInHierarchicalOrder G :=
    hier_complete G c ((mlookup_isSome_iff_mem_mkeys _ _).mp (by rw [hc]; rfl))
  have hchild : ¬ ((getSubgraphsInHierarchicalOrder G).filter (fun cid =>
      match mlookup G.subgraphs cid with
      | some cc => cc.parent = some sid
      | none => false)) = [] := by
    apply List.ne_nil_of_mem
    refine List.mem_filter.mpr ⟨hcmem, ?_⟩
    rw [hc]
    simp [hparent]
  have hsmem : sid ∈ (getSubgraphsInHierarchicalOrder G).reverse :=
    List.mem_reverse.mpr (hier_complete G sid hsid)
  unfold layoutSubgraphs recalculateParentSizes at hl
  have hfloor := recalc_fold_floor spacing G
    (getSubgraphsInHierarchicalOrder G)
    (decide (G.meta.direction = "LR" ∨ G.meta.direction = "RL")) hchild
    (getSubgraphsInHierarchicalOrder G).reverse hsmem _ l hl
  rw [hsize]
  exact hfloor

unseal Rat.add Rat.sub Rat.mul Rat.inv in
/-- C7, counterexample: a childless (leaf) subgraph is never floored: with
the modelled default spacing its empty-interior default box
(200×100 plus padding, header and margins) is recorded as 244×194, below
the claimed 300×200 bound on both axes. -/
theorem C7_counterexample :
    mlookup (autoLayout defaultSpacing zeroOracle leafSubgraphGraph
        none).subgraphs "S" =
      some ⟨⟨-122, -97⟩, ⟨244, 194⟩, some false⟩ ∧
    ((244 : ℚ) < 300 ∧ (194 : ℚ) < 200) := by
  refine ⟨by decide, by norm_num, by norm_num⟩

unseal Rat.add Rat.sub Rat.mul Rat.inv in
/-- C7, witness: the amended floor theorem applied to a parent subgraph
with one child subgraph. -/
theorem C7_witness :
    300 ≤ (SubgraphVisual.mk ⟨-162, -162⟩ ⟨324, 324⟩ (some false)).size.width ∧
    200 ≤ (SubgraphVisual.mk ⟨-162, -162⟩ ⟨324, 324⟩ (some false)).size.height :=
  C7_subgraph_floor defaultSpacing zeroOracle parentChildGraph "P" "C"
    ⟨"C", "C", some "P", [], none⟩ ⟨⟨-162, -162⟩, ⟨324, 324⟩, some false⟩
    (by decide) (by decide) (by decide) (by decide)

theorem hierRoots_eq (sgs : List (String × GSubgraph)) :
    hierRoots sgs = sgs.foldl hrStep ⟨[], []⟩ := rfl

theorem hierRound_eq (sgs : List (String × GSubgraph)) (st : HierState) :
    hierRound sgs st = sgs.foldl hqStep st := rfl

/-- Each sweep step either leaves the state alone or appends a fresh id
whose parent is already processed. -/
theorem hqStep_cases (st : HierState) (p : String × GSubgraph) :
    hqStep st p = st ∨
      (¬ p.1 ∈ st.processed ∧ (∃ q, p.2.parent = some q ∧ q ∈ st.processed) ∧
        hqStep st p = ⟨st.result ++ [p.1], p.1 :: st.processed⟩) := by
  unfold hqStep
  by_cases hc : (!st.processed.contains p.1 &&
      (match p.2.parent with
       | some q => st.processed.contains q
       | none => false)) = true
  · rw [if_pos hc]
    rcases Bool.and_eq_true_iff.mp hc with ⟨h1, h2⟩
    refine Or.inr ⟨?_, ?_, rfl⟩
    · intro hmem
      have hc' : st.processed.contains p.1 = true := by simpa using hmem
      rw [Bool.not_eq_true'] at h1
      rw [h1] at hc'
      cases hc'
    · cases hp : p.2.parent with
      | none => rw [hp] at h2; cases h2
      | some q =>
          rw [hp] at h2
          exact ⟨q, rfl, by simpa using h2⟩
  · rw [if_neg hc]
    exact Or.inl rfl

theorem hqStep_len_mono (st : HierState) (p : String × GSubgraph) :
    st.processed.length ≤ (hqStep st p).processed.length := by
  rcases hqStep_cases st p with h | ⟨_, _, h⟩ <;> rw [h] <;> simp

theorem hq_fold_len_mono (l : List (String × GSubgraph)) :
    ∀ st : HierState,
      st.processed.length ≤ (l.foldl hqStep st).processed.length := by
  induction l with
  | nil => intro st; exact le_refl _
  | cons p rest ih =>
      intro st
      exact le_trans (hqStep_len_mono st p) (ih (hqStep st p))

/-- A sweep that does not grow `processed` did nothing at all. -/
theorem hq_fold_eq_of_len (l : List (String × GSubgraph)) :
    ∀ st : HierState,
      (l.foldl hqStep st).processed.length = st.processed.length →
      l.foldl hqStep st = st := by
  induction l with
  | nil => intro st _; rfl
  | cons p rest ih =>
      intro st h
      rw [List.foldl_cons] at h ⊢
      have h1 : (hqStep st p).processed.length = st.processed.length := by
        have := hq_fold_len_mono rest (hqStep st p)
        have := hqStep_len_mono st p
        omega
      have hstep : hqStep st p = st := by
        rcases hqStep_cases st p with hh | ⟨_, _, hh⟩
        · exact hh
        · rw [hh] at h1
          simp at h1
      rw [hstep] at h ⊢
      exact ih st h

/-- A stationary sweep is stationary at every step. -/
theorem hq_fold_fix (l : List (String × GSubgraph)) :
    ∀ st : HierState, l.foldl hqStep st = st →
      ∀ p ∈ l, hqStep st p = st := by
  induction l with
  | nil => intro st _ p hp; simp at hp
  | cons p rest ih =>
      intro st h q hq
      rw [List.foldl_cons] at h
      have h1 : (hqStep st p).processed.length = st.processed.length := by
        have hm := hq_fold_len_mono rest (hqStep st p)
        have hs := hqStep_len_mono st p
        rw [h] at hm
        omega
      have hstep : hqStep st p = st := by
        rcases hqStep_cases st p with hh | ⟨_, _, hh⟩
        · exact hh
        · rw [hh] at h1
          simp at h1
      rcases List.mem_cons.mp hq with hq | hq
      · rw [hq]; exact hstep
      · rw [hstep] at h
        exact ih st h q hq

theorem hqStep_processed_mono (st : HierState) (p : String × GSubgraph)
    {x : String} (h : x ∈ st.processed) : x ∈ (hqStep st p).processed := by
  rcases hqStep_cases st p with hh | ⟨_, _, hh⟩ <;> rw [hh]
  · exact h
  · exact List.mem_cons_of_mem _ h

theorem hq_fold_processed_mono (l : List (String × GSubgraph)) :
    ∀ st : HierState, ∀ x ∈ st.processed,
      x ∈ (l.foldl hqStep st).processed := by
  induction l with
  | nil => intro st x h; exact h
  | cons p rest ih =>
      intro st x h
      exact ih (hqStep st p) x (hqStep_processed_mono st p h)

/-- With nothing processed, a sweep is the identity. -/
theorem hround_empty (sgs : List (String × GSubgraph)) (st : HierState)
    (h : st.processed = []) : hierRound sgs st = st := by
  rw [hierRound_eq]
  induction sgs with
  | nil => rfl
  | cons p rest ih =>
      rw [List.foldl_cons]
      have hstep : hqStep st p = st := by
        unfold hqStep
        rw [h]
        cases p.2.parent <;> simp
      rw [hstep]
      exact ih

/-- Spending more fuel than `|subgraphs| + 1` never changes the loop's
result: the `while` loop of the source terminates within that bound. -/
theorem hierLoop_stable (sgs : List (String × GSubgraph)) :
    ∀ (fuel extra lastCount : Nat) (st : HierState),
      sgs.length + 1 ≤ st.processed.length + fuel →
      hierLoop sgs (fuel + extra) lastCount st =
        hierLoop sgs fuel lastCount st := by
  intro fuel
  induction fuel with
  | zero =>
      intro extra lc st h
      cases extra with
      | zero => rfl
      | succ e =>
          rw [Nat.zero_add]
          show hierLoop sgs (e + 1) lc st = st
          unfold hierLoop
          rw [if_neg]
          intro hc
          omega
  | succ fuel ih =>
      intro extra lc st h
      show hierLoop sgs (fuel + 1 + extra) lc st = hierLoop sgs (fuel + 1) lc st
      rw [show fuel + 1 + extra = (fuel + extra) + 1 by omega]
      unfold hierLoop
      by_cases hc : st.processed.length < sgs.length ∧ lc ≠ st.processed.length
      · rw [if_pos hc, if_pos hc]
        by_cases hlen : (hierRound sgs st).processed.length =
            st.processed.length
        · have hid : hierRound sgs st = st := by
            rw [hierRound_eq] at hlen ⊢
            exact hq_fold_eq_of_len sgs st hlen
          rw [hid]
          have hf : 1 ≤ fuel := by omega
          obtain ⟨f, rfl⟩ : ∃ f, fuel = f + 1 := ⟨fuel - 1, by omega⟩
          rw [show f + 1 + extra = (f + extra) + 1 by omega]
          unfold hierLoop
          rw [if_neg (by intro hcc; exact hcc.2 rfl),
            if_neg (by intro hcc; exact hcc.2 rfl)]
        · have hge : st.processed.length + 1 ≤
              (hierRound sgs st).processed.length := by
            have := hq_fold_len_mono sgs st
            rw [← hierRound_eq] at this
            omega
          exact ih extra _ _ (by omega)
      · rw [if_neg hc, if_neg hc]

theorem hierLoop_processed_mono (sgs : List (String × GSubgraph)) :
    ∀ (fuel lastCount : Nat) (st : HierState) (x : String),
      x ∈ st.processed → x ∈ (hierLoop sgs fuel lastCount st).processed := by
  intro fuel
  induction fuel with
  | zero => intro lc st x h; exact h
  | succ fuel ih =>
      intro lc st x h
      unfold hierLoop
      split
      · refine ih _ _ x ?_
        rw [hierRound_eq]
        exact hq_fold_processed_mono sgs st x h
      · exact h

/-- When the loop exits within its fuel it exits for a reason: either
everything is processed (by count) or the last sweep was stationary. -/
theorem hierLoop_exit (sgs : List (String × GSubgraph)) :
    ∀ (fuel lastCount : Nat) (st : HierState),
      sgs.length + 1 ≤ st.processed.length + fuel →
      (lastCount = st.processed.length → hierRound sgs st = st) →
      sgs.length ≤ (hierLoop sgs fuel lastCount st).processed.length ∨
        hierRound sgs (hierLoop sgs fuel lastCount st) =
          hierLoop sgs fuel lastCount st := by
  intro fuel
  induction fuel with
  | zero =>
      intro lc st h _
      have h0 : hierLoop sgs 0 lc st = st := rfl
      rw [h0]
      exact Or.inl (by omega)
  | succ fuel ih =>
      intro lc st h hfix
      unfold hierLoop
      by_cases hc : st.processed.length < sgs.length ∧ lc ≠ st.processed.length
      · rw [if_pos hc]
        by_cases hlen : (hierRound sgs st).processed.length =
            st.processed.length
        · have hid : hierRound sgs st = st := by
            rw [hierRound_eq] at hlen ⊢
            exact hq_fold_eq_of_len sgs st hlen
          rw [hid]
          have hf : 1 ≤ fuel := by omega
          obtain ⟨f, rfl⟩ : ∃ f, fuel = f + 1 := ⟨fuel - 1, by omega⟩
          unfold hierLoop
          rw [if_neg (by intro hcc; exact hcc.2 rfl)]
          exact Or.inr hid
        · have hge : st.processed.length + 1 ≤
              (hierRound sgs st).processed.length := by
            have := hq_fold_len_mono sgs st
            rw [← hierRound_eq] at this
            omega
          exact ih _ _ (by omega) (fun hh => absurd hh (by omega))
      · rw [if_neg hc]
        rcases not_and_or.mp hc with hc | hc
        · exact Or.inl (by omega)
        · exact Or.inr (hfix (not_not.mp hc))

theorem append_singleton_split {α : Type} {res l₁ l₂ : List α} {a s : α}
    (h : res ++ [a] = l₁ ++ s :: l₂) :
    (l₁ = res ∧ s = a ∧ l₂ = []) ∨
      ∃ t, l₂ = t ++ [a] ∧ res = l₁ ++ s :: t := by
  induction l₂ using List.reverseRecOn with
  | nil =>
      have := List.append_inj' h (by simp)
      exact Or.inl ⟨this.1.symm, by simpa using this.2.symm, rfl⟩
  | append_singleton t b _ =>
      rw [show l₁ ++ s :: (t ++ [b]) = (l₁ ++ s :: t) ++ [b] by simp] at h
      have := List.append_inj' h (by simp)
      exact Or.inr ⟨t, by simp [this.2.symm], this.1⟩

theorem hrStep_processed_mono (st : HierState) (p : String × GSubgraph)
    {x : String} (h : x ∈ st.processed) : x ∈ (hrStep st p).processed := by
  unfold hrStep
  split
  · exact List.mem_cons_of_mem _ h
  · exact h

theorem hr_fold_processed_mono (l : List (String × GSubgraph)) :
    ∀ st : HierState, ∀ x ∈ st.processed,
      x ∈ (l.foldl hrStep st).processed := by
  induction l with
  | nil => intro st x h; exact h
  | cons p rest ih =>
      intro st x h
      exact ih (hrStep st p) x (hrStep_processed_mono st p h)

/-- Every parentless subgraph is processed by the first pass. -/
theorem hr_fold_roots_processed (l : List (String × GSubgraph)) :
    ∀ (st : HierState) (s : String) (sg : GSubgraph), (s, sg) ∈ l →
      sg.parent = none → s ∈ (l.foldl hrStep st).processed := by
  induction l with
  | nil => intro st s sg h _; simp at h
  | cons p rest ih =>
      intro st s sg hm hp
      rw [List.foldl_cons]
      rcases List.mem_cons.mp hm with h | h
      · have hstep : hrStep st p = ⟨st.result ++ [s], s :: st.processed⟩ := by
          rw [← h]
          unfold hrStep
          rw [if_pos hp]
        rw [hstep]
        exact hr_fold_processed_mono rest _ s (List.mem_cons_self _ _)
      · exact ih (hrStep st p) s sg h hp

theorem HInv_init (sgs : List (String × GSubgraph)) : HInv sgs ⟨[], []⟩ := by
  refine ⟨by simp, by simp, by simp, by simp, ?_, by simp⟩
  intro l₁ s l₂ hsplit
  simp at hsplit

theorem hr_fold_HInv (sgs : List (String × GSubgraph))
    (hnd : (mkeys sgs).Nodup) :
    ∀ (l : List (String × GSubgraph)) (st : HierState),
      (∀ p ∈ l, p ∈ sgs) → (mkeys l).Nodup →
      (∀ x ∈ mkeys l, ¬ x ∈ st.processed) →
      HInv sgs st → HInv sgs (l.foldl hrStep st) := by
  intro l
  induction l with
  | nil => intro st _ _ _ hinv; exact hinv
  | cons p rest ih =>
      intro st hsub hlnd hdisj hinv
      rw [List.foldl_cons]
      have hps : p ∈ sgs := hsub p (List.mem_cons_self _ _)
      have hlnd' : (mkeys rest).Nodup := by
        simpa [mkeys] using (List.nodup_cons.mp (by simpa [mkeys] using hlnd)).2
      have hhead : ¬ p.1 ∈ mkeys rest :=
        (List.nodup_cons.mp (by simpa [mkeys] using hlnd)).1
      by_cases hp : p.2.parent = none
      · have hstep : hrStep st p = ⟨st.result ++ [p.1], p.1 :: st.processed⟩ := by
          unfold hrStep
          rw [if_pos hp]
        rw [hstep]
        obtain ⟨hrN, hpN, hiff, hsubk, hpb, hroot⟩ := hinv
        have hfresh : ¬ p.1 ∈ st.processed :=
          hdisj p.1 (by simp [mkeys])
        have hfreshr : ¬ p.1 ∈ st.result := fun hh => hfresh ((hiff p.1).mp hh)
        refine ih _ (fun q hq => hsub q (List.mem_cons_of_mem _ hq)) hlnd'
          ?_ ⟨?_, ?_, ?_, ?_, ?_, ?_⟩
        · intro x hx hmem
          rcases List.mem_cons.mp hmem with hmem | hmem
          · exact hhead (hmem ▸ hx)
          · exact hdisj x (by simp [mkeys]; exact Or.inr (by simpa [mkeys] using hx)) hmem
        · exact List.Nodup.append hrN (by simp)
            (by simpa [List.disjoint_singleton] using hfreshr)
        · exact List.nodup_cons.mpr ⟨hfresh, hpN⟩
        · intro x
          simp only [List.mem_append, List.mem_cons, List.not_mem_nil,
            or_false]
          constructor
          · rintro (hx | hx)
            · exact Or.inr ((hiff x).mp hx)
            · exact Or.inl hx
          · rintro (hx | hx)
            · exact Or.inr hx
            · exact Or.inl ((hiff x).mpr hx)
        · intro x hx
          rcases List.mem_cons.mp hx with hx | hx
          · exact hx ▸ mem_mkeys_of_mem hps
          · exact hsubk x hx
        · intro l₁ s l₂ hsplit sg q hlk hq
          rcases append_singleton_split hsplit with ⟨h1, h2, _⟩ | ⟨t, _, hres⟩
          · subst h2
            have : sg = p.2 := by
              have := mlookup_of_mem_nodup hnd hps
              rw [hlk] at this
              exact Option.some_injective _ this
            rw [this, hp] at hq
            cases hq
          · exact hpb l₁ s t hres sg q hlk hq
        · intro x hx
          rcases List.mem_cons.mp hx with hx | hx
          · subst hx
            exact ⟨1, by simp [rootedIn, mlookup_of_mem_nodup hnd hps, hp]⟩
          · exact hroot x hx
      · have hstep : hrStep st p = st := by
          unfold hrStep
          rw [if_neg hp]
        rw [hstep]
        exact ih st (fun q hq => hsub q (List.mem_cons_of_mem _ hq)) hlnd'
          (fun x hx => hdisj x (by simp [mkeys]; exact Or.inr (by simpa [mkeys] using hx)))
          hinv

theorem hq_fold_HInv (sgs : List (String × GSubgraph))
    (hnd : (mkeys sgs).Nodup) :
    ∀ (l : List (String × GSubgraph)) (st : HierState),
      (∀ p ∈ l, p ∈ sgs) → HInv sgs st → HInv sgs (l.foldl hqStep st) := by
  intro l
  induction l with
  | nil => intro st _ hinv; exact hinv
  | cons p rest ih =>
      intro st hsub hinv
      rw [List.foldl_cons]
      have hps : p ∈ sgs := hsub p (List.mem_cons_self _ _)
      rcases hqStep_cases st p with hh | ⟨hfresh, ⟨q, hpq, hqproc⟩, hh⟩
      · rw [hh]
        exact ih st (fun r hr => hsub r (List.mem_cons_of_mem _ hr)) hinv
      · rw [hh]
        obtain ⟨hrN, hpN, hiff, hsubk, hpb, hroot⟩ := hinv
        have hfreshr : ¬ p.1 ∈ st.result := fun hhh => hfresh ((hiff p.1).mp hhh)
        refine ih _ (fun r hr => hsub r (List.mem_cons_of_mem _ hr))
          ⟨?_, ?_, ?_, ?_, ?_, ?_⟩
        · exact List.Nodup.append hrN (by simp)
            (by simpa [List.disjoint_singleton] using hfreshr)
        · exact List.nodup_cons.mpr ⟨hfresh, hpN⟩
        · intro x
          simp only [List.mem_append, List.mem_cons, List.not_mem_nil,
            or_false]
          constructor
          · rintro (hx | hx)
            · exact Or.inr ((hiff x).mp hx)
            · exact Or.inl hx
          · rintro (hx | hx)
            · exact Or.inr hx
            · exact Or.inl ((hiff x).mpr hx)
        · intro x hx
          rcases List.mem_cons.mp hx with hx | hx
          · exact hx ▸ mem_mkeys_of_mem hps
          · exact hsubk x hx
        · intro l₁ s l₂ hsplit sg q' hlk hq'
          rcases append_singleton_split hsplit with ⟨h1, h2, _⟩ | ⟨t, _, hres⟩
          · subst h2
            have hsg : sg = p.2 := by
              have := mlookup_of_mem_nodup hnd hps
              rw [hlk] at this
              exact Option.some_injective _ this
            have hqq : q' = q := by
              rw [hsg, hpq] at hq'
              exact Option.some_injective _ hq'.symm
            rw [h1, hqq]
            exact (hiff q).mpr hqproc
          · exact hpb l₁ s t hres sg q' hlk hq'
        · intro x hx
          rcases List.mem_cons.mp hx with hx | hx
          · subst hx
            obtain ⟨k, hk⟩ := hroot q hqproc
            exact ⟨k + 1,
              by simp [rootedIn, mlookup_of_mem_nodup hnd hps, hpq, hk]⟩
          · exact hroot x hx

theorem hierLoop_HInv (sgs : List (String × GSubgraph))
    (hnd : (mkeys sgs).Nodup) :
    ∀ (fuel lastCount : Nat) (st : HierState),
      HInv sgs st → HInv sgs (hierLoop sgs fuel lastCount st) := by
  intro fuel
  induction fuel with
  | zero => intro lc st h; exact h
  | succ fuel ih =>
      intro lc st h
      unfold hierLoop
      split
      · refine ih _ _ ?_
        rw [hierRound_eq]
        exact hq_fold_HInv sgs hnd sgs st (fun p hp => hp) h
      · exact h

theorem hierFinal_HInv (g : Graph) (hnd : (mkeys g.subgraphs).Nodup) :
    HInv g.subgraphs (hierFinal g) := by
  unfold hierFinal
  apply hierLoop_HInv _ hnd
  rw [hierRoots_eq]
  exact hr_fold_HInv _ hnd _ _ (fun p hp => hp) hnd (by simp)
    (HInv_init _)

/-- At a stationary state, a subgraph with a processed parent is itself
processed. -/
theorem hround_fix_closed (sgs : List (String × GSubgraph)) (st : HierState)
    (hfix : hierRound sgs st = st) :
    ∀ s sg q, mlookup sgs s = some sg → sg.parent = some q →
      q ∈ st.processed → s ∈ st.processed := by
  intro s sg q hlk hq hqp
  have hmem : (s, sg) ∈ sgs := mem_of_mlookup_eq_some hlk
  have hstep : hqStep st (s, sg) = st :=
    hq_fold_fix sgs st (by rw [← hierRound_eq]; exact hfix) _ hmem
  by_contra hs
  have hcontains : st.processed.contains q = true := by simpa using hqp
  have hncontains : st.processed.contains s = false := by
    have : ¬ st.processed.contains s = true := by simpa using hs
    exact Bool.not_eq_true _ ▸ Bool.of_not_eq_true this
  unfold hqStep at hstep
  dsimp only at hstep
  rw [hq] at hstep
  dsimp only at hstep
  rw [hncontains, hcontains] at hstep
  have hlen := congrArg (fun t => t.processed.length) hstep
  simp at hlen

/-- A rooted subgraph is processed whenever the state contains the roots
and is closed under processed parents. -/
theorem rootedIn_processed (sgs : List (String × GSubgraph)) (st : HierState)
    (hroots : ∀ s sg, mlookup sgs s = some sg → sg.parent = none →
      s ∈ st.processed)
    (hfix : ∀ s sg q, mlookup sgs s = some sg → sg.parent = some q →
      q ∈ st.processed → s ∈ st.processed) :
    ∀ (k : Nat) (s : String), rootedIn sgs k s = true → s ∈ st.processed := by
  intro k
  induction k with
  | zero => intro s h; simp [rootedIn] at h
  | succ k ih =>
      intro s h
      unfold rootedIn at h
      cases hlk : mlookup sgs s with
      | none => rw [hlk] at h; simp at h
      | some sg =>
          rw [hlk] at h
          dsimp only at h
          cases hp : sg.parent with
          | none => exact hroots s sg hlk hp
          | some q =>
              rw [hp] at h
              dsimp only at h
              exact hfix s sg q hlk hp (ih q h)

/-- Every rooted subgraph is processed by the `while` loop. -/
theorem hierFinal_rooted_processed (g : Graph)
    (hnd : (mkeys g.subgraphs).Nodup) :
    ∀ (k : Nat) (s : String), rootedIn g.subgraphs k s = true →
      s ∈ (hierFinal g).processed := by
  have hexit : g.subgraphs.length ≤ (hierFinal g).processed.length ∨
      hierRound g.subgraphs (hierFinal g) = hierFinal g :=
    hierLoop_exit g.subgraphs (g.subgraphs.length + 1) 0
      (hierRoots g.subgraphs) (by omega)
      (fun h0 => hround_empty _ _ (List.length_eq_zero.mp h0.symm))
  rcases hexit with hlen | hfix
  · intro k s h
    obtain ⟨_, hpN, _, hsubk, _, _⟩ := hierFinal_HInv g hnd
    have hkeys : s ∈ mkeys g.subgraphs := by
      cases k with
      | zero => simp [rootedIn] at h
      | succ k =>
          unfold rootedIn at h
          cases hlk : mlookup g.subgraphs s with
          | none => rw [hlk] at h; simp at h
          | some sg => exact mem_mkeys_of_mem (mem_of_mlookup_eq_some hlk)
    have hsub2 : (hierFinal g).processed.toFinset ⊆
        (mkeys g.subgraphs).toFinset := by
      intro y hy
      rw [List.mem_toFinset] at hy ⊢
      exact hsubk y hy
    have hcard : (mkeys g.subgraphs).toFinset.card ≤
        (hierFinal g).processed.toFinset.card := by
      rw [List.toFinset_card_of_nodup hpN]
      calc (mkeys g.subgraphs).toFinset.card
          ≤ (mkeys g.subgraphs).length := List.toFinset_card_le _
        _ = g.subgraphs.length := by simp [mkeys]
        _ ≤ (hierFinal g).processed.length := hlen
    have heq := Finset.eq_of_subset_of_card_le hsub2 hcard
    have : s ∈ (mkeys g.subgraphs).toFinset := List.mem_toFinset.mpr hkeys
    rw [← heq] at this
    exact List.mem_toFinset.mp this
  · intro k s h
    refine rootedIn_processed g.subgraphs (hierFinal g) ?_ ?_ k s h
    · intro s' sg hlk hp
      show s' ∈ (hierLoop g.subgraphs (g.subgraphs.length + 1) 0
        (hierRoots g.subgraphs)).processed
      apply hierLoop_processed_mono
      rw [hierRoots_eq]
      exact hr_fold_roots_processed g.subgraphs ⟨[], []⟩ s' sg
        (mem_of_mlookup_eq_some hlk) hp
    · exact hround_fix_closed g.subgraphs (hierFinal g) hfix

/-- The hierarchical order is the loop's `result` with the unprocessed
(circular) subgraph ids appended in key order. -/
theorem hier_order_eq (g : Graph) :
    getSubgraphsInHierarchicalOrder g = (hierFinal g).result ++
      (g.subgraphs.filter
        (fun p => ¬ (hierFinal g).processed.contains p.1)).map (·.1) := rfl

theorem hier_result_rooted (g : Graph) (hnd : (mkeys g.subgraphs).Nodup) :
    ∀ s ∈ (hierFinal g).result, Rooted g s := by
  intro s hs
  obtain ⟨_, _, hiff, _, _, hroot⟩ := hierFinal_HInv g hnd
  exact hroot s ((hiff s).mp hs)

theorem hier_rest_not_rooted (g : Graph) (hnd : (mkeys g.subgraphs).Nodup) :
    ∀ s ∈ ((g.subgraphs.filter
        (fun p => ¬ (hierFinal g).processed.contains p.1)).map (·.1) :
        List String),
      s ∈ mkeys g.subgraphs ∧ ¬ Rooted g s := by
  intro s hs
  obtain ⟨p, hpf, hps⟩ := List.mem_map.mp hs
  have hpmem : p ∈ g.subgraphs ∧ ¬ (hierFinal g).processed.contains p.1 := by
    have := List.mem_filter.mp hpf
    exact ⟨this.1, by simpa using this.2⟩
  constructor
  · exact hps ▸ mem_mkeys_of_mem hpmem.1
  · rintro ⟨k, hk⟩
    have : s ∈ (hierFinal g).processed :=
      hierFinal_rooted_processed g hnd k s hk
    rw [← hps] at this
    exact hpmem.2 (by simpa using this)

/-- Under distinct keys the hierarchical order is a permutation of the
subgraph keys: every id occurs exactly once. -/
theorem hier_perm (g : Graph) (hnd : (mkeys g.subgraphs).Nodup) :
    (getSubgraphsInHierarchicalOrder g).Perm (mkeys g.subgraphs) := by
  obtain ⟨hrN, hpN, hiff, hsubk, hpb, hroot⟩ := hierFinal_HInv g hnd
  have hrest_sub : ((g.subgraphs.filter
      (fun p => ¬ (hierFinal g).processed.contains p.1)).map (·.1)).Sublist
      (mkeys g.subgraphs) :=
    List.Sublist.map _ (List.filter_sublist _)
  have hordnd : (getSubgraphsInHierarchicalOrder g).Nodup := by
    rw [hier_order_eq g]
    refine List.Nodup.append hrN (List.Nodup.sublist hrest_sub hnd) ?_
    intro x hx hx'
    obtain ⟨p, hpf, hps⟩ := List.mem_map.mp hx'
    have hnc : ¬ (hierFinal g).processed.contains p.1 := by
      simpa using (List.mem_filter.mp hpf).2
    have : x ∈ (hierFinal g).processed := (hiff x).mp hx
    rw [← hps] at this
    exact hnc (by simpa using this)
  have hmemiff : ∀ x, x ∈ getSubgraphsInHierarchicalOrder g ↔
      x ∈ mkeys g.subgraphs := by
    intro x
    constructor
    · intro hx
      rw [hier_order_eq g] at hx
      rcases List.mem_append.mp hx with hx | hx
      · exact hsubk x ((hiff x).mp hx)
      · exact (hier_rest_not_rooted g hnd x hx).1
    · exact hier_complete g x
  refine List.perm_of_nodup_nodup_toFinset_eq hordnd hnd ?_
  ext x
  simp only [List.mem_toFinset]
  exact hmemiff x

/-- Parents are listed before children throughout the loop's `result`. -/
theorem hier_result_parents_before (g : Graph)
    (hnd : (mkeys g.subgraphs).Nodup) :
    ParentsBefore g.subgraphs (hierFinal g).result :=
  (hierFinal_HInv g hnd).2.2.2.2.1

/-- C10: `getSubgraphsInHierarchicalOrder` terminates on every graph —
its `while` loop stabilises within `|subgraphs| + 1` sweeps even when
parent references form a cycle or dangle — and, when the subgraph keys
are distinct, it returns every subgraph id exactly once (a permutation of
the keys), with the rooted subgraphs listed parents-before-children first
and the remaining (cyclic or dangling) ids appended at the end in key
order. -/
theorem C10_hierarchical_order (g : Graph)
    (hnd : (mkeys g.subgraphs).Nodup) :
    (∀ extra, hierLoop g.subgraphs (g.subgraphs.length + 1 + extra) 0
        (hierRoots g.subgraphs) = hierFinal g) ∧
    (getSubgraphsInHierarchicalOrder g).Perm (mkeys g.subgraphs) ∧
    (∃ rest, getSubgraphsInHierarchicalOrder g =
        (hierFinal g).result ++ rest ∧
      (∀ s ∈ rest, s ∈ mkeys g.subgraphs ∧ ¬ Rooted g s)) ∧
    (∀ s ∈ (hierFinal g).result, Rooted g s) ∧
    ParentsBefore g.subgraphs (hierFinal g).result := by
  refine ⟨?_, hier_perm g hnd,
    ⟨_, hier_order_eq g, hier_rest_not_rooted g hnd⟩,
    hier_result_rooted g hnd, hier_result_parents_before g hnd⟩
  intro extra
  exact hierLoop_stable g.subgraphs (g.subgraphs.length + 1) extra 0
    (hierRoots g.subgraphs) (by omega)

/-- C10, witness: the order theorem applied to a concrete graph whose
parent references include a cycle and a dangling id. -/
theorem C10_witness :
    (mkeys cyclicSubgraphGraph.subgraphs).Nodup ∧
    (getSubgraphsInHierarchicalOrder cyclicSubgraphGraph).Perm
      (mkeys cyclicSubgraphGraph.subgraphs) :=
  ⟨by decide, (C10_hierarchical_order cyclicSubgraphGraph (by decide)).2.1⟩

theorem foldl_keys_sub {α β : Type} (step : List (String × α) → β →
    List (String × α)) (hmono : ∀ acc b, mkeys acc ⊆ mkeys (step acc b))
    (l : List β) : ∀ acc, mkeys acc ⊆ mkeys (l.foldl step acc) := by
  induction l with
  | nil => intro acc; exact fun x hx => hx
  | cons b rest ih =>
      intro acc
      exact fun x hx => ih (step acc b) (hmono acc b hx)

theorem foldl_keys_reach {α β : Type} (step : List (String × α) → β →
    List (String × α)) (hmono : ∀ acc b, mkeys acc ⊆ mkeys (step acc b))
    {x : String} {b : β} (l : List β) (hb : b ∈ l)
    (hadd : ∀ acc, x ∈ mkeys (step acc b)) :
    ∀ acc, x ∈ mkeys (l.foldl step acc) := by
  induction l with
  | nil => simp at hb
  | cons c rest ih =>
      intro acc
      rw [List.foldl_cons]
      rcases List.mem_cons.mp hb with hb | hb
      · subst hb
        exact foldl_keys_sub step hmono rest (step acc b) (hadd acc)
      · exact ih hb (step acc c)

/-- A fold whose step grows a measure by one per element. -/
theorem foldl_measure {α β : Type} (μ : α → Nat) (step : α → β → α)
    (l : List β) (h : ∀ acc b, b ∈ l → μ (step acc b) = μ acc + 1) :
    ∀ acc, μ (l.foldl step acc) = μ acc + l.length := by
  induction l with
  | nil => intro acc; simp
  | cons b rest ih =>
      intro acc
      rw [List.foldl_cons,
        ih (fun a c hc => h a c (List.mem_cons_of_mem _ hc)) (step acc b),
        h acc b (List.mem_cons_self _ _)]
      simp [Nat.add_comm, Nat.add_assoc]
      omega

theorem dagreNode_isSome {o : DagreOracle} {cfg : DagreConfig}
    {ns : List (String × Size)} {es : List (String × String × ℚ)}
    {id : String} (h : id ∈ mkeys ns) :
    (dagreNode o cfg ns es id).isSome = true := by
  unfold dagreNode
  rw [if_pos]
  · rfl
  · obtain ⟨p, hp, hps⟩ := List.mem_map.mp h
    exact List.any_eq_true.mpr ⟨p, hp, by simp [hps]⟩

/-- Every `minsert` grows the key set. -/
theorem minsert_keys_sub {α : Type} (m : List (String × α)) (k : String)
    (v : α) {x : String} (h : x ∈ mkeys m) : x ∈ mkeys (minsert m k v) :=
  mkeys_subset_minsert m k v h

/-- `layoutOneSubgraph` at an existing subgraph inserts a layout whose
`parentId` is that subgraph's `parent`. -/
theorem layoutOneSubgraph_some {spacing : LayoutSpacing} {o : DagreOracle}
    {g : Graph} {direction : String}
    (layouts : List (String × SubgraphLayout)) {sid : String}
    {sg : GSubgraph} (hlk : mlookup g.subgraphs sid = some sg) :
    ∃ L : SubgraphLayout,
      layoutOneSubgraph spacing o g direction layouts sid =
        minsert layouts sid L ∧ L.parentId = sg.parent := by
  unfold layoutOneSubgraph
  rw [hlk]
  exact ⟨_, rfl, rfl⟩

theorem layoutOneSubgraph_none {spacing : LayoutSpacing} {o : DagreOracle}
    {g : Graph} {direction : String}
    (layouts : List (String × SubgraphLayout)) {sid : String}
    (hlk : mlookup g.subgraphs sid = none) :
    layoutOneSubgraph spacing o g direction layouts sid = layouts := by
  unfold layoutOneSubgraph
  rw [hlk]

/-- `recalcStep` either does nothing or resizes an existing entry in
place. -/
theorem recalcStep_shape (spacing : LayoutSpacing) (g : Graph)
    (ordered : List String) (isH : Bool)
    (layouts : List (String × SubgraphLayout)) (sid : String) :
    recalcStep spacing g ordered isH layouts sid = layouts ∨
      ∃ (layout : SubgraphLayout) (w h : ℚ),
        mlookup layouts sid = some layout ∧
        recalcStep spacing g ordered isH layouts sid =
          minsert layouts sid { layout with width := w, height := h } := by
  unfold recalcStep
  cases hlk : mlookup layouts sid with
  | none => exact Or.inl rfl
  | some layout =>
      dsimp only
      split
      · exact Or.inl rfl
      · exact Or.inr ⟨layout, _, _, rfl, rfl⟩

theorem layouts_fold_keys (spacing : LayoutSpacing) (o : DagreOracle)
    (g : Graph) (direction : String) :
    ∀ (ord : List String) (acc : List (String × SubgraphLayout)),
      ord.Nodup → (∀ s ∈ ord, s ∈ mkeys g.subgraphs) →
      (∀ s ∈ ord, ¬ s ∈ mkeys acc) →
      mkeys (ord.foldl (layoutOneSubgraph spacing o g direction) acc) =
        mkeys acc ++ ord := by
  intro ord
  induction ord with
  | nil => intro acc _ _ _; simp
  | cons s rest ih =>
      intro acc hnd hmem hfresh
      have hs : s ∈ mkeys g.subgraphs := hmem s (List.mem_cons_self _ _)
      obtain ⟨sg, hsg⟩ := Option.isSome_iff_exists.mp
        ((mlookup_isSome_iff_mem_mkeys _ _).mpr hs)
      obtain ⟨L, hL, _⟩ := layoutOneSubgraph_some acc hsg
      rw [List.foldl_cons, hL,
        ih _ (List.Nodup.of_cons hnd)
          (fun x hx => hmem x (List.mem_cons_of_mem _ hx)) ?_,
        mkeys_minsert_of_not_mem _ _ _ (hfresh s (List.mem_cons_self _ _))]
      · simp
      · intro x hx
        rw [mkeys_minsert_of_not_mem _ _ _ (hfresh s (List.mem_cons_self _ _))]
        intro hmem'
        rcases List.mem_append.mp hmem' with h | h
        · exact hfresh x (List.mem_cons_of_mem _ hx) h
        · have : x = s := by simpa using h
          exact (List.nodup_cons.mp hnd).1 (this ▸ hx)

theorem layouts_fold_parentOK (spacing : LayoutSpacing) (o : DagreOracle)
    (g : Graph) (direction : String) :
    ∀ (ord : List String) (acc : List (String × SubgraphLayout)),
      LayoutsParentOK g acc →
      LayoutsParentOK g
        (ord.foldl (layoutOneSubgraph spacing o g direction) acc) := by
  intro ord
  induction ord with
  | nil => intro acc h; exact h
  | cons s rest ih =>
      intro acc h
      rw [List.foldl_cons]
      refine ih _ ?_
      cases hlk : mlookup g.subgraphs s with
      | none => rw [layoutOneSubgraph_none acc hlk]; exact h
      | some sg =>
          obtain ⟨L, hL, hpid⟩ := layoutOneSubgraph_some acc hlk
          rw [hL]
          intro s' l' hl'
          by_cases hss : s' = s
          · subst hss
            rw [mlookup_minsert_self] at hl'
            cases hl'
            exact ⟨sg, hlk, hpid⟩
          · rw [mlookup_minsert_ne _ _ _ _ (fun hh => hss hh.symm)] at hl'
            exact h s' l' hl'

theorem recalc_fold_parentOK (spacing : LayoutSpacing) (g : Graph)
    (ordered : List String) (isH : Bool) :
    ∀ (l : List String) (layouts : List (String × SubgraphLayout)),
      LayoutsParentOK g layouts →
      LayoutsParentOK g
        (l.foldl (recalcStep spacing g ordered isH) layouts) := by
  intro l
  induction l with
  | nil => intro layouts h; exact h
  | cons s rest ih =>
      intro layouts h
      rw [List.foldl_cons]
      refine ih _ ?_
      rcases recalcStep_shape spacing g ordered isH layouts s with hh |
        ⟨layout, w, hgt, hlk, hh⟩
      · rw [hh]; exact h
      · rw [hh]
        intro s' l' hl'
        by_cases hss : s' = s
        · subst hss
          rw [mlookup_minsert_self] at hl'
          cases hl'
          obtain ⟨sg, hsg, hpid⟩ := h s' layout hlk
          exact ⟨sg, hsg, hpid⟩
        · rw [mlookup_minsert_ne _ _ _ _ (fun hh' => hss hh'.symm)] at hl'
          exact h s' l' hl'

theorem recalc_fold_keys (spacing : LayoutSpacing) (g : Graph)
    (ordered : List String) (isH : Bool) :
    ∀ (l : List String) (layouts : List (String × SubgraphLayout)),
      mkeys (l.foldl (recalcStep spacing g ordered isH) layouts) =
        mkeys layouts := by
  intro l
  induction l with
  | nil => intro layouts; rfl
  | cons s rest ih =>
      intro layouts
      rw [List.foldl_cons, ih]
      rcases recalcStep_shape spacing g ordered isH layouts s with hh |
        ⟨layout, w, hgt, hlk, hh⟩
      · rw [hh]
      · rw [hh]
        exact mkeys_minsert_of_mem _ _ _
          ((mlookup_isSome_iff_mem_mkeys _ _).mp (by rw [hlk]; rfl))

theorem layoutSubgraphs_parentOK (spacing : LayoutSpacing)
    (o : DagreOracle) (g : Graph) (direction : String) :
    LayoutsParentOK g (layoutSubgraphs spacing o g direction) := by
  unfold layoutSubgraphs recalculateParentSizes
  apply recalc_fold_parentOK
  apply layouts_fold_parentOK
  intro s l hl
  cases hl

theorem layoutSubgraphs_keys (spacing : LayoutSpacing) (o : DagreOracle)
    (g : Graph) (direction : String) (hnd : (mkeys g.subgraphs).Nodup) :
    mkeys (layoutSubgraphs spacing o g direction) =
      getSubgraphsInHierarchicalOrder g := by
  unfold layoutSubgraphs recalculateParentSizes
  rw [recalc_fold_keys,
    layouts_fold_keys spacing o g direction _ []
      ((hier_perm g hnd).nodup_iff.mpr hnd)
      (fun s hs => (hier_perm g hnd).mem_iff.mp hs)
      (by simp [mkeys])]
  simp [mkeys]

theorem foldl_pair_keys_sub {α β γ : Type}
    (step : List (String × α) × γ → β → List (String × α) × γ)
    (hmono : ∀ acc b, mkeys acc.1 ⊆ mkeys (step acc b).1) (l : List β) :
    ∀ acc, mkeys acc.1 ⊆ mkeys (l.foldl step acc).1 := by
  induction l with
  | nil => intro acc; exact fun x hx => hx
  | cons b rest ih =>
      intro acc
      exact fun x hx => ih (step acc b) (hmono acc b hx)

theorem foldl_pair_keys_reach {α β γ : Type}
    (step : List (String × α) × γ → β → List (String × α) × γ)
    (hmono : ∀ acc b, mkeys acc.1 ⊆ mkeys (step acc b).1)
    {x : String} {b : β} (l : List β) (hb : b ∈ l)
    (hadd : ∀ acc, x ∈ mkeys (step acc b).1) :
    ∀ acc, x ∈ mkeys (l.foldl step acc).1 := by
  induction l with
  | nil => simp at hb
  | cons c rest ih =>
      intro acc
      rw [List.foldl_cons]
      rcases List.mem_cons.mp hb with hb | hb
      · subst hb
        exact foldl_pair_keys_sub step hmono rest (step acc b) (hadd acc)
      · exact ih hb (step acc c)

theorem childPosStep_mono (tls1 : List (String × Pos))
    (cox coy cX mL mT : ℚ) :
    ∀ (acc : List (String × Pos)) (cid : String),
      mkeys acc ⊆ mkeys (childPosStep tls1 cox coy cX mL mT acc cid) := by
  intro acc cid
  unfold childPosStep
  split
  · exact fun y hy => mkeys_subset_minsert _ _ _ hy
  · exact fun y hy => hy

theorem childPosStep_reach (tls1 : List (String × Pos))
    (cox coy cX mL mT : ℚ) {cid : String}
    (h : (mlookup tls1 cid).isSome = true) :
    ∀ acc, cid ∈ mkeys (childPosStep tls1 cox coy cX mL mT acc cid) := by
  intro acc
  unfold childPosStep
  obtain ⟨tl, htl⟩ := Option.isSome_iff_exists.mp h
  rw [htl]
  exact (mem_mkeys_minsert _ _ _ _).mpr (Or.inr rfl)

theorem cgnAddStep_mono (layouts : List (String × SubgraphLayout)) :
    ∀ (acc : List (String × Size)) (cid : String),
      mkeys acc ⊆ mkeys (cgnAddStep layouts acc cid) := by
  intro acc cid
  unfold cgnAddStep
  split
  · exact fun y hy => mkeys_subset_minsert _ _ _ hy
  · exact fun y hy => hy

theorem cgnAddStep_reach (layouts : List (String × SubgraphLayout))
    {cid : String} (h : (mlookup layouts cid).isSome = true) :
    ∀ acc, cid ∈ mkeys (cgnAddStep layouts acc cid) := by
  intro acc
  unfold cgnAddStep
  obtain ⟨cl, hcl⟩ := Option.isSome_iff_exists.mp h
  rw [hcl]
  exact (mem_mkeys_minsert _ _ _ _).mpr (Or.inr rfl)

theorem tlsStep_mono (o : DagreOracle) (cfg : DagreConfig)
    (cgnodes : List (String × Size)) (cgedges : List (String × String × ℚ))
    (layouts : List (String × SubgraphLayout)) :
    ∀ (acc : List (String × Pos) × Option (ℚ × ℚ × ℚ × ℚ)) (cid : String),
      mkeys acc.1 ⊆ mkeys (tlsStep o cfg cgnodes cgedges layouts acc cid).1
    := by
  intro acc cid
  unfold tlsStep
  split
  · dsimp only
    exact fun y hy => mkeys_subset_minsert _ _ _ hy
  · exact fun y hy => hy

theorem tlsStep_reach (o : DagreOracle) (cfg : DagreConfig)
    (cgnodes : List (String × Size)) (cgedges : List (String × String × ℚ))
    (layouts : List (String × SubgraphLayout)) {cid : String}
    (h1 : cid ∈ mkeys cgnodes) (h2 : (mlookup layouts cid).isSome = true) :
    ∀ acc, cid ∈ mkeys (tlsStep o cfg cgnodes cgedges layouts acc cid).1 := by
  intro acc
  unfold tlsStep
  obtain ⟨n, hn⟩ := Option.isSome_iff_exists.mp (dagreNode_isSome h1)
  obtain ⟨cl, hcl⟩ := Option.isSome_iff_exists.mp h2
  rw [hn, hcl]
  dsimp only
  exact (mem_mkeys_minsert _ _ _ _).mpr (Or.inr rfl)

/-- A successful `layoutChildrenWithinParent` only adds positions. -/
theorem lcwp_some_mono {spacing : LayoutSpacing} {o : DagreOracle}
    {parentId : String} {g : Graph}
    {layouts : List (String × SubgraphLayout)}
    {positions newPos : List (String × Pos)}
    {weights : List (String × List (String × ℚ))} {direction : String}
    (h : layoutChildrenWithinParent spacing o parentId g layouts positions
      weights direction = some newPos) :
    ∀ x ∈ mkeys positions, x ∈ mkeys newPos := by
  simp only [layoutChildrenWithinParent] at h
  cases hpp : mlookup positions parentId with
  | none => rw [hpp] at h; cases h
  | some parentPos =>
      cases hpl : mlookup layouts parentId with
      | none => rw [hpp, hpl] at h; cases h
      | some parentLayout =>
          rw [hpp, hpl] at h
          dsimp only at h
          split at h
          · cases h
          · have hh := Option.some_injective _ h
            subst hh
            intro x hx
            refine foldl_keys_sub _ ?_ _ positions hx
            intro acc cid
            exact childPosStep_mono _ _ _ _ _ _ acc cid

/-- A successful `layoutChildrenWithinParent` positions every direct child
of the parent that has a layout entry. -/
theorem lcwp_some_children {spacing : LayoutSpacing} {o : DagreOracle}
    {parentId : String} {g : Graph}
    {layouts : List (String × SubgraphLayout)}
    {positions newPos : List (String × Pos)}
    {weights : List (String × List (String × ℚ))} {direction : String}
    (h : layoutChildrenWithinParent spacing o parentId g layouts positions
      weights direction = some newPos)
    {c : String} {csg : GSubgraph} (hc : c ∈ mkeys layouts)
    (hcsg : mlookup g.subgraphs c = some csg)
    (hpar : csg.parent = some parentId) :
    c ∈ mkeys newPos := by
  simp only [layoutChildrenWithinParent] at h
  cases hpp : mlookup positions parentId with
  | none => rw [hpp] at h; cases h
  | some parentPos =>
      cases hpl : mlookup layouts parentId with
      | none => rw [hpp, hpl] at h; cases h
      | some parentLayout =>
          rw [hpp, hpl] at h
          dsimp only at h
          have hcchild : c ∈ (mkeys layouts).filter (fun cid =>
              match mlookup g.subgraphs cid with
              | some c => c.parent = some parentId
              | none => false) := by
            refine List.mem_filter.mpr ⟨hc, ?_⟩
            rw [hcsg]
            simp [hpar]
          split at h
          · cases h
          · have hh := Option.some_injective _ h
            subst hh
            refine foldl_keys_reach _ (childPosStep_mono _ _ _ _ _ _) _
              hcchild ?_ positions
            intro acc
            refine childPosStep_reach _ _ _ _ _ _ ?_ acc
            refine (mlookup_isSome_iff_mem_mkeys _ _).mpr ?_
            refine foldl_pair_keys_reach _ (tlsStep_mono _ _ _ _ _) _
              hcchild ?_ ([], none)
            intro acc2
            refine tlsStep_reach _ _ _ _ _ ?_ ?_ acc2
            · refine foldl_keys_reach _ (cgnAddStep_mono _) _ hcchild ?_ []
              intro acc3
              exact cgnAddStep_reach _
                ((mlookup_isSome_iff_mem_mkeys _ _).mpr hc) acc3
            · exact (mlookup_isSome_iff_mem_mkeys _ _).mpr hc

/-- An unsuccessful `layoutChildrenWithinParent` at a positioned parent
with a layout entry means the parent has no child with a layout entry. -/
theorem lcwp_none_no_children {spacing : LayoutSpacing} {o : DagreOracle}
    {parentId : String} {g : Graph}
    {layouts : List (String × SubgraphLayout)}
    {positions : List (String × Pos)}
    {weights : List (String × List (String × ℚ))} {direction : String}
    (h : layoutChildrenWithinParent spacing o parentId g layouts positions
      weights direction = none)
    (hpp : (mlookup positions parentId).isSome = true)
    (hpl : (mlookup layouts parentId).isSome = true) :
    ∀ c csg, c ∈ mkeys layouts → mlookup g.subgraphs c = some csg →
      csg.parent = some parentId → False := by
  intro c csg hc hcsg hpar
  obtain ⟨pp, hppv⟩ := Option.isSome_iff_exists.mp hpp
  obtain ⟨pl, hplv⟩ := Option.isSome_iff_exists.mp hpl
  simp only [layoutChildrenWithinParent] at h
  rw [hppv, hplv] at h
  dsimp only at h
  split at h
  · rename_i hempty
    have hcchild : c ∈ (mkeys layouts).filter (fun cid =>
        match mlookup g.subgraphs cid with
        | some c => c.parent = some parentId
        | none => false) := by
      refine List.mem_filter.mpr ⟨hc, ?_⟩
      rw [hcsg]
      simp [hpar]
    rw [hempty] at hcchild
    simp at hcchild
  · cases h

theorem pnsStep_pos_mono (spacing : LayoutSpacing) (o : DagreOracle)
    (g : Graph) (L : List (String × SubgraphLayout))
    (W : List (String × List (String × ℚ))) (direction : String) :
    ∀ (acc : (List (String × Pos) × List String) × Bool)
      (p : String × SubgraphLayout),
      mkeys acc.1.1 ⊆ mkeys (pnsStep spacing o g L W direction acc p).1.1
    := by
  intro acc p
  unfold pnsStep
  dsimp only
  split
  · split
    · rename_i newPos heq
      exact fun x hx => lcwp_some_mono heq x hx
    · exact fun x hx => hx
  · exact fun x hx => hx

/-- One sweep of `positionNestedSubgraphs` positions every subgraph with a
layout entry, provided layouts are listed parents-before-children, parents
carry the graph's `parent` references, and the top-level ones are already
positioned. -/
theorem pns_fold_complete (spacing : LayoutSpacing) (o : DagreOracle)
    (g : Graph) (L : List (String × SubgraphLayout))
    (W : List (String × List (String × ℚ))) (direction : String)
    (hLnd : (mkeys L).Nodup)
    (hpid : ∀ p ∈ L, ∃ sg, mlookup g.subgraphs p.1 = some sg ∧
      p.2.parentId = sg.parent)
    (hPB : ∀ l₁ p l₂, L = l₁ ++ p :: l₂ → ∀ par,
      p.2.parentId = some par → par ∈ mkeys l₁) :
    ∀ (l₂ l₁ : List (String × SubgraphLayout))
      (acc : (List (String × Pos) × List String) × Bool),
      L = l₁ ++ l₂ →
      (∀ p ∈ l₂, p.2.parentId = none → p.1 ∈ mkeys acc.1.1) →
      (∀ p ∈ l₂, ∀ par, p.2.parentId = some par →
        par ∈ mkeys l₂ ∨ p.1 ∈ mkeys acc.1.1) →
      (∀ x ∈ acc.1.2, x ∈ mkeys l₁) →
      (∀ p ∈ l₁, p.1 ∈ mkeys acc.1.1) →
      ∀ p ∈ L, p.1 ∈
        mkeys ((l₂.foldl (pnsStep spacing o g L W direction) acc)).1.1 := by
  intro l₂
  induction l₂ with
  | nil =>
      intro l₁ acc hsplit _ _ _ hdone p hp
      rw [List.foldl_nil]
      refine hdone p ?_
      rwa [hsplit, List.append_nil] at hp
  | cons hd tl ih =>
      intro l₁ acc hsplit hnone hsome hproc hdone p hp
      rw [List.foldl_cons]
      have hhdL : hd ∈ L := by
        rw [hsplit]
        exact List.mem_append.mpr (Or.inr (List.mem_cons_self _ _))
      have hnd2 : (mkeys l₁ ++ hd.1 :: mkeys tl).Nodup := by
        have hkeq : mkeys L = mkeys l₁ ++ hd.1 :: mkeys tl := by
          rw [hsplit]
          simp [mkeys]
        rw [← hkeq]
        exact hLnd
      have hdisj := (List.nodup_append.mp hnd2).2.2
      have hhdpos : hd.1 ∈ mkeys acc.1.1 := by
        cases hpid0 : hd.2.parentId with
        | none => exact hnone hd (List.mem_cons_self _ _) hpid0
        | some par =>
            rcases hsome hd (List.mem_cons_self _ _) par hpid0 with hmem | hmem
            · exfalso
              have hparl1 : par ∈ mkeys l₁ := hPB l₁ hd tl hsplit par hpid0
              exact hdisj hparl1 (by simpa [mkeys] using hmem)
            · exact hmem
      have hhdnotproc : ¬ acc.1.2.contains hd.1 = true := by
        intro hcont
        have hmem1 : hd.1 ∈ mkeys l₁ := hproc hd.1 (by simpa using hcont)
        exact hdisj hmem1 (List.mem_cons_self _ _)
      have hhdpossm : (mlookup acc.1.1 hd.1).isSome = true :=
        (mlookup_isSome_iff_mem_mkeys _ _).mpr hhdpos
      have hhdlay : (mlookup L hd.1).isSome = true :=
        (mlookup_isSome_iff_mem_mkeys _ _).mpr (mem_mkeys_of_mem hhdL)
      have hsplit' : L = (l₁ ++ [hd]) ++ tl := by
        rw [hsplit]
        simp
      cases hlc : layoutChildrenWithinParent spacing o hd.1 g L acc.1.1 W
          direction with
      | some newPos =>
          have hstep : pnsStep spacing o g L W direction acc hd =
              ((newPos, hd.1 :: acc.1.2), true) := by
            unfold pnsStep
            dsimp only
            rw [if_pos ⟨hhdpossm, hhdnotproc⟩, hlc]
          rw [hstep]
          refine ih (l₁ ++ [hd]) ((newPos, hd.1 :: acc.1.2), true) hsplit'
            ?_ ?_ ?_ ?_ p hp
          · intro q hq hq0
            exact lcwp_some_mono hlc _
              (hnone q (List.mem_cons_of_mem _ hq) hq0)
          · intro q hq par hqpar
            rcases hsome q (List.mem_cons_of_mem _ hq) par hqpar with hm | hm
            · rcases (by simpa [mkeys] using hm :
                  par = hd.1 ∨ par ∈ mkeys tl) with hm | hm
              · subst hm
                obtain ⟨sg, hsglk, hsgpid⟩ := hpid q (by
                  rw [hsplit]
                  exact List.mem_append.mpr (Or.inr
                    (List.mem_cons_of_mem _ hq)))
                refine Or.inr (lcwp_some_children hlc ?_ hsglk ?_)
                · rw [hsplit]
                  simpa [mkeys] using Or.inr (Or.inr (mem_mkeys_of_mem hq))
                · rw [← hsgpid]
                  exact hqpar
              · exact Or.inl hm
            · exact Or.inr (lcwp_some_mono hlc _ hm)
          · intro x hx
            rcases List.mem_cons.mp hx with hx | hx
            · subst hx
              simp [mkeys]
            · have := hproc x hx
              simp only [mkeys] at this ⊢
              simpa using Or.inl (by simpa [mkeys] using this)
          · intro q hq
            rcases List.mem_append.mp hq with hq | hq
            · exact lcwp_some_mono hlc _ (hdone q hq)
            · have : q = hd := by simpa using hq
              subst this
              exact lcwp_some_mono hlc _ hhdpos
      | none =>
          have hstep : pnsStep spacing o g L W direction acc hd = acc := by
            unfold pnsStep
            dsimp only
            rw [if_pos ⟨hhdpossm, hhdnotproc⟩, hlc]
          rw [hstep]
          have hnochild := lcwp_none_no_children hlc hhdpossm hhdlay
          refine ih (l₁ ++ [hd]) acc hsplit' ?_ ?_ ?_ ?_ p hp
          · intro q hq hq0
            exact hnone q (List.mem_cons_of_mem _ hq) hq0
          · intro q hq par hqpar
            rcases hsome q (List.mem_cons_of_mem _ hq) par hqpar with hm | hm
            · rcases (by simpa [mkeys] using hm :
                  par = hd.1 ∨ par ∈ mkeys tl) with hm | hm
              · subst hm
                obtain ⟨sg, hsglk, hsgpid⟩ := hpid q (by
                  rw [hsplit]
                  exact List.mem_append.mpr (Or.inr
                    (List.mem_cons_of_mem _ hq)))
                exfalso
                refine hnochild q.1 sg ?_ hsglk ?_
                · rw [hsplit]
                  simpa [mkeys] using Or.inr (Or.inr (mem_mkeys_of_mem hq))
                · rw [← hsgpid]
                  exact hqpar
              · exact Or.inl hm
            · exact Or.inr hm
          · intro x hx
            have := hproc x hx
            simp only [mkeys] at this ⊢
            simpa using Or.inl (by simpa [mkeys] using this)
          · intro q hq
            rcases List.mem_append.mp hq with hq | hq
            · exact hdone q hq
            · have : q = hd := by simpa using hq
              subst this
              exact hhdpos

theorem pnsSweep_complete (spacing : LayoutSpacing) (o : DagreOracle)
    (g : Graph) (L : List (String × SubgraphLayout))
    (W : List (String × List (String × ℚ))) (direction : String)
    (hLnd : (mkeys L).Nodup)
    (hpid : ∀ p ∈ L, ∃ sg, mlookup g.subgraphs p.1 = some sg ∧
      p.2.parentId = sg.parent)
    (hPB : ∀ l₁ p l₂, L = l₁ ++ p :: l₂ → ∀ par,
      p.2.parentId = some par → par ∈ mkeys l₁)
    (st : List (String × Pos) × List String) (hst2 : st.2 = [])
    (htop : ∀ p ∈ L, p.2.parentId = none → p.1 ∈ mkeys st.1) :
    ∀ p ∈ L, p.1 ∈ mkeys (pnsSweep spacing o g L W direction st).1.1 := by
  intro p hp
  unfold pnsSweep
  refine pns_fold_complete spacing o g L W direction hLnd hpid hPB L []
    (st, false) rfl ?_ ?_ (by simp [hst2]) (by simp) p hp
  · exact htop
  · intro q hq par hqpar
    obtain ⟨l₁, l₂, hsplit⟩ := List.append_of_mem hq
    have := hPB l₁ q l₂ hsplit par hqpar
    refine Or.inl ?_
    rw [hsplit]
    simp only [mkeys, List.map_append] at this ⊢
    exact List.mem_append.mpr (Or.inl this)

theorem pns_fold_pos_mono (spacing : LayoutSpacing) (o : DagreOracle)
    (g : Graph) (L : List (String × SubgraphLayout))
    (W : List (String × List (String × ℚ))) (direction : String) :
    ∀ (l : List (String × SubgraphLayout))
      (acc : (List (String × Pos) × List String) × Bool) (x : String),
      x ∈ mkeys acc.1.1 →
      x ∈ mkeys ((l.foldl (pnsStep spacing o g L W direction) acc)).1.1 := by
  intro l
  induction l with
  | nil => intro acc x h; exact h
  | cons p rest ih =>
      intro acc x h
      exact ih _ x (pnsStep_pos_mono spacing o g L W direction acc p h)

theorem pnsLoop_keys_mono (spacing : LayoutSpacing) (o : DagreOracle)
    (g : Graph) (L : List (String × SubgraphLayout))
    (W : List (String × List (String × ℚ))) (direction : String) :
    ∀ (fuel : Nat) (st : List (String × Pos) × List String) (x : String),
      x ∈ mkeys st.1 →
      x ∈ mkeys (pnsLoop spacing o g L W direction fuel st) := by
  intro fuel
  induction fuel with
  | zero => intro st x h; exact h
  | succ fuel ih =>
      intro st x h
      show x ∈ mkeys
        (if (pnsSweep spacing o g L W direction st).2 then
          pnsLoop spacing o g L W direction fuel
            (pnsSweep spacing o g L W direction st).1
        else (pnsSweep spacing o g L W direction st).1.1)
      have hsw : x ∈ mkeys (pnsSweep spacing o g L W direction st).1.1 := by
        unfold pnsSweep
        exact pns_fold_pos_mono spacing o g L W direction L (st, false) x h
      split
      · exact ih _ x hsw
      · exact hsw

/-- `positionNestedSubgraphs` positions every subgraph with a layout
entry. -/
theorem pns_complete (spacing : LayoutSpacing) (o : DagreOracle)
    (g : Graph) (L : List (String × SubgraphLayout))
    (W : List (String × List (String × ℚ))) (direction : String)
    (hLnd : (mkeys L).Nodup)
    (hpid : ∀ p ∈ L, ∃ sg, mlookup g.subgraphs p.1 = some sg ∧
      p.2.parentId = sg.parent)
    (hPB : ∀ l₁ p l₂, L = l₁ ++ p :: l₂ → ∀ par,
      p.2.parentId = some par → par ∈ mkeys l₁)
    (positions : List (String × Pos))
    (htop : ∀ p ∈ L, p.2.parentId = none → p.1 ∈ mkeys positions) :
    ∀ p ∈ L, p.1 ∈
      mkeys (positionNestedSubgraphs spacing o g L positions W direction)
    := by
  intro p hp
  unfold positionNestedSubgraphs
  have h100 : pnsLoop spacing o g L W direction 100 (positions, []) =
      (if (pnsSweep spacing o g L W direction (positions, [])).2 then
        pnsLoop spacing o g L W direction 99
          (pnsSweep spacing o g L W direction (positions, [])).1
      else (pnsSweep spacing o g L W direction (positions, [])).1.1) := rfl
  rw [h100]
  have hsw := pnsSweep_complete spacing o g L W direction hLnd hpid hPB
    (positions, []) rfl htop p hp
  split
  · exact pnsLoop_keys_mono spacing o g L W direction 99 _ p.1 hsw
  · exact hsw

theorem metaTopSizeStep_mono :
    ∀ (acc : List (String × Size)) (p : String × SubgraphLayout),
      mkeys acc ⊆ mkeys (metaTopSizeStep acc p) := by
  intro acc p
  unfold metaTopSizeStep
  split
  · exact fun y hy => mkeys_subset_minsert _ _ _ hy
  · exact fun y hy => hy

theorem metaTopSizeStep_reach {p : String × SubgraphLayout}
    (h : p.2.parentId = none) :
    ∀ acc, p.1 ∈ mkeys (metaTopSizeStep acc p) := by
  intro acc
  unfold metaTopSizeStep
  rw [if_pos h]
  exact (mem_mkeys_minsert _ _ _ _).mpr (Or.inr rfl)

theorem metaNodeSizeStep_mono :
    ∀ (acc : List (String × Size)) (n : GNode),
      mkeys acc ⊆ mkeys (metaNodeSizeStep acc n) := by
  intro acc n
  unfold metaNodeSizeStep
  exact fun y hy => mkeys_subset_minsert _ _ _ hy

theorem metaTopPosStep_mono (o : DagreOracle) (cfg : DagreConfig)
    (gnodes : List (String × Size)) (gedges : List (String × String × ℚ)) :
    ∀ (acc : List (String × Pos)) (p : String × SubgraphLayout),
      mkeys acc ⊆ mkeys (metaTopPosStep o cfg gnodes gedges acc p) := by
  intro acc p
  unfold metaTopPosStep
  split
  · split
    · exact fun y hy => mkeys_subset_minsert _ _ _ hy
    · exact fun y hy => hy
  · exact fun y hy => hy

theorem metaTopPosStep_reach (o : DagreOracle) (cfg : DagreConfig)
    (gnodes : List (String × Size)) (gedges : List (String × String × ℚ))
    {p : String × SubgraphLayout} (h : p.2.parentId = none)
    (hn : p.1 ∈ mkeys gnodes) :
    ∀ acc, p.1 ∈ mkeys (metaTopPosStep o cfg gnodes gedges acc p) := by
  intro acc
  unfold metaTopPosStep
  rw [if_pos h]
  obtain ⟨c, hc⟩ := Option.isSome_iff_exists.mp (dagreNode_isSome hn)
  rw [hc]
  exact (mem_mkeys_minsert _ _ _ _).mpr (Or.inr rfl)

/-- `layoutMetaGraph` assigns a position to every subgraph with a layout
entry. -/
theorem layoutMetaGraph_complete (spacing : LayoutSpacing) (o : DagreOracle)
    (g : Graph) (L : List (String × SubgraphLayout)) (direction : String)
    (hLnd : (mkeys L).Nodup)
    (hpid : ∀ p ∈ L, ∃ sg, mlookup g.subgraphs p.1 = some sg ∧
      p.2.parentId = sg.parent)
    (hPB : ∀ l₁ p l₂, L = l₁ ++ p :: l₂ → ∀ par,
      p.2.parentId = some par → par ∈ mkeys l₁) :
    ∀ p ∈ L, p.1 ∈
      mkeys (layoutMetaGraph spacing o g L direction).subgraphPositions := by
  intro p hp
  unfold layoutMetaGraph
  dsimp only
  refine pns_complete spacing o g L _ direction hLnd hpid hPB _ ?_ p hp
  intro q hq hq0
  refine foldl_keys_reach _ (metaTopPosStep_mono _ _ _ _) _ hq ?_ []
  intro acc
  refine metaTopPosStep_reach _ _ _ _ hq0 ?_ acc
  refine foldl_keys_sub _ metaNodeSizeStep_mono _ _ ?_
  refine foldl_keys_reach _ metaTopSizeStep_mono _ hq ?_ []
  intro acc2
  exact metaTopSizeStep_reach hq0 acc2

/-- With every subgraph rooted, nothing is left for the circular-reference
tail: the order is exactly the loop's `result`. -/
theorem hier_order_rooted_eq (g : Graph) (hnd : (mkeys g.subgraphs).Nodup)
    (hroot : AllRooted g) :
    getSubgraphsInHierarchicalOrder g = (hierFinal g).result := by
  rw [hier_order_eq]
  have hrest : (g.subgraphs.filter
      (fun p => ¬ (hierFinal g).processed.contains p.1)).map (·.1) =
      ([] : List String) := by
    refine List.eq_nil_iff_forall_not_mem.mpr ?_
    intro s hs
    obtain ⟨hk, hnr⟩ := hier_rest_not_rooted g hnd s hs
    exact hnr (hroot s hk)
  rw [hrest, List.append_nil]

theorem layoutSubgraphs_keys_nodup' (spacing : LayoutSpacing)
    (o : DagreOracle) (g : Graph) (direction : String)
    (hnd : (mkeys g.subgraphs).Nodup) :
    (mkeys (layoutSubgraphs spacing o g direction)).Nodup := by
  rw [layoutSubgraphs_keys spacing o g direction hnd]
  exact (hier_perm g hnd).nodup_iff.mpr hnd

theorem layoutSubgraphs_pid (spacing : LayoutSpacing) (o : DagreOracle)
    (g : Graph) (direction : String) (hnd : (mkeys g.subgraphs).Nodup) :
    ∀ p ∈ layoutSubgraphs spacing o g direction,
      ∃ sg, mlookup g.subgraphs p.1 = some sg ∧ p.2.parentId = sg.parent := by
  intro p hp
  have hlk : mlookup (layoutSubgraphs spacing o g direction) p.1 =
      some p.2 :=
    mlookup_of_mem_nodup (layoutSubgraphs_keys_nodup' spacing o g direction
      hnd) (by simpa using hp)
  exact layoutSubgraphs_parentOK spacing o g direction p.1 p.2 hlk

theorem layoutSubgraphs_PB (spacing : LayoutSpacing) (o : DagreOracle)
    (g : Graph) (direction : String) (hnd : (mkeys g.subgraphs).Nodup)
    (hroot : AllRooted g) :
    ∀ l₁ p l₂, layoutSubgraphs spacing o g direction = l₁ ++ p :: l₂ →
      ∀ par, p.2.parentId = some par → par ∈ mkeys l₁ := by
  intro l₁ p l₂ hsplit par hpar
  obtain ⟨sg, hsg, hpid⟩ := layoutSubgraphs_pid spacing o g direction hnd p
    (by
      rw [hsplit]
      exact List.mem_append.mpr (Or.inr (List.mem_cons_self _ _)))
  have hkeq : (hierFinal g).result = mkeys l₁ ++ p.1 :: mkeys l₂ := by
    rw [← hier_order_rooted_eq g hnd hroot,
      ← layoutSubgraphs_keys spacing o g direction hnd, hsplit]
    simp [mkeys]
  exact hier_result_parents_before g hnd (mkeys l₁) p.1 (mkeys l₂) hkeq
    sg par hsg (by rw [← hpid]; exact hpar)

theorem subgraphVisualStep_mono (g : Graph) (meta : MetaResult)
    (pr : Option PriorState) :
    ∀ (acc : List (String × SubgraphVisual)) (p : String × SubgraphLayout),
      mkeys acc ⊆ mkeys (subgraphVisualStep g meta pr acc p) := by
  intro acc p
  unfold subgraphVisualStep
  split
  · exact fun y hy => hy
  · split
    · split
      · exact fun y hy => mkeys_subset_minsert _ _ _ hy
      · exact fun y hy => mkeys_subset_minsert _ _ _ hy
    · exact fun y hy => mkeys_subset_minsert _ _ _ hy

theorem subgraphVisualStep_reach (g : Graph) (meta : MetaResult)
    (pr : Option PriorState) {p : String × SubgraphLayout}
    (hpos : (mlookup meta.subgraphPositions p.1).isSome = true) :
    ∀ acc, p.1 ∈ mkeys (subgraphVisualStep g meta pr acc p) := by
  intro acc
  unfold subgraphVisualStep
  obtain ⟨position, hpv⟩ := Option.isSome_iff_exists.mp hpos
  rw [hpv]
  dsimp only
  split
  · split
    · exact (mem_mkeys_minsert _ _ _ _).mpr (Or.inr rfl)
    · exact (mem_mkeys_minsert _ _ _ _).mpr (Or.inr rfl)
  · exact (mem_mkeys_minsert _ _ _ _).mpr (Or.inr rfl)

theorem nodeVisualStep_mono (g : Graph) (meta : MetaResult)
    (layouts : List (String × SubgraphLayout)) (pr : Option PriorState) :
    ∀ (acc : List (String × NodeVisual)) (nid : String),
      mkeys acc ⊆ mkeys (nodeVisualStep g meta layouts pr acc nid) := by
  intro acc nid
  unfold nodeVisualStep
  split
  · exact fun y hy => hy
  · split
    · split
      · exact fun y hy => mkeys_subset_minsert _ _ _ hy
      · exact fun y hy => mkeys_subset_minsert _ _ _ hy
    · exact fun y hy => mkeys_subset_minsert _ _ _ hy

theorem autoLayout_subgraphs_eq (spacing : LayoutSpacing) (o : DagreOracle)
    (g : Graph) (pr : Option PriorState) :
    (autoLayout spacing o g pr).subgraphs =
      (layoutSubgraphs spacing o g g.meta.direction).foldl
        (subgraphVisualStep g
          (layoutMetaGraph spacing o g
            (layoutSubgraphs spacing o g g.meta.direction)
            g.meta.direction) pr)
        [] := rfl

theorem autoLayout_nodes_eq (spacing : LayoutSpacing) (o : DagreOracle)
    (g : Graph) (pr : Option PriorState) :
    (autoLayout spacing o g pr).nodes =
      (mkeys g.nodes).foldl
        (nodeVisualStep g
          (layoutMetaGraph spacing o g
            (layoutSubgraphs spacing o g g.meta.direction)
            g.meta.direction)
          (layoutSubgraphs spacing o g g.meta.direction) pr)
        [] := rfl

/-- With every subgraph rooted, the computed visual state covers every
subgraph key. -/
theorem autoLayout_subgraphs_complete (spacing : LayoutSpacing)
    (o : DagreOracle) (g : Graph) (pr : Option PriorState)
    (hnd : (mkeys g.subgraphs).Nodup) (hroot : AllRooted g) :
    ∀ s ∈ mkeys g.subgraphs,
      (mlookup (autoLayout spacing o g pr).subgraphs s).isSome = true := by
  intro s hs
  rw [autoLayout_subgraphs_eq]
  have hsL : s ∈ mkeys (layoutSubgraphs spacing o g g.meta.direction) := by
    rw [layoutSubgraphs_keys spacing o g g.meta.direction hnd]
    exact hier_complete g s hs
  obtain ⟨p, hpL, hp1⟩ := List.mem_map.mp hsL
  have hpos := layoutMetaGraph_complete spacing o g
    (layoutSubgraphs spacing o g g.meta.direction) g.meta.direction
    (layoutSubgraphs_keys_nodup' spacing o g g.meta.direction hnd)
    (layoutSubgraphs_pid spacing o g g.meta.direction hnd)
    (layoutSubgraphs_PB spacing o g g.meta.direction hnd hroot) p hpL
  refine (mlookup_isSome_iff_mem_mkeys _ _).mpr ?_
  rw [← hp1]
  refine foldl_keys_reach _ (subgraphVisualStep_mono _ _ _) _ hpL ?_ []
  intro acc
  exact subgraphVisualStep_reach g _ pr
    ((mlookup_isSome_iff_mem_mkeys _ _).mpr hpos) acc

/-- The computed visual state covers every node key. -/
theorem autoLayout_nodes_complete (spacing : LayoutSpacing)
    (o : DagreOracle) (g : Graph) (pr : Option PriorState) :
    ∀ nid ∈ mkeys g.nodes,
      (mlookup (autoLayout spacing o g pr).nodes nid).isSome = true := by
  intro nid hn
  rw [autoLayout_nodes_eq]
  refine (mlookup_isSome_iff_mem_mkeys _ _).mpr ?_
  refine foldl_keys_reach _ (nodeVisualStep_mono _ _ _ _) _ hn ?_ []
  intro acc
  obtain ⟨v, hv⟩ := nodeVisualStep_eq _ _ pr acc
    ((mlookup_isSome_iff_mem_mkeys _ _).mpr hn)
  rw [hv]
  exact (mem_mkeys_minsert _ _ _ _).mpr (Or.inr rfl)

theorem sgRecordStep_len (g : Graph) (vs : VisualState) {sid : String}
    (h1 : (mlookup vs.subgraphs sid).isSome = true)
    (h2 : (mlookup g.subgraphs sid).isSome = true) :
    ∀ acc, (sgRecordStep g vs acc sid).length = acc.length + 1 := by
  intro acc
  unfold sgRecordStep
  obtain ⟨visual, hv⟩ := Option.isSome_iff_exists.mp h1
  obtain ⟨sg, hs⟩ := Option.isSome_iff_exists.mp h2
  rw [hv, hs]
  simp

theorem nodeRecordStep_len (g : Graph) (vs : VisualState)
    (direction : String) {nid : String}
    (h1 : (mlookup g.nodes nid).isSome = true)
    (h2 : (mlookup vs.nodes nid).isSome = true) :
    ∀ acc, (nodeRecordStep g vs direction acc nid).length = acc.length + 1
    := by
  intro acc
  unfold nodeRecordStep
  obtain ⟨node, hv⟩ := Option.isSome_iff_exists.mp h1
  obtain ⟨visual, hs⟩ := Option.isSome_iff_exists.mp h2
  rw [hv, hs]
  simp

theorem edgeRecordStep_len (g : Graph) (vs : VisualState)
    (isHorizontal : Bool) {eid : String}
    (h1 : (mlookup g.edges eid).isSome = true) :
    ∀ acc, (edgeRecordStep g vs isHorizontal acc eid).1.length =
      acc.1.length + 1 := by
  intro acc
  unfold edgeRecordStep
  obtain ⟨e, he⟩ := Option.isSome_iff_exists.mp h1
  rw [he]
  simp

/-- The adapter emits one container record per ordered subgraph with a
visual, one node record per node with a visual, and one edge record per
edge key. -/
theorem toReactFlow_counts (g : Graph) (vs : VisualState)
    (hsg : ∀ sid ∈ getSubgraphsInHierarchicalOrder g,
      (mlookup vs.subgraphs sid).isSome = true ∧
      (mlookup g.subgraphs sid).isSome = true)
    (hn : ∀ nid ∈ mkeys g.nodes,
      (mlookup vs.nodes nid).isSome = true) :
    (toReactFlow g vs).nodes.length =
      (getSubgraphsInHierarchicalOrder g).length + g.nodes.length ∧
    (toReactFlow g vs).edges.length = g.edges.length := by
  have hlen1 : ((getSubgraphsInHierarchicalOrder g).foldl
      (sgRecordStep g vs) []).length =
      ([] : List RFNode).length + (getSubgraphsInHierarchicalOrder g).length
    :=
    foldl_measure _ _ _
      (fun acc sid hsid =>
        sgRecordStep_len g vs (hsg sid hsid).1 (hsg sid hsid).2 acc) []
  have hlen2 : ((mkeys g.nodes).foldl
      (nodeRecordStep g vs g.meta.direction) []).length =
      ([] : List RFNode).length + (mkeys g.nodes).length :=
    foldl_measure _ _ _
      (fun acc nid hnid =>
        nodeRecordStep_len g vs g.meta.direction
          ((mlookup_isSome_iff_mem_mkeys _ _).mpr hnid) (hn nid hnid) acc) []
  have hlen3 : ∀ isHorizontal : Bool,
      (((mkeys g.edges).foldl (edgeRecordStep g vs isHorizontal)
        ([], 0)).1).length = (([], 0) : List RFEdge × Nat).1.length +
        (mkeys g.edges).length :=
    fun isHorizontal =>
      foldl_measure (fun (pr : List RFEdge × Nat) => pr.1.length) _ _
        (fun acc eid heid =>
          edgeRecordStep_len g vs isHorizontal
            ((mlookup_isSome_iff_mem_mkeys _ _).mpr heid) acc) ([], 0)
  constructor
  · simp only [toReactFlow]
    rw [List.length_append, hlen1, hlen2]
    simp [mkeys]
  · simp only [toReactFlow]
    rw [hlen3]
    simp [mkeys]

/-- C5 (amended): when the subgraph keys are distinct and every subgraph is
reachable from a parentless root, the render adapter applied to the graph
with its computed auto-layout produces exactly
`|G.nodes| + |G.subgraphs|` node records and exactly `|G.edges|` edge
records, for every layout oracle and spacing.  Without rootedness a
subgraph can stay unpositioned and its container record is dropped. -/
theorem C5_record_counts (spacing : LayoutSpacing) (o : DagreOracle)
    (g : Graph) (hnd : (mkeys g.subgraphs).Nodup) (hroot : AllRooted g) :
    (toReactFlow g (autoLayout spacing o g none)).nodes.length =
      g.nodes.length + g.subgraphs.length ∧
    (toReactFlow g (autoLayout spacing o g none)).edges.length =
      g.edges.length := by
  have hsg : ∀ sid ∈ getSubgraphsInHierarchicalOrder g,
      (mlookup (autoLayout spacing o g none).subgraphs sid).isSome = true ∧
      (mlookup g.subgraphs sid).isSome = true := by
    intro sid hsid
    have hk : sid ∈ mkeys g.subgraphs := (hier_perm g hnd).mem_iff.mp hsid
    exact ⟨autoLayout_subgraphs_complete spacing o g none hnd hroot sid hk,
      (mlookup_isSome_iff_mem_mkeys _ _).mpr hk⟩
  have hn : ∀ nid ∈ mkeys g.nodes,
      (mlookup (autoLayout spacing o g none).nodes nid).isSome = true :=
    fun nid hnid => autoLayout_nodes_complete spacing o g none nid hnid
  obtain ⟨h1, h2⟩ := toReactFlow_counts g (autoLayout spacing o g none)
    hsg hn
  constructor
  · rw [h1]
    have hpl := (hier_perm g hnd).length_eq
    simp only [mkeys, List.length_map] at hpl
    omega
  · exact h2

unseal Rat.add Rat.sub Rat.mul Rat.inv in
/-- C5, counterexample: with a self-parent subgraph, the subgraph never
receives a position, its container record is dropped, and the adapter
emits 0 node records although `|G.nodes| + |G.subgraphs| = 1`. -/
theorem C5_counterexample :
    (toReactFlow selfParentGraph
      (autoLayout defaultSpacing zeroOracle selfParentGraph none)).nodes.length
      = 0 ∧
    selfParentGraph.nodes.length + selfParentGraph.subgraphs.length = 1 :=
  ⟨by decide, by decide⟩

/-- C5, witness: the amended count theorem applied to a concrete rooted
graph: 2 nodes, 2 subgraphs and 1 edge yield 4 node records and 1 edge
record. -/
theorem C5_witness :
    (mkeys c5Graph.subgraphs).Nodup ∧
    ((toReactFlow c5Graph
        (autoLayout defaultSpacing zeroOracle c5Graph none)).nodes.length =
      c5Graph.nodes.length + c5Graph.subgraphs.length ∧
    (toReactFlow c5Graph
        (autoLayout defaultSpacing zeroOracle c5Graph none)).edges.length =
      c5Graph.edges.length) :=
  ⟨by decide,
    C5_record_counts defaultSpacing zeroOracle c5Graph (by decide)
      (by
        intro s hs
        have hk : mkeys c5Graph.subgraphs = ["P", "C"] := rfl
        rw [hk] at hs
        rcases (by simpa using hs : s = "P" ∨ s = "C") with rfl | rfl
        · exact ⟨1, by decide⟩
        · exact ⟨2, by decide⟩)⟩
